import Mathlib

/-!
Verification of the memory-lifetime verifier (lib/SIL/MemoryLifetime.cpp).

The development shallowly embeds the three components of the verifier:

* the generic bit-vector dataflow solver (`MemoryDataflow::solveDataflowForward`),
* the lifetime verifier proper (`initDataflow`, `initDataflowInBlock`,
  `setBitsOfPredecessor`, `setFuncOperandBits`, `checkFunction`, `checkBlock`,
  `checkFuncArgument`),
* the location analysis (`MemoryLocations::analyzeLocation`,
  `analyzeLocationUsesRecursively`, `analyzeAddrProjection`,
  `initFieldsCounter`, `allUsesInSameBlock`).

Bit vectors (`SmallBitVector` of width `numLocations`) are embedded as
`Finset Nat`; the all-ones vector of width `w` is `Finset.range w`.
-/

namespace MemoryLifetime

/-- Bits models `MemoryLocations::Bits` (`llvm::SmallBitVector`): a bit vector of
location indices.  A fixed-width vector of width `w` is a `Finset Nat` whose
elements are below `w`; the all-ones vector is `Finset.range w`. -/
abbrev Bits := Finset Nat

/-- BlockState models `MemoryDataflow::BlockState`: the four per-block bit
vectors plus the reachability flags.  The `block` back-pointer of the C++
struct is the index of the state in the state table here. -/
structure BlockState where
  entrySet : Bits
  genSet : Bits
  killSet : Bits
  exitSet : Bits
  reachableFromEntry : Bool
  exitReachable : Bool
deriving DecidableEq

instance : Inhabited BlockState := ⟨⟨∅, ∅, ∅, ∅, false, false⟩⟩

/-! ### The forward dataflow solver

`solveDataflowForward` iterates over the block states in index order.  For each
block it intersects the running `entrySet` with every predecessor's `exitSet`;
if this is the first round or the entry set changed, the block's `entrySet` and
`exitSet` are recomputed and the `changed` flag is raised.  The do-while loop
repeats until a round leaves every block unchanged.  The C++ loop is unbounded;
here it is run with an explicitly sufficient amount of fuel
(`entryCardSum init + 2` rounds), which `solveDataflowForward_terminates`
proves reaches the fixed point. -/

variable {n : Nat}

/-- interPreds models the loop `for (SILBasicBlock *pred : ...) bits &= block2State[pred]->exitSet;`
starting from `bits = st.entrySet`. -/
def interPreds (sts : Fin n → BlockState) (start : Bits) (ps : List (Fin n)) : Bits :=
  ps.foldl (fun b p => b ∩ (sts p).exitSet) start

/-- transfer models the body of the `if` in `solveDataflowForward`:
`st.entrySet = bits; bits |= st.genSet; bits.reset(st.killSet); st.exitSet = bits;`. -/
def transfer (st : BlockState) (bits : Bits) : BlockState :=
  { st with entrySet := bits, exitSet := (bits ∪ st.genSet) \ st.killSet }

/-- updateBlock is one iteration of the inner `for (BlockState &st : blockStates)`
loop of `solveDataflowForward`, processing block `i` and threading the
(state table, changed flag) pair. -/
def updateBlock (preds : Fin n → List (Fin n)) (firstRound : Bool)
    (sc : (Fin n → BlockState) × Bool) (i : Fin n) : (Fin n → BlockState) × Bool :=
  let sts := sc.1
  let st := sts i
  let bits := interPreds sts st.entrySet (preds i)
  if firstRound = true ∨ bits ≠ st.entrySet then
    (Function.update sts i (transfer st bits), true)
  else sc

/-- forwardRound is one full round of the do-while loop of
`solveDataflowForward`: all blocks in index order, `changed` initially false. -/
def forwardRound (preds : Fin n → List (Fin n)) (firstRound : Bool)
    (sts : Fin n → BlockState) : (Fin n → BlockState) × Bool :=
  (List.finRange n).foldl (updateBlock preds firstRound) (sts, false)

/-- entryCardSum is the termination measure for the solver: the total number of
set entry bits over all blocks. -/
def entryCardSum (sts : Fin n → BlockState) : Nat :=
  ∑ i, (sts i).entrySet.card

/-- solveForwardAux runs the do-while loop of `solveDataflowForward` for at
most `fuel` rounds.  The boolean result is true iff the loop exited because a
round reported no change (the fixed point was reached). -/
def solveForwardAux (preds : Fin n → List (Fin n)) :
    Nat → Bool → (Fin n → BlockState) → (Fin n → BlockState) × Bool
  | 0, _, sts => (sts, false)
  | fuel + 1, firstRound, sts =>
    let rc := forwardRound preds firstRound sts
    if rc.2 then solveForwardAux preds fuel false rc.1 else (rc.1, true)

/-- solveDataflowForward models `MemoryDataflow::solveDataflowForward`.  The
fuel `entryCardSum sts + 2` is sufficient to reach the fixed point
(`solveDataflowForward_terminates`), so this equals the result of the
unbounded C++ do-while loop. -/
def solveDataflowForward (preds : Fin n → List (Fin n))
    (sts : Fin n → BlockState) : Fin n → BlockState :=
  (solveForwardAux preds (entryCardSum sts + 2) true sts).1

/-- Coherent states that a block's exit set is the transfer of its entry set,
`exitSet = (entrySet ∪ genSet) \ killSet`.  Every block update of the solver
establishes this equation for the updated block. -/
def Coherent (st : BlockState) : Prop :=
  st.exitSet = (st.entrySet ∪ st.genSet) \ st.killSet

/-- Bounded states that a block state's bit vectors only mention locations
below the width `w`, as the fixed-width `SmallBitVector`s of the source do. -/
def Bounded (w : Nat) (st : BlockState) : Prop :=
  st.entrySet ⊆ Finset.range w ∧ st.genSet ⊆ Finset.range w ∧
    st.exitSet ⊆ Finset.range w

/-- ExitOk states that a block's exit set is either still the all-ones initial
seed or already coherent; this holds at every point of the solver run. -/
def ExitOk (w : Nat) (st : BlockState) : Prop :=
  st.exitSet = Finset.range w ∨ Coherent st

/-- Inv2 states that every block's entry set contains the intersection of its
predecessors' exit sets; together with the fixed-point inclusion this gives
the equality of the two at convergence. -/
def Inv2 (preds : Fin n → List (Fin n)) (sts : Fin n → BlockState) : Prop :=
  ∀ i : Fin n, preds i ≠ [] →
    ∀ x : Nat, (∀ p ∈ preds i, x ∈ (sts p).exitSet) → x ∈ (sts i).entrySet

/-- predExitInter is the plain intersection of the exit sets of a (nonempty)
predecessor list, the right-hand side of the fixed-point equation
`entrySet = intersection over predecessors' exitSet`. -/
def predExitInter (sts : Fin n → BlockState) : List (Fin n) → Bits
  | [] => ∅
  | p :: ps => ps.foldl (fun b q => b ∩ (sts q).exitSet) (sts p).exitSet

/-- Witness configuration for the solver theorems: a two-block CFG where
block 1 has block 0 as its single predecessor. -/
def preds2 : Fin 2 → List (Fin 2) := fun i => if i.val = 1 then [0] else []

/-- Witness configuration for the solver theorems: block 0 generates location
0 and block 1 is seeded all-ones, exit sets all-ones. -/
def init2 : Fin 2 → BlockState := fun i =>
  if i.val = 0 then ⟨∅, {0}, ∅, Finset.range 1, true, false⟩
  else ⟨Finset.range 1, ∅, ∅, Finset.range 1, false, false⟩

/-! ### The lifetime verifier

The verifier walks a SIL function.  Its view of an address operand is fully
determined by `MemoryLocations::getLocation`: either the address resolves to a
tracked location, whose `subLocations` bit set drives all bit updates, or it
is untracked and ignored.  An address operand is therefore embedded as
`Option Bits`: `some s` for a tracked location with sublocation bits `s`,
`none` for an untracked address. -/

/-- Addr is the verifier's view of an address operand: the `subLocations` bit
set of the tracked location it resolves to (via `MemoryLocations::getLocation`,
which strips `begin_access`), or `none` when untracked. -/
abbrev Addr := Option Bits

/-- Modelled from the spec: `MemoryLocations::setBits` is declared in
`MemoryLifetime.h`, which is not part of the sources; per spec section 4.1 it
ORs the target location's `subLocations` bits into a caller-supplied bit
vector, and does nothing for an untracked address. -/
def setBits (bits : Bits) (a : Addr) : Bits :=
  match a with
  | none => bits
  | some s => bits ∪ s

/-- Modelled from the spec: `MemoryLocations::clearBits` is declared in
`MemoryLifetime.h`, which is not part of the sources; per spec section 4.1 it
ANDs the complement of the target location's `subLocations` bits into a
caller-supplied bit vector, and does nothing for an untracked address. -/
def clearBits (bits : Bits) (a : Addr) : Bits :=
  match a with
  | none => bits
  | some s => bits \ s

/-- SILArgumentConvention models `swift::SILArgumentConvention`. -/
inductive SILArgumentConvention where
  | indirect_In
  | indirect_In_Constant
  | indirect_In_Guaranteed
  | indirect_Inout
  | indirect_InoutAliasable
  | indirect_Out
  | direct_Owned
  | direct_Unowned
  | direct_Deallocating
  | direct_Guaranteed
deriving DecidableEq

/-- isIndirectConvention is `SILArgumentConvention::isIndirectConvention`. -/
def isIndirectConvention : SILArgumentConvention → Bool
  | .indirect_In | .indirect_In_Constant | .indirect_In_Guaranteed
  | .indirect_Inout | .indirect_InoutAliasable | .indirect_Out => true
  | _ => false

/-- LoadOwnershipQualifier models `swift::LoadOwnershipQualifier` (the
`Unqualified` case is excluded by `llvm_unreachable` in ownership SIL). -/
inductive LoadOwnershipQualifier where
  | take
  | copy
  | trivial
deriving DecidableEq

/-- StoreOwnershipQualifier models `swift::StoreOwnershipQualifier` (the
`Unqualified` case is excluded by `llvm_unreachable` in ownership SIL). -/
inductive StoreOwnershipQualifier where
  | init
  | assign
  | trivial
deriving DecidableEq

/-- Instr models the non-terminator SIL instructions the verifier dispatches
on, with every address operand pre-resolved to its `Addr` view.  `apply`
carries its argument operands with their conventions; every instruction kind
the verifier ignores is `other`. -/
inductive Instr where
  | load (a : Addr) (q : LoadOwnershipQualifier)
  | store (a : Addr) (q : StoreOwnershipQualifier)
  | copyAddr (src : Addr) (dst : Addr) (isTakeOfSrc : Bool) (isInitOfDest : Bool)
  | destroyAddr (a : Addr)
  | endBorrow (orig : Addr)
  | apply (args : List (Addr × SILArgumentConvention))
  | debugValueAddr (a : Addr)
  | deallocStack (a : Addr)
  | other
deriving DecidableEq

/-- Term models the block terminators the verifier distinguishes: the
function-exiting terminators (`return`, `unwind`, `throw`), the may-throw call
`try_apply` with its argument operands and its normal and error successor
block indices, `yield` with its operands and successors, and a plain branch
carrying its successor indices for everything else. -/
inductive Term where
  | ret
  | unwind
  | throw
  | tryApply (args : List (Addr × SILArgumentConvention)) (normalBB errorBB : Nat)
  | yield (args : List (Addr × SILArgumentConvention)) (succs : List Nat)
  | br (succs : List Nat)
deriving DecidableEq

/-- termSuccs lists a terminator's successor block indices. -/
def termSuccs : Term → List Nat
  | .ret | .unwind | .throw => []
  | .tryApply _ normalBB errorBB => [normalBB, errorBB]
  | .yield _ succs => succs
  | .br succs => succs

/-- isTryApplyTerm tests `isa<TryApplyInst>(term)`. -/
def isTryApplyTerm : Term → Bool
  | .tryApply _ _ _ => true
  | _ => false

/-- Block models a SIL basic block: its non-terminator instructions in order
followed by its terminator. -/
structure Block where
  instrs : List Instr
  term : Term
deriving DecidableEq

/-- Func models the part of a `SILFunction` the verifier reads: the function
arguments (each with its `Addr` view and convention), the blocks in layout
order (block 0 is the entry block), and the number of tracked locations. -/
structure Func where
  args : List (Addr × SILArgumentConvention)
  blocks : List Block
  numLocations : Nat

/-- getBlock reads a block by index (indices are in range in every use). -/
def getBlock (f : Func) (b : Nat) : Block :=
  f.blocks.getD b ⟨[], .br []⟩

/-- predBlocks lists the predecessor blocks of `b` (each predecessor block
once, in layout order), modelling `SILBasicBlock::getPredecessorBlocks`. -/
def predBlocks (f : Func) (b : Nat) : List Nat :=
  (List.range f.blocks.length).filter (fun p => b ∈ termSuccs (getBlock f p).term)

/-- getSinglePredecessorBlock returns the predecessor block if `b` has exactly
one, modelling `SILBasicBlock::getSinglePredecessorBlock`. -/
def getSinglePredecessorBlock (f : Func) (b : Nat) : Option Nat :=
  match predBlocks f b with
  | [p] => some p
  | _ => none

/-- setBitsOfPredecessor models `MemoryLifetimeVerifier::setBitsOfPredecessor`:
if `block` has a single predecessor whose terminator is a `try_apply` with
`block` as its normal successor, the bits of every `@out` argument of the call
are ORed into `bits`; otherwise `bits` is returned unchanged. -/
def setBitsOfPredecessor (f : Func) (block : Nat) (bits : Bits) : Bits :=
  match getSinglePredecessorBlock f block with
  | none => bits
  | some pred =>
    match (getBlock f pred).term with
    | .tryApply args normalBB _ =>
      if normalBB = block then
        args.foldl (fun bs ac =>
          if ac.2 = .indirect_Out then setBits bs ac.1 else bs) bits
      else bits
    | _ => bits

/-- GenKill is the gen/kill part of a block state while
`initDataflowInBlock` accumulates it. -/
structure GenKill where
  genSet : Bits
  killSet : Bits
deriving DecidableEq

/-- Modelled from the spec: `BlockState::genBits` is declared in
`MemoryLifetime.h`, which is not part of the sources.  Per the spec's glossary
the gen/kill sets record which locations a block unconditionally initializes
(gen) respectively de-initializes (kill), so recording a gen effect both adds
the location's bits to the gen set and removes them from the kill set (a later
initialization overrides an earlier de-initialization). -/
def GenKill.genBits (st : GenKill) (a : Addr) : GenKill :=
  match a with
  | none => st
  | some s => ⟨st.genSet ∪ s, st.killSet \ s⟩

/-- Modelled from the spec: `BlockState::killBits` is declared in
`MemoryLifetime.h`, which is not part of the sources.  Dual to
`GenKill.genBits`: a kill effect adds the bits to the kill set and removes
them from the gen set. -/
def GenKill.killBits (st : GenKill) (a : Addr) : GenKill :=
  match a with
  | none => st
  | some s => ⟨st.genSet \ s, st.killSet ∪ s⟩

/-- setFuncOperandBits models `MemoryLifetimeVerifier::setFuncOperandBits`:
`@in`/`@in_constant` arguments kill their location, `@out` arguments gen
their location — except on a `try_apply`, whose `@out` results are handled by
`setBitsOfPredecessor` of the normal successor — and all other conventions
have no effect. -/
def setFuncOperandBits (st : GenKill) (a : Addr)
    (convention : SILArgumentConvention) (isTryApply : Bool) : GenKill :=
  match convention with
  | .indirect_In | .indirect_In_Constant => st.killBits a
  | .indirect_Out => if isTryApply then st else st.genBits a
  | _ => st

/-- instrGenKill is the per-instruction dispatch of
`MemoryLifetimeVerifier::initDataflowInBlock` for non-terminator
instructions. -/
def instrGenKill (st : GenKill) : Instr → GenKill
  | .load a q =>
    match q with
    | .take => st.killBits a
    | _ => st
  | .store a _ => st.genBits a
  | .copyAddr src dst isTakeOfSrc isInitOfDest =>
    let st1 := if isTakeOfSrc then st.killBits src else st
    if isInitOfDest then st1.genBits dst else st1
  | .destroyAddr a => st.killBits a
  | .apply args =>
    args.foldl (fun st ac => setFuncOperandBits st ac.1 ac.2 false) st
  | _ => st

/-- termGenKill is the dispatch of `initDataflowInBlock` for the terminator
(the terminator is part of the block's instruction list in SIL): `try_apply`
is a `FullApplySite` with `isTryApply` set, `yield` one with it clear, and the
remaining terminators have no gen/kill effect. -/
def termGenKill (st : GenKill) : Term → GenKill
  | .tryApply args _ _ =>
    args.foldl (fun st ac => setFuncOperandBits st ac.1 ac.2 true) st
  | .yield args _ =>
    args.foldl (fun st ac => setFuncOperandBits st ac.1 ac.2 false) st
  | _ => st

/-- initDataflowInBlock models `MemoryLifetimeVerifier::initDataflowInBlock`:
the gen set starts with the `setBitsOfPredecessor` bits (the `@out` results of
a `try_apply` terminating a single predecessor), then every instruction of the
block including the terminator adds its gen/kill effects. -/
def initDataflowInBlock (f : Func) (b : Nat) : GenKill :=
  termGenKill
    ((getBlock f b).instrs.foldl instrGenKill
      ⟨setBitsOfPredecessor f b ∅, ∅⟩)
    (getBlock f b).term

/-- reachStep adds every successor of an already reached block, one step of
the worklist of `MemoryDataflow::entryReachabilityAnalysis`. -/
def reachStep (f : Func) (s : Finset Nat) : Finset Nat :=
  s ∪ s.biUnion (fun p =>
    ((termSuccs (getBlock f p).term).filter (· < f.blocks.length)).toFinset)

/-- entryReachability computes the set of blocks reachable from the entry
block (block 0).  The worklist of `entryReachabilityAnalysis` saturates after
at most `f.blocks.length` expansion steps, so iterating `reachStep` that often
computes exactly the set of blocks whose `reachableFromEntry` flag the
worklist sets. -/
def entryReachability (f : Func) : Finset Nat :=
  (reachStep f)^[f.blocks.length] {0}

/-- initDataflow models `MemoryLifetimeVerifier::initDataflow` (together with
the preceding `entryReachabilityAnalysis` call of `verify`): the entry block's
entry set is cleared and re-seeded with the bits of every function argument
whose convention is not `@out`; every other entry set and all exit sets are
set to all-ones; gen/kill sets are filled by `initDataflowInBlock` for blocks
reachable from the entry and stay empty for unreachable blocks. -/
def initDataflow (f : Func) : Fin f.blocks.length → BlockState := fun i =>
  let reach := decide (i.val ∈ entryReachability f)
  let gk := if reach then initDataflowInBlock f i.val else ⟨∅, ∅⟩
  { entrySet :=
      if i.val = 0 then
        f.args.foldl (fun bs ac =>
          if ac.2 ≠ SILArgumentConvention.indirect_Out then setBits bs ac.1
          else bs) ∅
      else Finset.range f.numLocations
    genSet := gk.genSet
    killSet := gk.killSet
    exitSet := Finset.range f.numLocations
    reachableFromEntry := reach
    exitReachable := false }

/-- predsOfFunc is the predecessor relation of `f` as the dataflow solver
consumes it. -/
def predsOfFunc (f : Func) : Fin f.blocks.length → List (Fin f.blocks.length) :=
  fun i => (List.finRange f.blocks.length).filter
    (fun j => i.val ∈ termSuccs (getBlock f j.val).term)

/-- Failure is one verification failure: the complaint string passed to
`MemoryLifetimeVerifier::require`, the block of the offending instruction, and
the instruction's position in the block (the terminator has position
`(getBlock f b).instrs.length`).  The development models the collect mode
(`DontAbortOnMemoryLifetimeErrors`), in which every failed requirement is
reported and checking continues. -/
structure Failure where
  complaint : String
  block : Nat
  instr : Nat
deriving DecidableEq

/-- require models `MemoryLifetimeVerifier::require(const Bits &, ...)`: a
failure is signalled iff some wrong bit is set. -/
def require (wrongBits : Bits) (complaint : String) (block instr : Nat) :
    List Failure :=
  if wrongBits.Nonempty then [⟨complaint, block, instr⟩] else []

/-- requireBitsSet models `MemoryLifetimeVerifier::requireBitsSet`: for a
tracked address all of its `subLocations` bits must be set
(`require(~bits & loc->subLocations, ...)`). -/
def requireBitsSet (bits : Bits) (a : Addr) (block instr : Nat) : List Failure :=
  match a with
  | none => []
  | some s => require (s \ bits) "memory is not initialized, but should" block instr

/-- requireBitsClear models `MemoryLifetimeVerifier::requireBitsClear`: for a
tracked address none of its `subLocations` bits may be set
(`require(bits & loc->subLocations, ...)`). -/
def requireBitsClear (bits : Bits) (a : Addr) (block instr : Nat) : List Failure :=
  match a with
  | none => []
  | some s => require (bits ∩ s) "memory is initialized, but shouldn't" block instr

/-- checkFuncArgument models `MemoryLifetimeVerifier::checkFuncArgument`,
returning the signalled failures and the updated live bits. -/
def checkFuncArgument (bits : Bits) (a : Addr)
    (argumentConvention : SILArgumentConvention) (block instr : Nat) :
    List Failure × Bits :=
  match argumentConvention with
  | .indirect_In | .indirect_In_Constant =>
    (requireBitsSet bits a block instr, clearBits bits a)
  | .indirect_Out =>
    (requireBitsClear bits a block instr, setBits bits a)
  | .indirect_In_Guaranteed | .indirect_Inout | .indirect_InoutAliasable =>
    (requireBitsSet bits a block instr, bits)
  | _ => ([], bits)

/-- checkArgs folds `checkFuncArgument` over the argument operands of a call
or yield in operand order, accumulating failures. -/
def checkArgs (bits : Bits) (args : List (Addr × SILArgumentConvention))
    (block instr : Nat) : List Failure × Bits :=
  args.foldl
    (fun acc ac =>
      let r := checkFuncArgument acc.2 ac.1 ac.2 block instr
      (acc.1 ++ r.1, r.2))
    ([], bits)

/-- checkInstr is the per-instruction dispatch of
`MemoryLifetimeVerifier::checkBlock` for non-terminator instructions. -/
def checkInstr (bits : Bits) (block instr : Nat) : Instr → List Failure × Bits
  | .load a q =>
    let fl := requireBitsSet bits a block instr
    match q with
    | .take => (fl, clearBits bits a)
    | _ => (fl, bits)
  | .store a q =>
    match q with
    | .init => (requireBitsClear bits a block instr, setBits bits a)
    | .assign => (requireBitsSet bits a block instr, bits)
    | .trivial => ([], setBits bits a)
  | .copyAddr src dst isTakeOfSrc isInitOfDest =>
    let fl := requireBitsSet bits src block instr
    let bits1 := if isTakeOfSrc then clearBits bits src else bits
    if isInitOfDest then
      (fl ++ requireBitsClear bits1 dst block instr, setBits bits1 dst)
    else
      (fl ++ requireBitsSet bits1 dst block instr, bits1)
  | .destroyAddr a =>
    (requireBitsSet bits a block instr, clearBits bits a)
  | .endBorrow orig =>
    (requireBitsSet bits orig block instr, bits)
  | .apply args => checkArgs bits args block instr
  | .debugValueAddr a =>
    (requireBitsSet bits a block instr, bits)
  | .deallocStack a =>
    (requireBitsClear bits a block instr, bits)
  | .other => ([], bits)

/-- checkTermInstr is the dispatch of `checkBlock` for the terminator:
`try_apply` and `yield` check their argument operands like `apply` does, the
remaining terminators check nothing. -/
def checkTermInstr (bits : Bits) (block instr : Nat) : Term → List Failure × Bits
  | .tryApply args _ _ => checkArgs bits args block instr
  | .yield args _ => checkArgs bits args block instr
  | _ => ([], bits)

/-- checkBlock models `MemoryLifetimeVerifier::checkBlock`: seed the running
bits with `setBitsOfPredecessor`, then replay every instruction of the block
(terminator last), collecting failures and the final live bits. -/
def checkBlock (f : Func) (b : Nat) (entry : Bits) : List Failure × Bits :=
  let bits0 := setBitsOfPredecessor f b entry
  let blk := getBlock f b
  let body := blk.instrs.enum.foldl
    (fun acc p =>
      let r := checkInstr acc.2 b p.1 p.2
      (acc.1 ++ r.1, r.2))
    ([], bits0)
  let t := checkTermInstr body.2 b blk.instrs.length blk.term
  (body.1 ++ t.1, t.2)

/-- expectedReturnBits collects the bits `checkFunction` requires to be set at
`return`/`unwind` terminators: every `@inout`, `@in_guaranteed` and `@out`
argument. -/
def expectedReturnBits (f : Func) : Bits :=
  f.args.foldl
    (fun bs ac =>
      match ac.2 with
      | .indirect_Inout | .indirect_In_Guaranteed | .indirect_Out => setBits bs ac.1
      | _ => bs) ∅

/-- expectedThrowBits collects the bits `checkFunction` requires to be set at
`throw` terminators: every `@inout` and `@in_guaranteed` argument. -/
def expectedThrowBits (f : Func) : Bits :=
  f.args.foldl
    (fun bs ac =>
      match ac.2 with
      | .indirect_Inout | .indirect_In_Guaranteed => setBits bs ac.1
      | _ => bs) ∅

/-- mergeChecks models the merge-point loop of
`MemoryLifetimeVerifier::checkFunction`: for every predecessor of the block
that is reachable from the entry, the symmetric difference of the block's
solved entry set and the predecessor's solved exit set must be empty; a
mismatch is anchored at the block's first instruction. -/
def mergeChecks (f : Func) (sts : Fin f.blocks.length → BlockState)
    (i : Fin f.blocks.length) : List Failure :=
  (predsOfFunc f i).flatMap fun p =>
    if (sts p).reachableFromEntry then
      require (((sts i).entrySet \ (sts p).exitSet) ∪
          ((sts p).exitSet \ (sts i).entrySet))
        "lifetime mismatch in predecessors" i.val 0
    else []

/-- exitChecks models the function-exit switch of `checkFunction`: at a
`return` or `unwind` terminator the solved exit set must contain every
expected return bit and nothing else; at a `throw` terminator likewise with
the expected throw bits; other terminators are not function exits. -/
def exitChecks (f : Func) (st : BlockState) (b : Nat) : List Failure :=
  let ti := (getBlock f b).instrs.length
  match (getBlock f b).term with
  | .ret | .unwind =>
    require (expectedReturnBits f \ st.exitSet)
        "indirect argument is not alive at function return" b ti ++
      require (st.exitSet \ expectedReturnBits f)
        "memory is initialized at function return but shouldn't" b ti
  | .throw =>
    require (expectedThrowBits f \ st.exitSet)
        "indirect argument is not alive at throw" b ti ++
      require (st.exitSet \ expectedThrowBits f)
        "memory is initialized at throw but shouldn't" b ti
  | _ => []

/-- checkFunction models `MemoryLifetimeVerifier::checkFunction` in collect
mode: every block reachable from the entry is replayed with `checkBlock` from
its solved entry set, then its merge points and (for function-exiting
terminators) its solved exit bits are checked; unreachable blocks are skipped
entirely. -/
def checkFunction (f : Func) (sts : Fin f.blocks.length → BlockState) :
    List Failure :=
  (List.finRange f.blocks.length).flatMap fun i =>
    if (sts i).reachableFromEntry then
      (checkBlock f i.val (sts i).entrySet).1 ++ mergeChecks f sts i ++
        exitChecks f (sts i) i.val
    else []

/-- bodyComplaint lists the complaints `checkBlock` can signal (all its
requirements go through `requireBitsSet` or `requireBitsClear`). -/
def bodyComplaint (c : String) : Prop :=
  c = "memory is not initialized, but should" ∨
    c = "memory is initialized, but shouldn't"

/-- exitComplaint lists the complaints of the function-exit checks of
`checkFunction`. -/
def exitComplaint (c : String) : Prop :=
  c = "indirect argument is not alive at function return" ∨
    c = "memory is initialized at function return but shouldn't" ∨
    c = "indirect argument is not alive at throw" ∨
    c = "memory is initialized at throw but shouldn't"

/-- ExitCheckSpec is the C2 property for one block: a function-exit failure is
signalled at the block iff the solved exit bits deviate from the
convention-derived expectation, the missing-liveness complaint appears iff an
expected bit is missing, and the leak complaint appears iff a bit outside the
expected set is still set. -/
def ExitCheckSpec (f : Func) (sts : Fin f.blocks.length → BlockState)
    (i : Fin f.blocks.length) : Prop :=
  (((getBlock f i.val).term = Term.ret ∨ (getBlock f i.val).term = Term.unwind) →
    ((∃ fl ∈ checkFunction f sts, fl.block = i.val ∧ exitComplaint fl.complaint) ↔
      (sts i).exitSet ≠ expectedReturnBits f)) ∧
  ((getBlock f i.val).term = Term.throw →
    ((∃ fl ∈ checkFunction f sts, fl.block = i.val ∧ exitComplaint fl.complaint) ↔
      (sts i).exitSet ≠ expectedThrowBits f)) ∧
  (((getBlock f i.val).term = Term.ret ∨ (getBlock f i.val).term = Term.unwind) →
    (((⟨"indirect argument is not alive at function return", i.val,
          (getBlock f i.val).instrs.length⟩ : Failure) ∈ checkFunction f sts) ↔
      (expectedReturnBits f \ (sts i).exitSet).Nonempty)) ∧
  (((getBlock f i.val).term = Term.ret ∨ (getBlock f i.val).term = Term.unwind) →
    (((⟨"memory is initialized at function return but shouldn't", i.val,
          (getBlock f i.val).instrs.length⟩ : Failure) ∈ checkFunction f sts) ↔
      ((sts i).exitSet \ expectedReturnBits f).Nonempty)) ∧
  ((getBlock f i.val).term = Term.throw →
    (((⟨"indirect argument is not alive at throw", i.val,
          (getBlock f i.val).instrs.length⟩ : Failure) ∈ checkFunction f sts) ↔
      (expectedThrowBits f \ (sts i).exitSet).Nonempty)) ∧
  ((getBlock f i.val).term = Term.throw →
    (((⟨"memory is initialized at throw but shouldn't", i.val,
          (getBlock f i.val).instrs.length⟩ : Failure) ∈ checkFunction f sts) ↔
      ((sts i).exitSet \ expectedThrowBits f).Nonempty))

/-- Witness configuration for the exit-check theorem: one `@inout` argument
with location bit 0, a single block ending in `return`, and solved states
whose exit set is empty (deviating from the expected bits). -/
def fC2 : Func :=
  { args := [(some {0}, SILArgumentConvention.indirect_Inout)],
    blocks := [⟨[], Term.ret⟩],
    numLocations := 1 }

/-- Witness states for `checkFunction_exit_failure_iff`. -/
def stsC2 : Fin fC2.blocks.length → BlockState :=
  fun _ => ⟨{0}, ∅, ∅, ∅, true, false⟩

/-- outArgBits is the union of the location bits of the `@out` arguments of a
call, the bits `setBitsOfPredecessor` ORs into the normal successor. -/
def outArgBits (args : List (Addr × SILArgumentConvention)) : Bits :=
  args.foldl (fun bs ac =>
    if ac.2 = SILArgumentConvention.indirect_Out then setBits bs ac.1 else bs) ∅

/-- Witness function for the `try_apply` edge theorem: block 0 ends in a
`try_apply` with one `@out` argument (bit 0), normal successor 1 and error
successor 2, each with block 0 as its single predecessor. -/
def fC3 : Func :=
  { args := [],
    blocks :=
      [⟨[], Term.tryApply [(some {0}, SILArgumentConvention.indirect_Out)] 1 2⟩,
        ⟨[], Term.ret⟩,
        ⟨[], Term.throw⟩],
    numLocations := 1 }

/-- Counterexample function for C3 as stated: the normal successor (block 1)
of the `try_apply` has a second predecessor (block 3 branches to it), so
`getSinglePredecessorBlock` fails and `setBitsOfPredecessor` adds nothing. -/
def fC3x : Func :=
  { args := [],
    blocks :=
      [⟨[], Term.tryApply [(some {0}, SILArgumentConvention.indirect_Out)] 1 2⟩,
        ⟨[], Term.ret⟩,
        ⟨[], Term.throw⟩,
        ⟨[], Term.br [1]⟩],
    numLocations := 1 }

/-- Witness function for the seeding theorem: an `@inout` argument (bit 0),
an `@out` argument (bit 1) and an untracked direct argument. -/
def fC9 : Func :=
  { args := [(some {0}, SILArgumentConvention.indirect_Inout),
      (some {1}, SILArgumentConvention.indirect_Out),
      (none, SILArgumentConvention.direct_Owned)],
    blocks := [⟨[], Term.ret⟩],
    numLocations := 2 }

/-! ### Agreement of the gen/kill summary with the instruction replay

`checkFunction` asserts `bits == st.exitSet || isa<TryApplyInst>(term)` after
replaying a block: the per-block gen/kill summary that fed the solver and the
instruction-by-instruction replay compute the same transfer function — as long
as the replay raises no failure (a failed `requireBitsSet` of an `assign`
store leaves the replayed bits unchanged while the summary gens them). -/

/-- transferGenKill applies a gen/kill summary to an entry set,
`(entry ∪ gen) \ kill`. -/
def transferGenKill (entry : Bits) (gk : GenKill) : Bits :=
  (entry ∪ gk.genSet) \ gk.killSet

/-- Counterexample function for C10 as stated: one `@out` argument (bit 0)
whose location is assigned by an `assign`-qualified store in the entry block.
The solved entry set is empty, the summary gens bit 0, so the solved exit set
is `{0}`; the replay reports an uninitialized-memory failure at the store and
leaves the bits empty. -/
def fC10x : Func :=
  { args := [(some {0}, SILArgumentConvention.indirect_Out)],
    blocks := [⟨[Instr.store (some {0}) StoreOwnershipQualifier.assign],
      Term.ret⟩],
    numLocations := 1 }

/-- Witness function for the replay theorem: one `@inout` argument (bit 0)
read by a copy-qualified load in the entry block, which verifies cleanly. -/
def fC10 : Func :=
  { args := [(some {0}, SILArgumentConvention.indirect_Inout)],
    blocks := [⟨[Instr.load (some {0}) LoadOwnershipQualifier.copy], Term.ret⟩],
    numLocations := 1 }

/-! ### The location model

`MemoryLocations` decomposes every tracked root (indirect argument or
`alloc_stack`) into a table of `Location`s by walking the root's uses
recursively.  `shouldTrackLocation` is declared in `MemoryLifetime.h`, which
is not part of the sources, so the whole analysis is parameterized by an
arbitrary predicate `track : Ty → Bool`. -/

/-- INT_MAX is the C++ `INT_MAX` that `initFieldsCounter` assigns to
resilient aggregates. -/
def INT_MAX : Int := 2147483647

/-- Ty models the part of `SILType` the location analysis inspects: a nominal
type with its resilience flag and stored-property types, a tuple type with
its element types, or a scalar. -/
inductive Ty where
  | nominal (resilient : Bool) (fields : List Ty)
  | tuple (elems : List Ty)
  | scalar (id : Nat)

/-- Ty.isResilientNominal tests `decl->isResilient(...)` for a nominal type. -/
def Ty.isResilientNominal : Ty → Bool
  | .nominal true _ => true
  | _ => false

/-- Val models a SIL address value: its SSA identity and its type. -/
structure Val where
  id : Nat
  ty : Ty

/-- Use models one use of an address value, as
`analyzeLocationUsesRecursively` dispatches on the user instruction's kind.
`structElementAddr`/`tupleElementAddr` carry the projection value and its own
uses, `beginAccess` the uses of the access scope, and `deallocStack` the block
of the `dealloc_stack` user (consulted only by `allUsesInSameBlock`). -/
inductive Use where
  | structElementAddr (v : Val) (fieldNr : Nat) (uses : List Use)
  | tupleElementAddr (v : Val) (fieldNr : Nat) (uses : List Use)
  | beginAccess (uses : List Use)
  | store (q : StoreOwnershipQualifier)
  | load
  | endAccess
  | loadBorrow
  | destroyAddr
  | applyUse
  | tryApplyUse
  | debugValueAddr
  | copyAddr
  | yieldUse
  | deallocStack (bb : Nat)
  | other

/-- Location models `MemoryLocations::Location`.  `parentIdx` is `none` for a
root (the source uses -1), and `numFieldsNotCoveredBySubfields` is -1 while
still lazily uninitialized, as in the source. -/
structure Location where
  representativeValue : Val
  subLocations : Bits
  selfAndParents : Bits
  parentIdx : Option Nat
  numFieldsNotCoveredBySubfields : Int

instance : Inhabited Location := ⟨⟨⟨0, Ty.scalar 0⟩, ∅, ∅, none, -1⟩⟩

/-- Location.root is the `Location(val, index)` constructor used for roots:
`subLocations` and `selfAndParents` both start as the singleton of the new
index. -/
def Location.root (v : Val) (index : Nat) : Location :=
  ⟨v, {index}, {index}, none, -1⟩

/-- countTracked counts the field types satisfying `track`, the loops of
`initFieldsCounter` over stored properties or tuple elements. -/
def countTracked (track : Ty → Bool) (fields : List Ty) : Int :=
  fields.foldl (fun acc fieldTy => if track fieldTy then acc + 1 else acc) 0

/-- initFieldsCounterValue is the counter `MemoryLocations::initFieldsCounter`
assigns on the first projection of a parent: `INT_MAX` for a resilient
nominal type, otherwise the number of tracked stored-property (or
tuple-element) types. -/
def initFieldsCounterValue (track : Ty → Bool) : Ty → Int
  | .nominal true _ => INT_MAX
  | .nominal false fields => countTracked track fields
  | .tuple elems => countTracked track elems
  | .scalar _ => 0

/-- updateAncestors applies `f` to the location at `idx` and then walks to its
parent, modelling the `do { ...; idx = loc.parentIdx; } while (idx >= 0)`
loops of `analyzeAddrProjection`.  Since a location's parent index is strictly
below its own index, `idx + 1` steps of fuel always cover the whole chain. -/
def updateAncestors (f : Location → Location) :
    Nat → List Location → Nat → List Location
  | 0, locs, _ => locs
  | fuel + 1, locs, idx =>
    let loc := locs.getD idx default
    let locs' := locs.set idx (f loc)
    match loc.parentIdx with
    | none => locs'
    | some p => updateAncestors f fuel locs' p

/-- ancestorChain lists `idx` and its transitive ancestors, the indices the
`do`-`while` walks of `analyzeAddrProjection` visit. -/
def ancestorChain (locs : List Location) : Nat → Nat → List Nat
  | 0, _ => []
  | fuel + 1, idx =>
    idx ::
      (match (locs.getD idx default).parentIdx with
      | none => []
      | some p => ancestorChain locs fuel p)

/-- AnalysisState is the part of `MemoryLocations` the analysis mutates: the
location table and the `addr2LocIdx` map (as an association list from value
identity to location index). -/
structure AnalysisState where
  locations : List Location
  addr2LocIdx : List (Nat × Nat)

/-- SubLocationMap models the per-root `subLocationMap` memo: for every
(parent location, field number) pair the index of the sub-location created for
it.  The C++ uses index 0 as the "absent" marker (index 0 is always a root);
here absence is a failed lookup. -/
abbrev SubLocationMap := List ((Nat × Nat) × Nat)

/-- lookupSubLoc looks up a (parent, field) key in the memo map. -/
def lookupSubLoc : SubLocationMap → Nat × Nat → Option Nat
  | [], _ => none
  | e :: rest, key => if e.1 = key then some e.2 else lookupSubLoc rest key

/-- registerProjection is the fresh-registration part of
`MemoryLocations::analyzeAddrProjection` (the body of `if (subLocIdx == 0)`):
push the child location, OR the parent's `selfAndParents` into it, set the new
bit on the whole ancestor chain, lazily initialize (`initFieldsCounter`) and
decrement the parent's field counter, and — when the counter reaches zero —
retire the parent's own bit from the parent and all of its ancestors. -/
def registerProjection (track : Ty → Bool) (v : Val)
    (fieldNr parentLocIdx : Nat) (st : AnalysisState) (smap : SubLocationMap) :
    AnalysisState × SubLocationMap :=
  let subLocIdx := st.locations.length
  let parentLoc := st.locations.getD parentLocIdx default
  let newLoc : Location :=
    { Location.root v subLocIdx with
        parentIdx := some parentLocIdx,
        selfAndParents := insert subLocIdx parentLoc.selfAndParents }
  let locs1 := st.locations ++ [newLoc]
  let locs2 := updateAncestors
    (fun l => { l with subLocations := insert subLocIdx l.subLocations })
    (parentLocIdx + 1) locs1 parentLocIdx
  let pl := locs2.getD parentLocIdx default
  let c0 : Int :=
    if pl.numFieldsNotCoveredBySubfields ≥ 0 then
      pl.numFieldsNotCoveredBySubfields
    else initFieldsCounterValue track pl.representativeValue.ty
  let locs3 := locs2.set parentLocIdx
    { pl with numFieldsNotCoveredBySubfields := c0 - 1 }
  let locs4 :=
    if c0 - 1 = 0 then
      updateAncestors
        (fun l => { l with subLocations := l.subLocations.erase parentLocIdx })
        (parentLocIdx + 1) locs3 parentLocIdx
    else locs3
  (⟨locs4, st.addr2LocIdx⟩, ((parentLocIdx, fieldNr), subLocIdx) :: smap)

/-- projSubLocIdx is the sub-location index `analyzeAddrProjection` uses for
a (parent, field) pair: the memoized index when present, else the next free
index of the location table (where `registerProjection` pushes the child). -/
def projSubLocIdx (stp : AnalysisState × SubLocationMap)
    (parentLocIdx fieldNr : Nat) : Nat :=
  match lookupSubLoc stp.2 (parentLocIdx, fieldNr) with
  | some idx => idx
  | none => stp.1.locations.length

/-- projRegister is the state `analyzeAddrProjection` continues with: for a
memoized (parent, field) pair the state is unchanged, for a fresh pair
`registerProjection` runs. -/
def projRegister (track : Ty → Bool) (v : Val) (fieldNr parentLocIdx : Nat)
    (stp : AnalysisState × SubLocationMap) : AnalysisState × SubLocationMap :=
  match lookupSubLoc stp.2 (parentLocIdx, fieldNr) with
  | some _ => stp
  | none => registerProjection track v fieldNr parentLocIdx stp.1 stp.2

mutual

/-- analyzeLocationUsesRecursively models
`MemoryLocations::analyzeLocationUsesRecursively` over a list of uses;
`none` is the `return false` (unanalyzable) outcome. -/
def analyzeLocationUsesRecursively (track : Ty → Bool) (locIdx : Nat)
    (stp : AnalysisState × SubLocationMap) :
    List Use → Option (AnalysisState × SubLocationMap)
  | [] => some stp
  | u :: rest =>
    match analyzeUse track locIdx stp u with
    | none => none
    | some stp' => analyzeLocationUsesRecursively track locIdx stp' rest

/-- analyzeUse is the per-use dispatch of `analyzeLocationUsesRecursively`:
projections run the body of `analyzeAddrProjection` (untracked projections are
accepted without looking at their uses; fresh (parent, field) pairs run
`registerProjection`; the projection's uses are analyzed with the sub-location
index and the projection is recorded in `addr2LocIdx`), `begin_access`
recurses into the scope's uses, a `Trivial`-qualified store and any unknown
use kind make the root unanalyzable, and the remaining listed kinds are
accepted without any effect on the state. -/
def analyzeUse (track : Ty → Bool) (locIdx : Nat)
    (stp : AnalysisState × SubLocationMap) :
    Use → Option (AnalysisState × SubLocationMap)
  | .structElementAddr v fieldNr uses =>
    if ¬ track v.ty then some stp
    else
      match analyzeLocationUsesRecursively track (projSubLocIdx stp locIdx fieldNr)
          (projRegister track v fieldNr locIdx stp) uses with
      | none => none
      | some (st2, sm2) =>
        some (⟨st2.locations,
          (v.id, projSubLocIdx stp locIdx fieldNr) :: st2.addr2LocIdx⟩, sm2)
  | .tupleElementAddr v fieldNr uses =>
    if ¬ track v.ty then some stp
    else
      match analyzeLocationUsesRecursively track (projSubLocIdx stp locIdx fieldNr)
          (projRegister track v fieldNr locIdx stp) uses with
      | none => none
      | some (st2, sm2) =>
        some (⟨st2.locations,
          (v.id, projSubLocIdx stp locIdx fieldNr) :: st2.addr2LocIdx⟩, sm2)
  | .beginAccess uses => analyzeLocationUsesRecursively track locIdx stp uses
  | .store q =>
    if q = StoreOwnershipQualifier.trivial then none else some stp
  | .load => some stp
  | .endAccess => some stp
  | .loadBorrow => some stp
  | .destroyAddr => some stp
  | .applyUse => some stp
  | .tryApplyUse => some stp
  | .debugValueAddr => some stp
  | .copyAddr => some stp
  | .yieldUse => some stp
  | .deallocStack _ => some stp
  | .other => none

end

/-- analyzeAddrProjection models `MemoryLocations::analyzeAddrProjection` as
one function; `analyzeUse` computes exactly this for both projection kinds
(see `analyzeUse_structElementAddr`). -/
def analyzeAddrProjection (track : Ty → Bool) (v : Val)
    (fieldNr parentLocIdx : Nat) (uses : List Use)
    (stp : AnalysisState × SubLocationMap) :
    Option (AnalysisState × SubLocationMap) :=
  if ¬ track v.ty then some stp
  else
    match analyzeLocationUsesRecursively track
        (projSubLocIdx stp parentLocIdx fieldNr)
        (projRegister track v fieldNr parentLocIdx stp) uses with
    | none => none
    | some (st2, sm2) =>
      some (⟨st2.locations,
        (v.id, projSubLocIdx stp parentLocIdx fieldNr) :: st2.addr2LocIdx⟩, sm2)

/-- analyzeLocation models `MemoryLocations::analyzeLocation`.  On failure the
source truncates `locations` back to the pre-call size and erases the
collected `addr2LocIdx` entries; since every push and every ancestor update of
one root's analysis stays at indices at or above the root's own index, and
only this call's projections were mapped, that restores the pre-call state
exactly — the embedding returns the pre-call state directly. -/
def analyzeLocation (track : Ty → Bool) (st : AnalysisState) (v : Val)
    (uses : List Use) : AnalysisState :=
  if ¬ track v.ty then st
  else
    let currentLocIdx := st.locations.length
    let st1 : AnalysisState :=
      ⟨st.locations ++ [Location.root v currentLocIdx], st.addr2LocIdx⟩
    match analyzeLocationUsesRecursively track currentLocIdx (st1, []) uses with
    | none => st
    | some (st2, _) =>
      ⟨st2.locations, (v.id, currentLocIdx) :: st2.addr2LocIdx⟩

/-- trackAll is the concrete tracking predicate for witnesses: everything is
tracked. -/
def trackAll : Ty → Bool := fun _ => true

/-- st0 is the empty analysis state for witnesses. -/
def st0 : AnalysisState := ⟨[], []⟩

/-- v0 is a concrete root value for witnesses. -/
def v0 : Val := ⟨0, Ty.scalar 0⟩

/-- AllocStackInst models an `alloc_stack` instruction: its value, the block
it lives in, its dynamic-lifetime flag, and its direct uses. -/
structure AllocStackInst where
  v : Val
  parentBlock : Nat
  hasDynamicLifetime : Bool
  uses : List Use

/-- allUsesInSameBlockGo is the loop of `allUsesInSameBlock`: walk the direct
uses, failing as soon as a `dealloc_stack` user lies outside the allocation's
block `bb` and counting the `dealloc_stack` users otherwise; at the end accept
iff exactly one was counted. -/
def allUsesInSameBlockGo (bb : Nat) : List Use → Nat → Bool
  | [], numDeallocStacks => numDeallocStacks == 1
  | Use.deallocStack ub :: rest, numDeallocStacks =>
    if ub ≠ bb then false else allUsesInSameBlockGo bb rest (numDeallocStacks + 1)
  | _ :: rest, numDeallocStacks => allUsesInSameBlockGo bb rest numDeallocStacks

/-- allUsesInSameBlock models the `allUsesInSameBlock` helper.  Despite its
name it inspects only the `dealloc_stack` uses: it accepts exactly when there
is precisely one `dealloc_stack` use and it lies in the allocation's own
block (a missing `dealloc_stack` — possible with `unreachable` — is
deliberately not treated as a single-block location). -/
def allUsesInSameBlock (asi : AllocStackInst) : Bool :=
  allUsesInSameBlockGo asi.parentBlock asi.uses 0

/-- countDeallocStacks counts the `dealloc_stack` uses in a use list. -/
def countDeallocStacks : List Use → Nat
  | [] => 0
  | Use.deallocStack _ :: rest => countDeallocStacks rest + 1
  | _ :: rest => countDeallocStacks rest

/-- isAnalyzedArgConvention lists the conventions for which
`analyzeLocations` registers a function argument (the switch cases of the
argument loop; note `Indirect_InoutAliasable` falls to `default` and is not
registered). -/
def isAnalyzedArgConvention : SILArgumentConvention → Bool
  | .indirect_In | .indirect_In_Constant | .indirect_In_Guaranteed
  | .indirect_Inout | .indirect_Out => true
  | _ => false

/-- AFunc is the part of a `SILFunction` the location analysis walks: the
function arguments (value, direct uses, convention) and the `alloc_stack`
instructions of all blocks in program order. -/
structure AFunc where
  args : List (Val × List Use × SILArgumentConvention)
  allocStacks : List AllocStackInst

/-- analyzeLocations models `MemoryLocations::analyzeLocations`: register the
indirect function arguments, then walk the `alloc_stack` instructions,
skipping dynamic-lifetime ones, deferring single-block ones into
`singleBlockLocations` (the second component) and registering the rest in the
cross-block table. -/
def analyzeLocations (track : Ty → Bool) (f : AFunc) :
    AnalysisState × List AllocStackInst :=
  let st1 := f.args.foldl
    (fun st arg =>
      if isAnalyzedArgConvention arg.2.2 then
        analyzeLocation track st arg.1 arg.2.1
      else st)
    ⟨[], []⟩
  f.allocStacks.foldl
    (fun acc asi =>
      if asi.hasDynamicLifetime then acc
      else if allUsesInSameBlock asi then (acc.1, acc.2 ++ [asi])
      else (analyzeLocation track acc.1 asi.v asi.uses, acc.2))
    (st1, [])

mutual

/-- useIds collects the identities of the address values appearing in a use
forest (the projections, transitively). -/
def useIds : List Use → List Nat
  | [] => []
  | u :: rest => useIdsOfUse u ++ useIds rest

/-- useIdsOfUse collects the identities of the address values of one use. -/
def useIdsOfUse : Use → List Nat
  | .structElementAddr v _ uses => v.id :: useIds uses
  | .tupleElementAddr v _ uses => v.id :: useIds uses
  | .beginAccess uses => useIds uses
  | _ => []

end

/-- collapseConsec removes consecutive duplicates, the grouping
`handleSingleBlockLocations` performs ("whenever the parent block changes,
process the block's locations"). -/
def collapseConsec : List Nat → List Nat
  | [] => []
  | [b] => [b]
  | b :: b2 :: rest =>
    if b = b2 then collapseConsec (b2 :: rest) else b :: collapseConsec (b2 :: rest)

/-- handledBlocks lists the blocks `handleSingleBlockLocations` invokes its
handler on: one invocation per maximal run of collected single-block
locations in the same block (the collection order is program order, so the
locations of one block are consecutive). -/
def handledBlocks (singles : List AllocStackInst) : List Nat :=
  collapseConsec (singles.map AllocStackInst.parentBlock)

/-- verifySingleBlock models the handler `MemoryLifetimeVerifier::verify`
passes to `handleSingleBlockLocations`: only the checking pass over the
originating block, started from an all-clear bit vector
(`Bits bits(locations.getNumLocations())`); the dataflow solver is not run. -/
def verifySingleBlock (g : Func) (b : Nat) : List Failure :=
  (checkBlock g b ∅).1

/-- verifyStep2 models the second step of `MemoryLifetimeVerifier::verify`:
each handled block is checked once, from all-clear bits. -/
def verifyStep2 (g : Func) (singles : List AllocStackInst) : List Failure :=
  (handledBlocks singles).flatMap (verifySingleBlock g)

/-- asiC7x: an `alloc_stack` whose `dealloc_stack` is missing (as after an
`unreachable`): every dealloc site vacuously lies in the parent block. -/
def asiC7x : AllocStackInst := ⟨⟨7, Ty.scalar 0⟩, 0, false, [Use.load]⟩

def fC7x : AFunc := ⟨[], [asiC7x]⟩

/-- asiC7w: a single-block stack allocation (one `dealloc_stack`, in its own
block 2). -/
def asiC7w : AllocStackInst :=
  ⟨⟨9, Ty.scalar 0⟩, 2, false, [Use.load, Use.deallocStack 2]⟩

def fC7w : AFunc := ⟨[], [asiC7w]⟩

/-- ParentLt is the well-formedness invariant of the location table: a
location's parent index is strictly below its own index (parents are
registered before their sub-locations). -/
def ParentLt (locs : List Location) : Prop :=
  ∀ i p, (locs.getD i default).parentIdx = some p → p < i

/-- ResilientBound: a location of resilient nominal type has its field
counter either still uninitialized (-1) or at least `INT_MAX` minus the
table size (the counter starts at `INT_MAX` and each decrement coincides
with a push). -/
def ResilientBound (locs : List Location) : Prop :=
  ∀ i, Ty.isResilientNominal
      (locs.getD i default).representativeValue.ty = true →
    (locs.getD i default).numFieldsNotCoveredBySubfields = -1 ∨
      (locs.getD i default).numFieldsNotCoveredBySubfields ≥
        INT_MAX - (locs.length : Int)

/-- PreservesSkeleton f: f leaves everything but the `subLocations` set of a
location unchanged. -/
def PreservesSkeleton (f : Location → Location) : Prop :=
  ∀ l, (f l).representativeValue = l.representativeValue ∧
    (f l).parentIdx = l.parentIdx ∧
    (f l).numFieldsNotCoveredBySubfields = l.numFieldsNotCoveredBySubfields

/-- fieldsCounterAfterInit is a location's field counter right after
`initFieldsCounter` ran on it: unchanged when already initialized (≥ 0),
otherwise the `initFieldsCounterValue` of its type. -/
def fieldsCounterAfterInit (track : Ty → Bool) (loc : Location) : Int :=
  if loc.numFieldsNotCoveredBySubfields ≥ 0 then
    loc.numFieldsNotCoveredBySubfields
  else initFieldsCounterValue track loc.representativeValue.ty

/-- regNewLoc stages `registerProjection`: the freshly pushed child
location. -/
def regNewLoc (v : Val) (parentLocIdx : Nat) (st : AnalysisState) : Location :=
  { Location.root v st.locations.length with
      parentIdx := some parentLocIdx,
      selfAndParents := insert st.locations.length
        (st.locations.getD parentLocIdx default).selfAndParents }

/-- regLocs1 stages `registerProjection`: the table after the push. -/
def regLocs1 (v : Val) (parentLocIdx : Nat) (st : AnalysisState) :
    List Location :=
  st.locations ++ [regNewLoc v parentLocIdx st]

/-- regLocs2 stages `registerProjection`: the table after the new bit was set
on the whole ancestor chain. -/
def regLocs2 (v : Val) (parentLocIdx : Nat) (st : AnalysisState) :
    List Location :=
  updateAncestors
    (fun l => { l with subLocations := insert st.locations.length l.subLocations })
    (parentLocIdx + 1) (regLocs1 v parentLocIdx st) parentLocIdx

/-- regC0 stages `registerProjection`: the parent's counter after the lazy
`initFieldsCounter`, before the decrement. -/
def regC0 (track : Ty → Bool) (v : Val) (parentLocIdx : Nat)
    (st : AnalysisState) : Int :=
  fieldsCounterAfterInit track
    ((regLocs2 v parentLocIdx st).getD parentLocIdx default)

/-- regLocs3 stages `registerProjection`: the table after the decrement of
the parent's counter. -/
def regLocs3 (track : Ty → Bool) (v : Val) (parentLocIdx : Nat)
    (st : AnalysisState) : List Location :=
  (regLocs2 v parentLocIdx st).set parentLocIdx
    { (regLocs2 v parentLocIdx st).getD parentLocIdx default with
        numFieldsNotCoveredBySubfields := regC0 track v parentLocIdx st - 1 }

/-- regLocs4 stages `registerProjection`: the final table, with the parent
bit retired from the whole ancestor chain when the counter reached zero. -/
def regLocs4 (track : Ty → Bool) (v : Val) (parentLocIdx : Nat)
    (st : AnalysisState) : List Location :=
  if regC0 track v parentLocIdx st - 1 = 0 then
    updateAncestors
      (fun l => { l with subLocations := l.subLocations.erase parentLocIdx })
      (parentLocIdx + 1) (regLocs3 track v parentLocIdx st) parentLocIdx
  else regLocs3 track v parentLocIdx st

/-- SubMapBound: every memoized sub-location index is below the table size. -/
def SubMapBound (smap : SubLocationMap) (locs : List Location) : Prop :=
  ∀ e ∈ smap, e.2 < locs.length

/-- RetainOk pre post: the analysis step from table `pre` to table `post`
only grows the table, keeps the per-location skeleton of the old entries,
preserves the invariants, and — as long as the table stays below `INT_MAX`
entries — keeps the own bit of every resilient location. -/
def RetainOk (pre post : AnalysisState) : Prop :=
  pre.locations.length ≤ post.locations.length ∧
  ParentLt post.locations ∧ ResilientBound post.locations ∧
  ∀ i, i < pre.locations.length →
    ((post.locations.getD i default).representativeValue =
        (pre.locations.getD i default).representativeValue ∧
      (post.locations.getD i default).parentIdx =
        (pre.locations.getD i default).parentIdx) ∧
    (Ty.isResilientNominal
        (pre.locations.getD i default).representativeValue.ty = true →
      i ∈ (pre.locations.getD i default).subLocations →
      ((post.locations.length : Int) < INT_MAX →
        i ∈ (post.locations.getD i default).subLocations))

/-- vW6 is a one-field tuple root; vW6p its single field projection. -/
def vW6 : Val := ⟨1, Ty.tuple [Ty.scalar 0]⟩

def vW6p : Val := ⟨2, Ty.scalar 0⟩

def stW6 : AnalysisState := ⟨[Location.root vW6 0], []⟩

/-! Basic lemmas about the solver. -/

theorem mem_interPreds {sts : Fin n → BlockState} {start : Bits}
    {ps : List (Fin n)} {x : Nat} :
    x ∈ interPreds sts start ps ↔ x ∈ start ∧ ∀ p ∈ ps, x ∈ (sts p).exitSet := by
  induction ps generalizing start with
  | nil => simp [interPreds]
  | cons p ps ih =>
    simp only [interPreds, List.foldl_cons] at *
    rw [ih]
    simp only [Finset.mem_inter, List.mem_cons]
    constructor
    · rintro ⟨⟨hs, hp⟩, hall⟩
      exact ⟨hs, by rintro q (rfl | hq); exacts [hp, hall q hq]⟩
    · rintro ⟨hs, hall⟩
      exact ⟨⟨hs, hall p (Or.inl rfl)⟩, fun q hq => hall q (Or.inr hq)⟩

theorem interPreds_subset (sts : Fin n → BlockState) (start : Bits)
    (ps : List (Fin n)) : interPreds sts start ps ⊆ start := by
  intro x hx
  exact (mem_interPreds.mp hx).1

theorem interPreds_nil (sts : Fin n → BlockState) (start : Bits) :
    interPreds sts start [] = start := rfl

theorem updateBlock_flag_mono (preds : Fin n → List (Fin n)) (firstRound : Bool)
    (sc : (Fin n → BlockState) × Bool) (i : Fin n) (h : sc.2 = true) :
    (updateBlock preds firstRound sc i).2 = true := by
  simp only [updateBlock]
  split
  · rfl
  · exact h

theorem foldl_updateBlock_flag_mono (preds : Fin n → List (Fin n))
    (firstRound : Bool) (l : List (Fin n)) (sc : (Fin n → BlockState) × Bool)
    (h : sc.2 = true) :
    (l.foldl (updateBlock preds firstRound) sc).2 = true := by
  induction l generalizing sc with
  | nil => exact h
  | cons i l ih => exact ih _ (updateBlock_flag_mono _ _ _ _ h)

theorem updateBlock_gen_kill (preds : Fin n → List (Fin n)) (firstRound : Bool)
    (sc : (Fin n → BlockState) × Bool) (i j : Fin n) :
    ((updateBlock preds firstRound sc i).1 j).genSet = (sc.1 j).genSet ∧
      ((updateBlock preds firstRound sc i).1 j).killSet = (sc.1 j).killSet ∧
      ((updateBlock preds firstRound sc i).1 j).reachableFromEntry
        = (sc.1 j).reachableFromEntry := by
  simp only [updateBlock]
  split
  · by_cases hij : j = i
    · subst hij; simp [transfer]
    · simp [Function.update_noteq hij]
  · exact ⟨rfl, rfl, rfl⟩

theorem updateBlock_entry_subset (preds : Fin n → List (Fin n))
    (firstRound : Bool) (sc : (Fin n → BlockState) × Bool) (i j : Fin n) :
    ((updateBlock preds firstRound sc i).1 j).entrySet ⊆ (sc.1 j).entrySet := by
  simp only [updateBlock]
  split
  · by_cases hij : j = i
    · subst hij
      simp only [Function.update_same, transfer]
      exact interPreds_subset _ _ _
    · simp [Function.update_noteq hij]
  · exact fun x hx => hx

theorem updateBlock_fires (preds : Fin n → List (Fin n))
    (sc : (Fin n → BlockState) × Bool) (i : Fin n) :
    updateBlock preds true sc i =
      (Function.update sc.1 i
        (transfer (sc.1 i) (interPreds sc.1 ((sc.1 i).entrySet) (preds i))), true) := by
  simp [updateBlock]

theorem updateBlock_coherent (preds : Fin n → List (Fin n)) (fr : Bool)
    (sc : (Fin n → BlockState) × Bool) (i j : Fin n)
    (h : Coherent (sc.1 j)) : Coherent ((updateBlock preds fr sc i).1 j) := by
  simp only [updateBlock]
  split
  · by_cases hij : j = i
    · subst hij; simp [Function.update_same, transfer, Coherent]
    · simpa [Function.update_noteq hij] using h
  · exact h

theorem updateBlock_inv {w : Nat} (preds : Fin n → List (Fin n)) (fr : Bool)
    (sc : (Fin n → BlockState) × Bool) (i : Fin n)
    (hB : ∀ j, Bounded w (sc.1 j)) (hE : ∀ j, ExitOk w (sc.1 j))
    (hI : Inv2 preds sc.1) :
    (∀ j, Bounded w ((updateBlock preds fr sc i).1 j)) ∧
      (∀ j, ExitOk w ((updateBlock preds fr sc i).1 j)) ∧
      Inv2 preds (updateBlock preds fr sc i).1 ∧
      (∀ j, ((updateBlock preds fr sc i).1 j).exitSet ⊆ (sc.1 j).exitSet) := by
  by_cases hc : fr = true ∨
      interPreds sc.1 ((sc.1 i).entrySet) (preds i) ≠ (sc.1 i).entrySet
  case neg =>
    have heq : updateBlock preds fr sc i = sc := by
      simp only [updateBlock]
      exact if_neg hc
    rw [heq]
    exact ⟨hB, hE, hI, fun j => le_refl _⟩
  case pos =>
  have heq : (updateBlock preds fr sc i).1 =
      Function.update sc.1 i
        (transfer (sc.1 i) (interPreds sc.1 ((sc.1 i).entrySet) (preds i))) := by
    simp only [updateBlock]
    rw [if_pos hc]
  set bits := interPreds sc.1 ((sc.1 i).entrySet) (preds i) with hbits
  have hsub : bits ⊆ (sc.1 i).entrySet := interPreds_subset _ _ _
  -- the new exit set of block i shrinks
  have hexit_i : ((bits ∪ (sc.1 i).genSet) \ (sc.1 i).killSet) ⊆ (sc.1 i).exitSet := by
    rcases hE i with hrange | hcoh
    · rw [hrange]
      intro x hx
      rcases Finset.mem_union.mp (Finset.mem_sdiff.mp hx).1 with hx1 | hx2
      · exact (hB i).1 (hsub hx1)
      · exact (hB i).2.1 hx2
    · rw [hcoh]
      intro x hx
      rcases Finset.mem_sdiff.mp hx with ⟨hx1, hx2⟩
      rcases Finset.mem_union.mp hx1 with hx3 | hx4
      · exact Finset.mem_sdiff.mpr ⟨Finset.mem_union_left _ (hsub hx3), hx2⟩
      · exact Finset.mem_sdiff.mpr ⟨Finset.mem_union_right _ hx4, hx2⟩
  have hexit : ∀ j, ((updateBlock preds fr sc i).1 j).exitSet ⊆ (sc.1 j).exitSet := by
    intro j
    rw [heq]
    by_cases hij : j = i
    · subst hij
      simpa [Function.update_same, transfer] using hexit_i
    · simp [Function.update_noteq hij]
  refine ⟨?_, ?_, ?_, hexit⟩
  · intro j
    rw [heq]
    by_cases hij : j = i
    · subst hij
      simp only [Function.update_same, transfer]
      refine ⟨fun x hx => (hB j).1 (hsub hx), (hB j).2.1, ?_⟩
      intro x hx
      exact (hB j).2.2 (hexit_i hx)
    · simp only [Function.update_noteq hij]
      exact hB j
  · intro j
    rw [heq]
    by_cases hij : j = i
    · subst hij
      right
      simp [Function.update_same, transfer, Coherent]
    · simp only [Function.update_noteq hij]
      exact hE j
  · intro j hj x hx
    have hxold : ∀ p ∈ preds j, x ∈ (sc.1 p).exitSet := fun p hp => hexit p (hx p hp)
    have hentry_old : x ∈ (sc.1 j).entrySet := hI j hj x hxold
    rw [heq]
    by_cases hij : j = i
    · subst hij
      simp only [Function.update_same, transfer]
      exact mem_interPreds.mpr ⟨hentry_old, hxold⟩
    · simp only [Function.update_noteq hij]
      exact hentry_old

theorem foldl_updateBlock_inv {w : Nat} (preds : Fin n → List (Fin n)) (fr : Bool)
    (l : List (Fin n)) (sc : (Fin n → BlockState) × Bool)
    (hB : ∀ j, Bounded w (sc.1 j)) (hE : ∀ j, ExitOk w (sc.1 j))
    (hI : Inv2 preds sc.1) :
    (∀ j, Bounded w ((l.foldl (updateBlock preds fr) sc).1 j)) ∧
      (∀ j, ExitOk w ((l.foldl (updateBlock preds fr) sc).1 j)) ∧
      Inv2 preds (l.foldl (updateBlock preds fr) sc).1 := by
  induction l generalizing sc with
  | nil => exact ⟨hB, hE, hI⟩
  | cons i l ih =>
    obtain ⟨hB', hE', hI', _⟩ := updateBlock_inv preds fr sc i hB hE hI
    exact ih _ hB' hE' hI'

theorem foldl_updateBlock_coherent (preds : Fin n → List (Fin n)) (fr : Bool)
    (l : List (Fin n)) (sc : (Fin n → BlockState) × Bool) (j : Fin n)
    (h : Coherent (sc.1 j)) : Coherent ((l.foldl (updateBlock preds fr) sc).1 j) := by
  induction l generalizing sc with
  | nil => exact h
  | cons i l ih => exact ih _ (updateBlock_coherent preds fr sc i j h)

theorem foldl_updateBlock_true_coherent (preds : Fin n → List (Fin n))
    (l : List (Fin n)) (sc : (Fin n → BlockState) × Bool) (j : Fin n)
    (h : j ∈ l ∨ Coherent (sc.1 j)) :
    Coherent ((l.foldl (updateBlock preds true) sc).1 j) := by
  induction l generalizing sc with
  | nil =>
    rcases h with h | h
    · cases h
    · exact h
  | cons i l ih =>
    refine ih _ ?_
    rcases h with h | h
    · rcases List.mem_cons.mp h with rfl | h'
      · right
        rw [updateBlock_fires]
        simp [Function.update_same, transfer, Coherent]
      · exact Or.inl h'
    · exact Or.inr (updateBlock_coherent preds true sc i j h)

theorem forwardRound_coherent (preds : Fin n → List (Fin n))
    (sts : Fin n → BlockState) (j : Fin n) :
    Coherent ((forwardRound preds true sts).1 j) :=
  foldl_updateBlock_true_coherent preds _ _ j (Or.inl (List.mem_finRange j))

/-! Termination of the solver: every update shrinks the entry sets, and a
round that reports a change after the first round strictly shrinks the total
entry-bit count. -/

theorem entryCardSum_update_le (preds : Fin n → List (Fin n)) (fr : Bool)
    (sc : (Fin n → BlockState) × Bool) (i : Fin n) :
    entryCardSum (updateBlock preds fr sc i).1 ≤ entryCardSum sc.1 :=
  Finset.sum_le_sum fun j _ =>
    Finset.card_le_card (updateBlock_entry_subset preds fr sc i j)

theorem updateBlock_flag_new_strict (preds : Fin n → List (Fin n))
    (sc : (Fin n → BlockState) × Bool) (i : Fin n) (hold : sc.2 = false)
    (hnew : (updateBlock preds false sc i).2 = true) :
    entryCardSum (updateBlock preds false sc i).1 < entryCardSum sc.1 := by
  by_cases hc : (false = true) ∨
      interPreds sc.1 ((sc.1 i).entrySet) (preds i) ≠ (sc.1 i).entrySet
  case neg =>
    exfalso
    have heq : updateBlock preds false sc i = sc := by
      simp only [updateBlock]
      exact if_neg hc
    rw [heq, hold] at hnew
    exact Bool.false_ne_true hnew
  case pos =>
  have hne : interPreds sc.1 ((sc.1 i).entrySet) (preds i) ≠ (sc.1 i).entrySet := by
    rcases hc with hc | hc
    · exact absurd hc (by simp)
    · exact hc
  have heq : (updateBlock preds false sc i).1 =
      Function.update sc.1 i
        (transfer (sc.1 i) (interPreds sc.1 ((sc.1 i).entrySet) (preds i))) := by
    simp only [updateBlock]
    rw [if_pos hc]
  have hss : interPreds sc.1 ((sc.1 i).entrySet) (preds i) ⊂ (sc.1 i).entrySet :=
    Finset.ssubset_iff_subset_ne.mpr ⟨interPreds_subset _ _ _, hne⟩
  apply Finset.sum_lt_sum
  · intro j _
    exact Finset.card_le_card (updateBlock_entry_subset preds false sc i j)
  · refine ⟨i, Finset.mem_univ i, ?_⟩
    rw [heq]
    simp only [Function.update_same, transfer]
    exact Finset.card_lt_card hss

theorem foldl_updateBlock_strict (preds : Fin n → List (Fin n))
    (l : List (Fin n)) (m0 : Nat) :
    ∀ sc : (Fin n → BlockState) × Bool,
      (sc.2 = true → entryCardSum sc.1 < m0) → entryCardSum sc.1 ≤ m0 →
      ((l.foldl (updateBlock preds false) sc).2 = true →
          entryCardSum (l.foldl (updateBlock preds false) sc).1 < m0) ∧
        entryCardSum (l.foldl (updateBlock preds false) sc).1 ≤ m0 := by
  induction l with
  | nil => exact fun sc h1 h2 => ⟨h1, h2⟩
  | cons i l ih =>
    intro sc h1 h2
    simp only [List.foldl_cons]
    have hle : entryCardSum (updateBlock preds false sc i).1 ≤ entryCardSum sc.1 :=
      entryCardSum_update_le preds false sc i
    refine ih _ ?_ (le_trans hle h2)
    intro hflag
    cases hsc : sc.2 with
    | true => exact lt_of_le_of_lt hle (h1 hsc)
    | false =>
      exact lt_of_lt_of_le (updateBlock_flag_new_strict preds sc i hsc hflag) h2

theorem forwardRound_strict (preds : Fin n → List (Fin n))
    (sts : Fin n → BlockState) (h : (forwardRound preds false sts).2 = true) :
    entryCardSum (forwardRound preds false sts).1 < entryCardSum sts :=
  ((foldl_updateBlock_strict preds (List.finRange n) (entryCardSum sts)
    (sts, false) (by simp) (le_refl _)).1) h

theorem forwardRound_card_le (preds : Fin n → List (Fin n)) (fr : Bool)
    (sts : Fin n → BlockState) :
    entryCardSum (forwardRound preds fr sts).1 ≤ entryCardSum sts := by
  unfold forwardRound
  generalize hsc : ((sts, false) : (Fin n → BlockState) × Bool) = sc
  have h0 : entryCardSum sc.1 ≤ entryCardSum sts := by rw [← hsc]
  clear hsc
  induction (List.finRange n) generalizing sc with
  | nil => exact h0
  | cons i l ih =>
    exact ih _ (le_trans (entryCardSum_update_le preds fr sc i) h0)

theorem solveForwardAux_false_reaches (preds : Fin n → List (Fin n)) :
    ∀ (m : Nat) (sts : Fin n → BlockState), entryCardSum sts ≤ m →
      (solveForwardAux preds (m + 1) false sts).2 = true := by
  intro m
  induction m with
  | zero =>
    intro sts hm
    show (if (forwardRound preds false sts).2 then _ else
      ((forwardRound preds false sts).1, true)).2 = true
    cases hr : (forwardRound preds false sts).2 with
    | false => simp [hr]
    | true =>
      exfalso
      have := forwardRound_strict preds sts hr
      omega
  | succ m ih =>
    intro sts hm
    show (if (forwardRound preds false sts).2 then
        solveForwardAux preds (m + 1) false (forwardRound preds false sts).1
      else ((forwardRound preds false sts).1, true)).2 = true
    cases hr : (forwardRound preds false sts).2 with
    | false => simp [hr]
    | true =>
      have hlt := forwardRound_strict preds sts hr
      simp only [hr, if_true]
      exact ih _ (by omega)

theorem solveForwardAux_reaches_fix (preds : Fin n → List (Fin n))
    (init : Fin n → BlockState) :
    (solveForwardAux preds (entryCardSum init + 2) true init).2 = true := by
  show (if (forwardRound preds true init).2 then
      solveForwardAux preds (entryCardSum init + 1) false
        (forwardRound preds true init).1
    else ((forwardRound preds true init).1, true)).2 = true
  cases hr : (forwardRound preds true init).2 with
  | false => simp [hr]
  | true =>
    simp only [hr, if_true]
    exact solveForwardAux_false_reaches preds _ _
      (forwardRound_card_le preds true init)

/-! The fixed point: a round with `firstRound = false` that reports no change
leaves the state table untouched and certifies the entry-set equations. -/

theorem foldl_updateBlock_noChange (preds : Fin n → List (Fin n))
    (l : List (Fin n)) :
    ∀ sc : (Fin n → BlockState) × Bool,
      (l.foldl (updateBlock preds false) sc).2 = false →
      (l.foldl (updateBlock preds false) sc).1 = sc.1 ∧ sc.2 = false ∧
        ∀ i ∈ l, interPreds sc.1 ((sc.1 i).entrySet) (preds i) = (sc.1 i).entrySet := by
  induction l with
  | nil => exact fun sc h => ⟨rfl, h, by simp⟩
  | cons i l ih =>
    intro sc h
    simp only [List.foldl_cons] at h ⊢
    by_cases hc : (false = true) ∨
        interPreds sc.1 ((sc.1 i).entrySet) (preds i) ≠ (sc.1 i).entrySet
    · exfalso
      have hfl : (updateBlock preds false sc i).2 = true := by
        simp only [updateBlock]
        rw [if_pos hc]
      rw [foldl_updateBlock_flag_mono preds false l _ hfl] at h
      exact Bool.noConfusion h
    · have heq : updateBlock preds false sc i = sc := by
        simp only [updateBlock]
        exact if_neg hc
      rw [heq] at h ⊢
      obtain ⟨h1, h2, h3⟩ := ih sc h
      push_neg at hc
      refine ⟨h1, h2, ?_⟩
      intro p hp
      rcases List.mem_cons.mp hp with rfl | hp'
      · exact hc.2
      · exact h3 p hp'

theorem forwardRound_noChange (preds : Fin n → List (Fin n))
    (sts : Fin n → BlockState) (h : (forwardRound preds false sts).2 = false) :
    (forwardRound preds false sts).1 = sts ∧
      ∀ i, interPreds sts ((sts i).entrySet) (preds i) = (sts i).entrySet := by
  obtain ⟨h1, _, h3⟩ := foldl_updateBlock_noChange preds (List.finRange n) (sts, false) h
  exact ⟨h1, fun i => h3 i (List.mem_finRange i)⟩

theorem forwardRound_true_flag (hn : 0 < n) (preds : Fin n → List (Fin n))
    (sts : Fin n → BlockState) : (forwardRound preds true sts).2 = true := by
  unfold forwardRound
  have hmem : (⟨0, hn⟩ : Fin n) ∈ List.finRange n := List.mem_finRange _
  obtain ⟨l1, l2, hsplit⟩ := List.append_of_mem hmem
  rw [hsplit, List.foldl_append, List.foldl_cons]
  apply foldl_updateBlock_flag_mono
  rw [updateBlock_fires]

theorem solveForwardAux_fix_eqs (hn : 0 < n) (preds : Fin n → List (Fin n)) :
    ∀ (fuel : Nat) (fr : Bool) (sts : Fin n → BlockState),
      (solveForwardAux preds fuel fr sts).2 = true →
      ∀ i, interPreds (solveForwardAux preds fuel fr sts).1
          (((solveForwardAux preds fuel fr sts).1 i).entrySet) (preds i)
        = ((solveForwardAux preds fuel fr sts).1 i).entrySet := by
  intro fuel
  induction fuel with
  | zero => intro fr sts h; exact absurd h (by simp [solveForwardAux])
  | succ fuel ih =>
    intro fr sts h
    have hstep : solveForwardAux preds (fuel + 1) fr sts =
        if (forwardRound preds fr sts).2 then
          solveForwardAux preds fuel false (forwardRound preds fr sts).1
        else ((forwardRound preds fr sts).1, true) := rfl
    cases hr : (forwardRound preds fr sts).2 with
    | true =>
      rw [hstep, hr] at h ⊢
      simp only [if_true] at h ⊢
      exact ih false _ h
    | false =>
      cases fr with
      | true => exact absurd hr (by rw [forwardRound_true_flag hn preds sts]; simp)
      | false =>
        obtain ⟨h1, h2⟩ := forwardRound_noChange preds sts hr
        rw [hstep, hr]
        simp only [if_false, Bool.false_eq_true]
        rw [h1]
        exact h2

theorem updateBlock_entry_keep (preds : Fin n → List (Fin n)) (fr : Bool)
    (sc : (Fin n → BlockState) × Bool) (i j : Fin n) (hj : preds j = []) :
    ((updateBlock preds fr sc i).1 j).entrySet = (sc.1 j).entrySet := by
  simp only [updateBlock]
  split
  · by_cases hij : j = i
    · subst hij
      simp [Function.update_same, transfer, hj, interPreds_nil]
    · simp [Function.update_noteq hij]
  · rfl

theorem solveForwardAux_entry_keep (preds : Fin n → List (Fin n)) :
    ∀ (fuel : Nat) (fr : Bool) (sts : Fin n → BlockState) (j : Fin n),
      preds j = [] →
      ((solveForwardAux preds fuel fr sts).1 j).entrySet = (sts j).entrySet := by
  have hfold : ∀ (fr : Bool) (l : List (Fin n)) (sc : (Fin n → BlockState) × Bool)
      (j : Fin n), preds j = [] →
      ((l.foldl (updateBlock preds fr) sc).1 j).entrySet = (sc.1 j).entrySet := by
    intro fr l
    induction l with
    | nil => exact fun sc j _ => rfl
    | cons i l ih =>
      intro sc j hj
      simp only [List.foldl_cons]
      rw [ih _ j hj, updateBlock_entry_keep preds fr sc i j hj]
  intro fuel
  induction fuel with
  | zero => intro fr sts j _; rfl
  | succ fuel ih =>
    intro fr sts j hj
    show ((if (forwardRound preds fr sts).2 then
        solveForwardAux preds fuel false (forwardRound preds fr sts).1
      else ((forwardRound preds fr sts).1, true)).1 j).entrySet = (sts j).entrySet
    cases hr : (forwardRound preds fr sts).2 with
    | true =>
      simp only [if_true]
      rw [ih false _ j hj]
      exact hfold fr _ _ j hj
    | false =>
      simp only [if_false, Bool.false_eq_true]
      exact hfold fr _ _ j hj

theorem solveForwardAux_inv {w : Nat} (preds : Fin n → List (Fin n)) :
    ∀ (fuel : Nat) (fr : Bool) (sts : Fin n → BlockState),
      (∀ j, Bounded w (sts j)) → (∀ j, ExitOk w (sts j)) → Inv2 preds sts →
      (∀ j, Bounded w ((solveForwardAux preds fuel fr sts).1 j)) ∧
        (∀ j, ExitOk w ((solveForwardAux preds fuel fr sts).1 j)) ∧
        Inv2 preds (solveForwardAux preds fuel fr sts).1 := by
  intro fuel
  induction fuel with
  | zero => exact fun fr sts hB hE hI => ⟨hB, hE, hI⟩
  | succ fuel ih =>
    intro fr sts hB hE hI
    obtain ⟨hB', hE', hI'⟩ := foldl_updateBlock_inv preds fr (List.finRange n)
      (sts, false) hB hE hI
    have hstep : solveForwardAux preds (fuel + 1) fr sts =
        if (forwardRound preds fr sts).2 then
          solveForwardAux preds fuel false (forwardRound preds fr sts).1
        else ((forwardRound preds fr sts).1, true) := rfl
    rw [hstep]
    cases hr : (forwardRound preds fr sts).2 with
    | true =>
      simp only [if_true]
      exact ih false _ hB' hE' hI'
    | false =>
      simp only [if_false, Bool.false_eq_true]
      exact ⟨hB', hE', hI'⟩

theorem solveForwardAux_coherent (preds : Fin n → List (Fin n)) :
    ∀ (fuel : Nat) (fr : Bool) (sts : Fin n → BlockState),
      (∀ j, Coherent (sts j)) →
      ∀ j, Coherent ((solveForwardAux preds fuel fr sts).1 j) := by
  intro fuel
  induction fuel with
  | zero => exact fun fr sts h j => h j
  | succ fuel ih =>
    intro fr sts h j
    have hround : ∀ j, Coherent ((forwardRound preds fr sts).1 j) := fun j =>
      foldl_updateBlock_coherent preds fr (List.finRange n) (sts, false) j (h j)
    show Coherent ((if (forwardRound preds fr sts).2 then
        solveForwardAux preds fuel false (forwardRound preds fr sts).1
      else ((forwardRound preds fr sts).1, true)).1 j)
    cases hr : (forwardRound preds fr sts).2 with
    | true =>
      simp only [if_true]
      exact ih false _ hround j
    | false =>
      simp only [if_false, Bool.false_eq_true]
      exact hround j

theorem mem_predExitInter {sts : Fin n → BlockState} {p : Fin n}
    {ps : List (Fin n)} {x : Nat} :
    x ∈ predExitInter sts (p :: ps) ↔ ∀ q ∈ p :: ps, x ∈ (sts q).exitSet := by
  show x ∈ interPreds sts ((sts p).exitSet) ps ↔ _
  rw [mem_interPreds]
  constructor
  · rintro ⟨h1, h2⟩ q hq
    rcases List.mem_cons.mp hq with rfl | hq'
    · exact h1
    · exact h2 q hq'
  · intro h
    exact ⟨h p (List.mem_cons_self p ps),
      fun q hq => h q (List.mem_cons.mpr (Or.inr hq))⟩

/-- C1: after `solveDataflowForward` returns on states seeded the way
`initDataflow` seeds them (all-ones exit sets everywhere, all-ones entry sets
on every block that has a predecessor, and all bit vectors confined to the
location-table width `w`), the solved sets satisfy: for every block,
`exitSet = (entrySet ∪ genSet) \ killSet`; for every block with at least one
predecessor, `entrySet` equals the intersection of its predecessors' exit
sets; and every block without predecessors — in particular the function entry
block — keeps its externally seeded `entrySet`. -/
theorem solveDataflowForward_fixpoint {n w : Nat} (preds : Fin n → List (Fin n))
    (init : Fin n → BlockState)
    (hexit : ∀ i, (init i).exitSet = Finset.range w)
    (hentry : ∀ i, (init i).entrySet ⊆ Finset.range w)
    (hgen : ∀ i, (init i).genSet ⊆ Finset.range w)
    (hseed : ∀ i, preds i ≠ [] → (init i).entrySet = Finset.range w) :
    (∀ i, (solveDataflowForward preds init i).exitSet =
        ((solveDataflowForward preds init i).entrySet ∪
            (solveDataflowForward preds init i).genSet) \
          (solveDataflowForward preds init i).killSet) ∧
      (∀ i, preds i ≠ [] → (solveDataflowForward preds init i).entrySet =
        predExitInter (solveDataflowForward preds init) (preds i)) ∧
      (∀ i, preds i = [] → (solveDataflowForward preds init i).entrySet =
        (init i).entrySet) := by
  rcases Nat.eq_zero_or_pos n with hn | hn
  · subst hn
    exact ⟨fun i => i.elim0, fun i => i.elim0, fun i => i.elim0⟩
  have hB0 : ∀ j, Bounded w (init j) := fun j =>
    ⟨hentry j, hgen j, by rw [hexit j]⟩
  have hE0 : ∀ j, ExitOk w (init j) := fun j => Or.inl (hexit j)
  have hI0 : Inv2 preds init := by
    intro i hi x hx
    rcases List.exists_mem_of_ne_nil _ hi with ⟨p, hp⟩
    rw [hseed i hi]
    have := hx p hp
    rw [hexit p] at this
    exact this
  have hconv := solveForwardAux_reaches_fix preds init
  have hsd : solveDataflowForward preds init =
      (solveForwardAux preds (entryCardSum init + 2) true init).1 := rfl
  have hfix := solveForwardAux_fix_eqs hn preds (entryCardSum init + 2) true init hconv
  obtain ⟨hBf, hEf, hIf⟩ := solveForwardAux_inv preds (entryCardSum init + 2)
    true init hB0 hE0 hI0
  have hcoh : ∀ j, Coherent ((solveForwardAux preds (entryCardSum init + 2)
      true init).1 j) := by
    have hstep : solveForwardAux preds (entryCardSum init + 2) true init =
        if (forwardRound preds true init).2 then
          solveForwardAux preds (entryCardSum init + 1) false
            (forwardRound preds true init).1
        else ((forwardRound preds true init).1, true) := rfl
    rw [hstep, forwardRound_true_flag hn preds init]
    simp only [if_true]
    exact fun j => solveForwardAux_coherent preds _ false _
      (forwardRound_coherent preds init) j
  refine ⟨?_, ?_, ?_⟩
  · intro i
    rw [hsd]
    exact hcoh i
  · intro i hi
    rw [hsd]
    apply Finset.Subset.antisymm
    · intro x hx
      rw [← hfix i] at hx
      obtain ⟨_, hall⟩ := mem_interPreds.mp hx
      cases hps : preds i with
      | nil => exact absurd hps hi
      | cons p ps =>
        rw [hps] at hall
        exact mem_predExitInter.mpr hall
    · intro x hx
      cases hps : preds i with
      | nil => exact absurd hps hi
      | cons p ps =>
        rw [hps] at hx
        refine hIf i hi x ?_
        rw [hps]
        exact mem_predExitInter.mp hx
  · intro i hi
    rw [hsd]
    exact solveForwardAux_entry_keep preds _ true init i hi

/-- Witness for `solveDataflowForward_fixpoint`: its hypotheses hold for the
concrete two-block configuration and the theorem applies there. -/
theorem solveDataflowForward_fixpoint_witness :
    (∀ i, (init2 i).exitSet = Finset.range 1) ∧
      (∀ i, (init2 i).entrySet ⊆ Finset.range 1) ∧
      (∀ i, (init2 i).genSet ⊆ Finset.range 1) ∧
      (∀ i, preds2 i ≠ [] → (init2 i).entrySet = Finset.range 1) ∧
      ((∀ i, (solveDataflowForward preds2 init2 i).exitSet =
          ((solveDataflowForward preds2 init2 i).entrySet ∪
              (solveDataflowForward preds2 init2 i).genSet) \
            (solveDataflowForward preds2 init2 i).killSet) ∧
        (∀ i, preds2 i ≠ [] → (solveDataflowForward preds2 init2 i).entrySet =
          predExitInter (solveDataflowForward preds2 init2) (preds2 i)) ∧
        (∀ i, preds2 i = [] → (solveDataflowForward preds2 init2 i).entrySet =
          (init2 i).entrySet)) :=
  ⟨by decide, by decide, by decide, by decide,
    @solveDataflowForward_fixpoint 2 1 preds2 init2 (by decide) (by decide)
      (by decide) (by decide)⟩

/-- C8: `solveDataflowForward` terminates for every finite CFG and every
initial assignment of entry/exit/gen/kill sets: the repeat-until-unchanged
loop reaches its fixed point within `entryCardSum init + 2` rounds (the flag
returned by `solveForwardAux` records that the final round reported no
change), because every iteration can only shrink a block's entry set and the
total entry-bit count is a finite measure. -/
theorem solveDataflowForward_terminates {n : Nat} (preds : Fin n → List (Fin n))
    (init : Fin n → BlockState) :
    (solveForwardAux preds (entryCardSum init + 2) true init).2 = true :=
  solveForwardAux_reaches_fix preds init

theorem mem_require {fl : Failure} {w : Bits} {c : String} {b i : Nat} :
    fl ∈ require w c b i ↔ w.Nonempty ∧ fl = ⟨c, b, i⟩ := by
  unfold require
  split
  · simp_all
  · simp_all

theorem mem_requireBitsSet {fl : Failure} {bits : Bits} {a : Addr} {b i : Nat}
    (h : fl ∈ requireBitsSet bits a b i) :
    fl.complaint = "memory is not initialized, but should" ∧
      fl.block = b ∧ fl.instr = i := by
  match a with
  | none => cases h
  | some s =>
    obtain ⟨-, rfl⟩ := mem_require.mp h
    exact ⟨rfl, rfl, rfl⟩

theorem mem_requireBitsClear {fl : Failure} {bits : Bits} {a : Addr} {b i : Nat}
    (h : fl ∈ requireBitsClear bits a b i) :
    fl.complaint = "memory is initialized, but shouldn't" ∧
      fl.block = b ∧ fl.instr = i := by
  match a with
  | none => cases h
  | some s =>
    obtain ⟨-, rfl⟩ := mem_require.mp h
    exact ⟨rfl, rfl, rfl⟩

theorem mem_checkFuncArgument {fl : Failure} {bits : Bits} {a : Addr}
    {conv : SILArgumentConvention} {b i : Nat}
    (h : fl ∈ (checkFuncArgument bits a conv b i).1) :
    bodyComplaint fl.complaint ∧ fl.block = b ∧ fl.instr = i := by
  cases conv <;> simp only [checkFuncArgument] at h
  case indirect_In =>
    obtain ⟨h1, h2, h3⟩ := mem_requireBitsSet h
    exact ⟨Or.inl h1, h2, h3⟩
  case indirect_In_Constant =>
    obtain ⟨h1, h2, h3⟩ := mem_requireBitsSet h
    exact ⟨Or.inl h1, h2, h3⟩
  case indirect_Out =>
    obtain ⟨h1, h2, h3⟩ := mem_requireBitsClear h
    exact ⟨Or.inr h1, h2, h3⟩
  case indirect_In_Guaranteed =>
    obtain ⟨h1, h2, h3⟩ := mem_requireBitsSet h
    exact ⟨Or.inl h1, h2, h3⟩
  case indirect_Inout =>
    obtain ⟨h1, h2, h3⟩ := mem_requireBitsSet h
    exact ⟨Or.inl h1, h2, h3⟩
  case indirect_InoutAliasable =>
    obtain ⟨h1, h2, h3⟩ := mem_requireBitsSet h
    exact ⟨Or.inl h1, h2, h3⟩
  all_goals cases h

theorem mem_checkArgs {fl : Failure}
    {args : List (Addr × SILArgumentConvention)} {bits : Bits} {b i : Nat}
    (h : fl ∈ (checkArgs bits args b i).1) :
    bodyComplaint fl.complaint ∧ fl.block = b ∧ fl.instr = i := by
  unfold checkArgs at h
  suffices hgen : ∀ (acc : List Failure × Bits),
      fl ∈ (args.foldl (fun acc ac =>
        let r := checkFuncArgument acc.2 ac.1 ac.2 b i
        (acc.1 ++ r.1, r.2)) acc).1 →
      fl ∈ acc.1 ∨ (bodyComplaint fl.complaint ∧ fl.block = b ∧ fl.instr = i) by
    rcases hgen ([], bits) h with h' | h'
    · cases h'
    · exact h'
  clear h
  induction args with
  | nil => exact fun acc h => Or.inl h
  | cons ac args ih =>
    intro acc h
    rcases ih _ h with h' | h'
    · rcases List.mem_append.mp h' with h'' | h''
      · exact Or.inl h''
      · exact Or.inr (mem_checkFuncArgument h'')
    · exact Or.inr h'

theorem mem_checkInstr {fl : Failure} {bits : Bits} {b i : Nat} {ins : Instr}
    (h : fl ∈ (checkInstr bits b i ins).1) :
    bodyComplaint fl.complaint ∧ fl.block = b ∧ fl.instr = i := by
  cases ins <;> simp only [checkInstr] at h
  case load a q =>
    cases q <;> simp only at h <;>
      · obtain ⟨h1, h2, h3⟩ := mem_requireBitsSet h
        exact ⟨Or.inl h1, h2, h3⟩
  case store a q =>
    cases q <;> simp only at h
    · obtain ⟨h1, h2, h3⟩ := mem_requireBitsClear h
      exact ⟨Or.inr h1, h2, h3⟩
    · obtain ⟨h1, h2, h3⟩ := mem_requireBitsSet h
      exact ⟨Or.inl h1, h2, h3⟩
    · cases h
  case copyAddr src dst isTake isInit =>
    split at h
    · rcases List.mem_append.mp h with h' | h'
      · obtain ⟨h1, h2, h3⟩ := mem_requireBitsSet h'
        exact ⟨Or.inl h1, h2, h3⟩
      · obtain ⟨h1, h2, h3⟩ := mem_requireBitsClear h'
        exact ⟨Or.inr h1, h2, h3⟩
    · rcases List.mem_append.mp h with h' | h'
      · obtain ⟨h1, h2, h3⟩ := mem_requireBitsSet h'
        exact ⟨Or.inl h1, h2, h3⟩
      · obtain ⟨h1, h2, h3⟩ := mem_requireBitsSet h'
        exact ⟨Or.inl h1, h2, h3⟩
  case destroyAddr a =>
    obtain ⟨h1, h2, h3⟩ := mem_requireBitsSet h
    exact ⟨Or.inl h1, h2, h3⟩
  case endBorrow orig =>
    obtain ⟨h1, h2, h3⟩ := mem_requireBitsSet h
    exact ⟨Or.inl h1, h2, h3⟩
  case apply args => exact mem_checkArgs h
  case debugValueAddr a =>
    obtain ⟨h1, h2, h3⟩ := mem_requireBitsSet h
    exact ⟨Or.inl h1, h2, h3⟩
  case deallocStack a =>
    obtain ⟨h1, h2, h3⟩ := mem_requireBitsClear h
    exact ⟨Or.inr h1, h2, h3⟩
  case other => cases h

theorem mem_checkTermInstr {fl : Failure} {bits : Bits} {b i : Nat} {t : Term}
    (h : fl ∈ (checkTermInstr bits b i t).1) :
    bodyComplaint fl.complaint ∧ fl.block = b ∧ fl.instr = i := by
  cases t <;> simp only [checkTermInstr] at h
  case tryApply args nb eb => exact mem_checkArgs h
  case yield args succs => exact mem_checkArgs h
  all_goals cases h

theorem mem_checkBlock {fl : Failure} {f : Func} {b : Nat} {entry : Bits}
    (h : fl ∈ (checkBlock f b entry).1) :
    bodyComplaint fl.complaint ∧ fl.block = b := by
  unfold checkBlock at h
  rcases List.mem_append.mp h with h' | h'
  · suffices hgen : ∀ (l : List (Nat × Instr)) (acc : List Failure × Bits),
        fl ∈ (l.foldl (fun acc p =>
          let r := checkInstr acc.2 b p.1 p.2
          (acc.1 ++ r.1, r.2)) acc).1 →
        fl ∈ acc.1 ∨ (bodyComplaint fl.complaint ∧ fl.block = b) by
      rcases hgen _ ([], _) h' with h'' | h''
      · cases h''
      · exact h''
    intro l
    induction l with
    | nil => exact fun acc h => Or.inl h
    | cons p l ih =>
      intro acc h
      rcases ih _ h with h'' | h''
      · rcases List.mem_append.mp h'' with h3 | h3
        · exact Or.inl h3
        · obtain ⟨h4, h5, _⟩ := mem_checkInstr h3
          exact Or.inr ⟨h4, h5⟩
      · exact Or.inr h''
  · obtain ⟨h1, h2, _⟩ := mem_checkTermInstr h'
    exact ⟨h1, h2⟩

theorem mem_mergeChecks {fl : Failure} {f : Func}
    {sts : Fin f.blocks.length → BlockState} {i : Fin f.blocks.length} :
    fl ∈ mergeChecks f sts i ↔
      fl = ⟨"lifetime mismatch in predecessors", i.val, 0⟩ ∧
        ∃ p ∈ predsOfFunc f i, (sts p).reachableFromEntry = true ∧
          (((sts i).entrySet \ (sts p).exitSet) ∪
            ((sts p).exitSet \ (sts i).entrySet)).Nonempty := by
  unfold mergeChecks
  rw [List.mem_flatMap]
  constructor
  · rintro ⟨p, hp, hmem⟩
    split at hmem
    · obtain ⟨hne, rfl⟩ := mem_require.mp hmem
      exact ⟨rfl, p, hp, by assumption, hne⟩
    · cases hmem
  · rintro ⟨rfl, p, hp, hre, hne⟩
    refine ⟨p, hp, ?_⟩
    rw [if_pos hre]
    exact mem_require.mpr ⟨hne, rfl⟩

theorem mem_exitChecks_block {fl : Failure} {f : Func} {st : BlockState} {b : Nat}
    (h : fl ∈ exitChecks f st b) :
    exitComplaint fl.complaint ∧ fl.block = b := by
  unfold exitChecks at h
  split at h
  · rcases List.mem_append.mp h with h' | h' <;>
      obtain ⟨-, rfl⟩ := mem_require.mp h'
    · exact ⟨Or.inl rfl, rfl⟩
    · exact ⟨Or.inr (Or.inl rfl), rfl⟩
  · rcases List.mem_append.mp h with h' | h' <;>
      obtain ⟨-, rfl⟩ := mem_require.mp h'
    · exact ⟨Or.inl rfl, rfl⟩
    · exact ⟨Or.inr (Or.inl rfl), rfl⟩
  · rcases List.mem_append.mp h with h' | h' <;>
      obtain ⟨-, rfl⟩ := mem_require.mp h'
    · exact ⟨Or.inr (Or.inr (Or.inl rfl)), rfl⟩
    · exact ⟨Or.inr (Or.inr (Or.inr rfl)), rfl⟩
  · cases h

/-- C4: for every pair (predecessor, block), `checkFunction` signals a
"lifetime mismatch in predecessors" failure anchored at the first instruction
of the successor block iff the successor is reachable from the entry and some
predecessor of it is reachable and its solved exit set has a nonzero symmetric
difference with the successor's solved entry set; pairs with an unreachable
side contribute no failure. -/
theorem checkFunction_merge_mismatch (f : Func)
    (sts : Fin f.blocks.length → BlockState) (i : Fin f.blocks.length) :
    ((⟨"lifetime mismatch in predecessors", i.val, 0⟩ : Failure) ∈
        checkFunction f sts) ↔
      ((sts i).reachableFromEntry = true ∧
        ∃ p ∈ predsOfFunc f i, (sts p).reachableFromEntry = true ∧
          (((sts i).entrySet \ (sts p).exitSet) ∪
            ((sts p).exitSet \ (sts i).entrySet)).Nonempty) := by
  constructor
  · intro h
    obtain ⟨j, hj, hmem⟩ := List.mem_flatMap.mp h
    by_cases hrj : (sts j).reachableFromEntry = true
    case neg => rw [if_neg hrj] at hmem; cases hmem
    rw [if_pos hrj] at hmem
    rcases List.mem_append.mp hmem with hmem' | hC
    · rcases List.mem_append.mp hmem' with hA | hB
      · obtain ⟨hbc, -⟩ := mem_checkBlock hA
        exfalso
        rcases hbc with h1 | h1
        · exact absurd (show "lifetime mismatch in predecessors" =
            "memory is not initialized, but should" from h1) (by decide)
        · exact absurd (show "lifetime mismatch in predecessors" =
            "memory is initialized, but shouldn't" from h1) (by decide)
      · obtain ⟨heq, p, hp, hrp, hne⟩ := mem_mergeChecks.mp hB
        have hji : j = i := Fin.val_injective (congrArg Failure.block heq).symm
        subst hji
        exact ⟨hrj, p, hp, hrp, hne⟩
    · obtain ⟨hec, -⟩ := mem_exitChecks_block hC
      exfalso
      rcases hec with h1 | h1 | h1 | h1
      · exact absurd (show "lifetime mismatch in predecessors" =
          "indirect argument is not alive at function return" from h1) (by decide)
      · exact absurd (show "lifetime mismatch in predecessors" =
          "memory is initialized at function return but shouldn't" from h1) (by decide)
      · exact absurd (show "lifetime mismatch in predecessors" =
          "indirect argument is not alive at throw" from h1) (by decide)
      · exact absurd (show "lifetime mismatch in predecessors" =
          "memory is initialized at throw but shouldn't" from h1) (by decide)
  · rintro ⟨hri, p, hp, hrp, hne⟩
    refine List.mem_flatMap.mpr ⟨i, List.mem_finRange i, ?_⟩
    rw [if_pos hri]
    refine List.mem_append.mpr (Or.inl (List.mem_append.mpr (Or.inr ?_)))
    exact mem_mergeChecks.mpr ⟨rfl, p, hp, hrp, hne⟩

theorem exit_failure_mem_checkFunction {f : Func}
    {sts : Fin f.blocks.length → BlockState} {i : Fin f.blocks.length}
    {fl : Failure} (hb : fl.block = i.val) (hc : exitComplaint fl.complaint) :
    fl ∈ checkFunction f sts ↔
      ((sts i).reachableFromEntry = true ∧ fl ∈ exitChecks f (sts i) i.val) := by
  constructor
  · intro h
    obtain ⟨j, hj, hmem⟩ := List.mem_flatMap.mp h
    by_cases hrj : (sts j).reachableFromEntry = true
    case neg => rw [if_neg hrj] at hmem; cases hmem
    rw [if_pos hrj] at hmem
    rcases List.mem_append.mp hmem with hmem' | hC
    · rcases List.mem_append.mp hmem' with hA | hB
      · obtain ⟨hbc, -⟩ := mem_checkBlock hA
        exfalso
        rcases hbc with h1 | h1 <;> rcases hc with h2 | h2 | h2 | h2 <;>
          (rw [h1] at h2; exact absurd h2 (by decide))
      · obtain ⟨heq, -⟩ := mem_mergeChecks.mp hB
        exfalso
        have h1 : fl.complaint = "lifetime mismatch in predecessors" :=
          congrArg Failure.complaint heq
        rcases hc with h2 | h2 | h2 | h2 <;>
          (rw [h1] at h2; exact absurd h2 (by decide))
    · obtain ⟨-, hbj⟩ := mem_exitChecks_block hC
      have hji : j = i := Fin.val_injective (hbj.symm.trans hb)
      subst hji
      exact ⟨hrj, hC⟩
  · rintro ⟨hri, hmem⟩
    refine List.mem_flatMap.mpr ⟨i, List.mem_finRange i, ?_⟩
    rw [if_pos hri]
    exact List.mem_append.mpr (Or.inr hmem)

theorem bits_ne_iff_sdiff (a b : Bits) :
    a ≠ b ↔ ((b \ a).Nonempty ∨ (a \ b).Nonempty) := by
  constructor
  · intro hne
    by_contra hcon
    push_neg at hcon
    obtain ⟨h1, h2⟩ := hcon
    rw [Finset.not_nonempty_iff_eq_empty, Finset.sdiff_eq_empty_iff_subset] at h1 h2
    exact hne (Finset.Subset.antisymm h2 h1)
  · rintro (⟨x, hx⟩ | ⟨x, hx⟩) heq <;> rw [heq] at hx <;>
      simp [Finset.mem_sdiff] at hx

theorem exitChecks_ret_eq (f : Func) (st : BlockState) (b : Nat)
    (h : (getBlock f b).term = Term.ret ∨ (getBlock f b).term = Term.unwind) :
    exitChecks f st b =
      require (expectedReturnBits f \ st.exitSet)
          "indirect argument is not alive at function return" b
          (getBlock f b).instrs.length ++
        require (st.exitSet \ expectedReturnBits f)
          "memory is initialized at function return but shouldn't" b
          (getBlock f b).instrs.length := by
  rcases h with h | h <;> simp only [exitChecks, h]

theorem exitChecks_throw_eq (f : Func) (st : BlockState) (b : Nat)
    (h : (getBlock f b).term = Term.throw) :
    exitChecks f st b =
      require (expectedThrowBits f \ st.exitSet)
          "indirect argument is not alive at throw" b
          (getBlock f b).instrs.length ++
        require (st.exitSet \ expectedThrowBits f)
          "memory is initialized at throw but shouldn't" b
          (getBlock f b).instrs.length := by
  simp only [exitChecks, h]

/-- C2: at every function-exiting terminator of a block reachable from the
entry, `checkFunction` signals a failure iff the solved exit bits deviate from
the convention-derived expectation: at a return (or unwind) exit the bits of
every `@inout`, `@in_guaranteed` and `@out` argument must be set, at a throw
exit the bits of every `@inout` and `@in_guaranteed` argument must be set, and
any other location bit still set in the block's exit set is flagged as a leak
("memory is initialized ... but shouldn't"). -/
theorem checkFunction_exit_failure_iff (f : Func)
    (sts : Fin f.blocks.length → BlockState) (i : Fin f.blocks.length)
    (hre : (sts i).reachableFromEntry = true) : ExitCheckSpec f sts i := by
  have hboth : ∀ (hterm : (getBlock f i.val).term = Term.ret ∨
        (getBlock f i.val).term = Term.unwind ∨
        (getBlock f i.val).term = Term.throw),
      ∀ exp m1 m2 : _,
      (exitChecks f (sts i) i.val =
        require (exp \ (sts i).exitSet) m1 i.val (getBlock f i.val).instrs.length ++
          require ((sts i).exitSet \ exp) m2 i.val (getBlock f i.val).instrs.length) →
      exitComplaint m1 → exitComplaint m2 → m1 ≠ m2 →
      ((∃ fl ∈ checkFunction f sts, fl.block = i.val ∧ exitComplaint fl.complaint) ↔
          (sts i).exitSet ≠ exp) ∧
        (((⟨m1, i.val, (getBlock f i.val).instrs.length⟩ : Failure) ∈
            checkFunction f sts) ↔ (exp \ (sts i).exitSet).Nonempty) ∧
        (((⟨m2, i.val, (getBlock f i.val).instrs.length⟩ : Failure) ∈
            checkFunction f sts) ↔ ((sts i).exitSet \ exp).Nonempty) := by
    intro _ exp m1 m2 hEC hm1 hm2 hm12
    refine ⟨⟨?_, ?_⟩, ⟨?_, ?_⟩, ⟨?_, ?_⟩⟩
    · rintro ⟨fl, hmem, hb, hc⟩
      obtain ⟨-, hE⟩ := (exit_failure_mem_checkFunction hb hc).mp hmem
      rw [hEC] at hE
      rcases List.mem_append.mp hE with h' | h' <;>
        obtain ⟨hne, -⟩ := mem_require.mp h'
      · exact (bits_ne_iff_sdiff _ _).mpr (Or.inl hne)
      · exact (bits_ne_iff_sdiff _ _).mpr (Or.inr hne)
    · intro hne
      rcases (bits_ne_iff_sdiff _ _).mp hne with h' | h'
      · refine ⟨⟨m1, i.val, (getBlock f i.val).instrs.length⟩, ?_, rfl, hm1⟩
        refine (exit_failure_mem_checkFunction rfl hm1).mpr ⟨hre, ?_⟩
        rw [hEC]
        exact List.mem_append.mpr (Or.inl (mem_require.mpr ⟨h', rfl⟩))
      · refine ⟨⟨m2, i.val, (getBlock f i.val).instrs.length⟩, ?_, rfl, hm2⟩
        refine (exit_failure_mem_checkFunction rfl hm2).mpr ⟨hre, ?_⟩
        rw [hEC]
        exact List.mem_append.mpr (Or.inr (mem_require.mpr ⟨h', rfl⟩))
    · intro hmem
      obtain ⟨-, hE⟩ := (exit_failure_mem_checkFunction rfl hm1).mp hmem
      rw [hEC] at hE
      rcases List.mem_append.mp hE with h' | h' <;>
        obtain ⟨hne, heq⟩ := mem_require.mp h'
      · exact hne
      · exact absurd (congrArg Failure.complaint heq) hm12
    · intro h'
      refine (exit_failure_mem_checkFunction rfl hm1).mpr ⟨hre, ?_⟩
      rw [hEC]
      exact List.mem_append.mpr (Or.inl (mem_require.mpr ⟨h', rfl⟩))
    · intro hmem
      obtain ⟨-, hE⟩ := (exit_failure_mem_checkFunction rfl hm2).mp hmem
      rw [hEC] at hE
      rcases List.mem_append.mp hE with h' | h' <;>
        obtain ⟨hne, heq⟩ := mem_require.mp h'
      · exact absurd (congrArg Failure.complaint heq).symm hm12
      · exact hne
    · intro h'
      refine (exit_failure_mem_checkFunction rfl hm2).mpr ⟨hre, ?_⟩
      rw [hEC]
      exact List.mem_append.mpr (Or.inr (mem_require.mpr ⟨h', rfl⟩))
  unfold ExitCheckSpec
  refine ⟨?_, ?_, ?_, ?_, ?_, ?_⟩
  · intro hterm
    exact (hboth (hterm.imp id Or.inl) (expectedReturnBits f) _ _
      (exitChecks_ret_eq f (sts i) i.val hterm) (Or.inl rfl)
      (Or.inr (Or.inl rfl)) (by decide)).1
  · intro hterm
    exact (hboth (Or.inr (Or.inr hterm)) (expectedThrowBits f) _ _
      (exitChecks_throw_eq f (sts i) i.val hterm)
      (Or.inr (Or.inr (Or.inl rfl))) (Or.inr (Or.inr (Or.inr rfl)))
      (by decide)).1
  · intro hterm
    exact (hboth (hterm.imp id Or.inl) (expectedReturnBits f) _ _
      (exitChecks_ret_eq f (sts i) i.val hterm) (Or.inl rfl)
      (Or.inr (Or.inl rfl)) (by decide)).2.1
  · intro hterm
    exact (hboth (hterm.imp id Or.inl) (expectedReturnBits f) _ _
      (exitChecks_ret_eq f (sts i) i.val hterm) (Or.inl rfl)
      (Or.inr (Or.inl rfl)) (by decide)).2.2
  · intro hterm
    exact (hboth (Or.inr (Or.inr hterm)) (expectedThrowBits f) _ _
      (exitChecks_throw_eq f (sts i) i.val hterm)
      (Or.inr (Or.inr (Or.inl rfl))) (Or.inr (Or.inr (Or.inr rfl)))
      (by decide)).2.1
  · intro hterm
    exact (hboth (Or.inr (Or.inr hterm)) (expectedThrowBits f) _ _
      (exitChecks_throw_eq f (sts i) i.val hterm)
      (Or.inr (Or.inr (Or.inl rfl))) (Or.inr (Or.inr (Or.inr rfl)))
      (by decide)).2.2

/-- Witness for `checkFunction_exit_failure_iff` at the concrete one-block
function. -/
theorem checkFunction_exit_failure_iff_witness :
    (stsC2 ⟨0, by decide⟩).reachableFromEntry = true ∧
      ExitCheckSpec fC2 stsC2 ⟨0, by decide⟩ :=
  ⟨by decide, checkFunction_exit_failure_iff fC2 stsC2 ⟨0, by decide⟩ (by decide)⟩

theorem setBits_none (bits : Bits) : setBits bits none = bits := rfl

theorem mem_setBits {bits : Bits} {a : Addr} {x : Nat} :
    x ∈ setBits bits a ↔ x ∈ bits ∨ ∃ s, a = some s ∧ x ∈ s := by
  cases a with
  | none => simp [setBits]
  | some s => simp [setBits]

theorem mem_foldl_setBits (sel : (Addr × SILArgumentConvention) → Addr)
    (l : List (Addr × SILArgumentConvention)) (init : Bits) (x : Nat) :
    x ∈ l.foldl (fun bs ac => setBits bs (sel ac)) init ↔
      x ∈ init ∨ ∃ ac ∈ l, ∃ s, sel ac = some s ∧ x ∈ s := by
  induction l generalizing init with
  | nil => simp
  | cons ac l ih =>
    simp only [List.foldl_cons]
    rw [ih, mem_setBits]
    constructor
    · rintro (⟨h | ⟨s, hs, hx⟩⟩ | ⟨ac', hac', s, hs, hx⟩)
      · exact Or.inl h
      · exact Or.inr ⟨ac, List.mem_cons_self ac l, s, hs, hx⟩
      · exact Or.inr ⟨ac', List.mem_cons.mpr (Or.inr hac'), s, hs, hx⟩
    · rintro (h | ⟨ac', hac', s, hs, hx⟩)
      · exact Or.inl (Or.inl h)
      · rcases List.mem_cons.mp hac' with rfl | hac''
        · exact Or.inl (Or.inr ⟨s, hs, hx⟩)
        · exact Or.inr ⟨ac', hac'', s, hs, hx⟩

theorem outStep_eq_sel :
    (fun (bs : Bits) (ac : Addr × SILArgumentConvention) =>
        if ac.2 = SILArgumentConvention.indirect_Out then setBits bs ac.1 else bs) =
      fun bs ac => setBits bs
        (if ac.2 = SILArgumentConvention.indirect_Out then ac.1 else none) := by
  funext bs ac
  split
  · rfl
  · rfl

/-- C3 (amended): for a may-throw call (`try_apply`) with `@out` address
arguments, (i) `setFuncOperandBits` with the `isTryApply` flag leaves the
gen/kill state unchanged for an `@out` argument, so the gen effect is never
added to the call's own block-local gen set — indeed the whole terminator
processing can only shrink the gen set; (ii) provided the normal successor has
the call block as its single predecessor, `setBitsOfPredecessor` adds exactly
the `@out` argument bits to the successor-seeded bits; and (iii) provided the
throwing successor also has the call block as its single predecessor and is
distinct from the normal successor, it receives nothing. -/
theorem tryApply_out_gen_normal_edge (f : Func) (p nb eb : Nat)
    (args : List (Addr × SILArgumentConvention))
    (hterm : (getBlock f p).term = Term.tryApply args nb eb)
    (hnb : getSinglePredecessorBlock f nb = some p)
    (heb : getSinglePredecessorBlock f eb = some p)
    (hne : nb ≠ eb) :
    (∀ (st : GenKill) (a : Addr),
        setFuncOperandBits st a SILArgumentConvention.indirect_Out true = st) ∧
      (∀ st : GenKill,
        (termGenKill st (Term.tryApply args nb eb)).genSet ⊆ st.genSet) ∧
      (∀ bits : Bits, setBitsOfPredecessor f nb bits = bits ∪ outArgBits args) ∧
      (∀ bits : Bits, setBitsOfPredecessor f eb bits = bits) := by
  have hgen_step : ∀ (st : GenKill) (ac : Addr × SILArgumentConvention),
      (setFuncOperandBits st ac.1 ac.2 true).genSet ⊆ st.genSet := by
    intro st ac
    cases hc : ac.2 <;> simp only [setFuncOperandBits]
    case indirect_In =>
      cases ac.1 <;> simp [GenKill.killBits]
    case indirect_In_Constant =>
      cases ac.1 <;> simp [GenKill.killBits]
    case indirect_Out => simp
    all_goals exact fun x hx => hx
  have hgen_fold : ∀ (l : List (Addr × SILArgumentConvention)) (st : GenKill),
      (l.foldl (fun st ac => setFuncOperandBits st ac.1 ac.2 true) st).genSet ⊆
        st.genSet := by
    intro l
    induction l with
    | nil => exact fun st x hx => hx
    | cons ac l ih =>
      intro st x hx
      simp only [List.foldl_cons] at hx
      exact hgen_step st ac (ih _ hx)
  refine ⟨fun st a => rfl, fun st => hgen_fold args st, ?_, ?_⟩
  · intro bits
    unfold setBitsOfPredecessor
    simp only [hnb, hterm]
    rw [if_pos trivial]
    rw [outStep_eq_sel]
    unfold outArgBits
    rw [outStep_eq_sel]
    apply Finset.ext
    intro x
    rw [mem_foldl_setBits, Finset.mem_union, mem_foldl_setBits]
    constructor
    · rintro (h | h)
      · exact Or.inl h
      · exact Or.inr (Or.inr h)
    · rintro (h | h | h)
      · exact Or.inl h
      · cases h
      · exact Or.inr h
  · intro bits
    unfold setBitsOfPredecessor
    simp only [heb, hterm]
    rw [if_neg hne]

/-- Witness for `tryApply_out_gen_normal_edge` at the concrete three-block
function. -/
theorem tryApply_out_gen_normal_edge_witness :
    ((getBlock fC3 0).term =
        Term.tryApply [(some {0}, SILArgumentConvention.indirect_Out)] 1 2) ∧
      getSinglePredecessorBlock fC3 1 = some 0 ∧
      getSinglePredecessorBlock fC3 2 = some 0 ∧ (1 : Nat) ≠ 2 ∧
      ((∀ (st : GenKill) (a : Addr),
          setFuncOperandBits st a SILArgumentConvention.indirect_Out true = st) ∧
        (∀ st : GenKill,
          (termGenKill st (Term.tryApply
            [(some {0}, SILArgumentConvention.indirect_Out)] 1 2)).genSet ⊆
            st.genSet) ∧
        (∀ bits : Bits, setBitsOfPredecessor fC3 1 bits =
          bits ∪ outArgBits [(some {0}, SILArgumentConvention.indirect_Out)]) ∧
        (∀ bits : Bits, setBitsOfPredecessor fC3 2 bits = bits)) :=
  ⟨by decide, by decide, by decide, by decide,
    tryApply_out_gen_normal_edge fC3 0 1 2
      [(some {0}, SILArgumentConvention.indirect_Out)]
      (by decide) (by decide) (by decide) (by decide)⟩

/-- Counterexample to C3 as stated: block 0 ends in a `try_apply` whose `@out`
argument covers bit 0 and whose normal successor is block 1, yet bit 0 is in
neither block 0's gen set (as the claim also says) nor block 1's gen set
(contradicting the claim that it is added to the normal successor's gen set),
because block 1 has two predecessors and `setBitsOfPredecessor` only handles
the single-predecessor shape. -/
theorem tryApply_out_gen_normal_edge_counterexample :
    ((getBlock fC3x 0).term =
        Term.tryApply [(some {0}, SILArgumentConvention.indirect_Out)] 1 2) ∧
      predBlocks fC3x 1 = [0, 3] ∧
      (0 : Nat) ∉ (initDataflowInBlock fC3x 0).genSet ∧
      (0 : Nat) ∉ (initDataflowInBlock fC3x 1).genSet := by
  refine ⟨rfl, by decide, by decide, by decide⟩

/-- C9: `initDataflow` seeds the entry block's entry set with exactly the
sublocation bits of the tracked (indirect) function arguments whose convention
is not `@out` — so `@out` argument locations, and every location not rooted in
an argument (in particular stack allocations), start clear at function entry —
while every other block gets an all-ones entry set, and every block an
all-ones exit set. -/
theorem initDataflow_seeding (f : Func) (hn : 0 < f.blocks.length)
    (hargs : ∀ ac ∈ f.args, isIndirectConvention ac.2 = false → ac.1 = none) :
    (∀ x : Nat, x ∈ (initDataflow f ⟨0, hn⟩).entrySet ↔
      ∃ ac ∈ f.args, ∃ s, ac.1 = some s ∧ isIndirectConvention ac.2 = true ∧
        ac.2 ≠ SILArgumentConvention.indirect_Out ∧ x ∈ s) ∧
      (∀ i : Fin f.blocks.length, i.val ≠ 0 →
        (initDataflow f i).entrySet = Finset.range f.numLocations) ∧
      (∀ i : Fin f.blocks.length,
        (initDataflow f i).exitSet = Finset.range f.numLocations) := by
  have hstep : (fun (bs : Bits) (ac : Addr × SILArgumentConvention) =>
      if ac.2 ≠ SILArgumentConvention.indirect_Out then setBits bs ac.1 else bs) =
      fun bs ac => setBits bs
        (if ac.2 ≠ SILArgumentConvention.indirect_Out then ac.1 else none) := by
    funext bs ac
    split
    · rfl
    · rfl
  refine ⟨?_, ?_, ?_⟩
  · intro x
    show x ∈ (if (0 : Nat) = 0 then
        f.args.foldl (fun bs ac =>
          if ac.2 ≠ SILArgumentConvention.indirect_Out then setBits bs ac.1
          else bs) ∅
      else Finset.range f.numLocations) ↔ _
    rw [if_pos rfl, hstep, mem_foldl_setBits]
    constructor
    · rintro (h | ⟨ac, hac, s, hs, hx⟩)
      · cases h
      · by_cases hout : ac.2 = SILArgumentConvention.indirect_Out
        · rw [if_neg (by simpa using hout)] at hs
          cases hs
        · rw [if_pos hout] at hs
          by_cases hind : isIndirectConvention ac.2 = true
          · exact ⟨ac, hac, s, hs, hind, hout, hx⟩
          · exact absurd hs (by rw [hargs ac hac (by simpa using hind)]; simp)
    · rintro ⟨ac, hac, s, hs, -, hout, hx⟩
      exact Or.inr ⟨ac, hac, s, by rw [if_pos hout]; exact hs, hx⟩
  · intro i hi
    show (if i.val = 0 then _ else Finset.range f.numLocations) = _
    rw [if_neg hi]
  · intro i
    rfl

/-- Witness for `initDataflow_seeding` at the concrete function. -/
theorem initDataflow_seeding_witness :
    (0 < fC9.blocks.length) ∧
      (∀ ac ∈ fC9.args, isIndirectConvention ac.2 = false → ac.1 = none) ∧
      ((∀ x : Nat, x ∈ (initDataflow fC9 ⟨0, by decide⟩).entrySet ↔
        ∃ ac ∈ fC9.args, ∃ s, ac.1 = some s ∧ isIndirectConvention ac.2 = true ∧
          ac.2 ≠ SILArgumentConvention.indirect_Out ∧ x ∈ s) ∧
        (∀ i : Fin fC9.blocks.length, i.val ≠ 0 →
          (initDataflow fC9 i).entrySet = Finset.range fC9.numLocations) ∧
        (∀ i : Fin fC9.blocks.length,
          (initDataflow fC9 i).exitSet = Finset.range fC9.numLocations)) :=
  ⟨by decide, by decide, initDataflow_seeding fC9 (by decide) (by decide)⟩

theorem setBits_transferGenKill (entry : Bits) (gk : GenKill) (a : Addr) :
    setBits (transferGenKill entry gk) a = transferGenKill entry (gk.genBits a) := by
  cases a with
  | none => rfl
  | some s =>
    ext x
    by_cases hx : x ∈ s <;>
      simp [transferGenKill, setBits, GenKill.genBits, hx]

theorem clearBits_transferGenKill (entry : Bits) (gk : GenKill) (a : Addr) :
    clearBits (transferGenKill entry gk) a =
      transferGenKill entry (gk.killBits a) := by
  cases a with
  | none => rfl
  | some s =>
    ext x
    by_cases hx : x ∈ s <;>
      simp [transferGenKill, clearBits, GenKill.killBits, hx]

theorem assign_transferGenKill (entry : Bits) (gk : GenKill) (s : Bits)
    (h : s ⊆ transferGenKill entry gk) :
    transferGenKill entry (gk.genBits (some s)) = transferGenKill entry gk := by
  rw [← setBits_transferGenKill]
  exact Finset.ext fun x => by
    simp only [setBits, Finset.mem_union]
    exact ⟨fun hx => hx.elim id (fun hs => h hs), Or.inl⟩

theorem checkFuncArgument_transfer (entry : Bits) (gk : GenKill) (a : Addr)
    (conv : SILArgumentConvention) (b i : Nat) :
    (checkFuncArgument (transferGenKill entry gk) a conv b i).2 =
      transferGenKill entry (setFuncOperandBits gk a conv false) := by
  cases conv
  case indirect_In => exact clearBits_transferGenKill entry gk a
  case indirect_In_Constant => exact clearBits_transferGenKill entry gk a
  case indirect_Out => exact setBits_transferGenKill entry gk a
  all_goals rfl

theorem checkArgs_transfer (entry : Bits)
    (args : List (Addr × SILArgumentConvention)) (b i : Nat) :
    ∀ (gk : GenKill) (acc : List Failure),
      (args.foldl (fun acc ac =>
          let r := checkFuncArgument acc.2 ac.1 ac.2 b i
          (acc.1 ++ r.1, r.2)) (acc, transferGenKill entry gk)).2 =
        transferGenKill entry
          (args.foldl (fun st ac => setFuncOperandBits st ac.1 ac.2 false) gk) := by
  induction args with
  | nil => exact fun gk acc => rfl
  | cons ac args ih =>
    intro gk acc
    simp only [List.foldl_cons]
    rw [show (checkFuncArgument (transferGenKill entry gk) ac.1 ac.2 b i).2 =
      transferGenKill entry (setFuncOperandBits gk ac.1 ac.2 false) from
        checkFuncArgument_transfer entry gk ac.1 ac.2 b i]
    exact ih _ _

theorem checkInstr_transfer (entry : Bits) (gk : GenKill) (b i : Nat)
    (ins : Instr) (h : (checkInstr (transferGenKill entry gk) b i ins).1 = []) :
    (checkInstr (transferGenKill entry gk) b i ins).2 =
      transferGenKill entry (instrGenKill gk ins) := by
  cases ins with
  | load a q =>
    cases q with
    | take => exact clearBits_transferGenKill entry gk a
    | copy => rfl
    | trivial => rfl
  | store a q =>
    cases q with
    | init => exact setBits_transferGenKill entry gk a
    | assign =>
      cases a with
      | none => rfl
      | some s =>
        have hsub : s ⊆ transferGenKill entry gk := by
          simp only [checkInstr, requireBitsSet, require] at h
          split at h
          · cases h
          · rename_i hne
            rw [Finset.not_nonempty_iff_eq_empty,
              Finset.sdiff_eq_empty_iff_subset] at hne
            exact hne
        exact (assign_transferGenKill entry gk s hsub).symm
    | trivial => exact setBits_transferGenKill entry gk a
  | copyAddr src dst isTake isInit =>
    cases isTake with
    | false =>
      cases isInit with
      | false => rfl
      | true => exact setBits_transferGenKill entry gk dst
    | true =>
      cases isInit with
      | false => exact clearBits_transferGenKill entry gk src
      | true =>
        show setBits (clearBits (transferGenKill entry gk) src) dst =
          transferGenKill entry ((gk.killBits src).genBits dst)
        rw [clearBits_transferGenKill, setBits_transferGenKill]
  | destroyAddr a => exact clearBits_transferGenKill entry gk a
  | endBorrow orig => rfl
  | apply args => exact checkArgs_transfer entry args b i gk []
  | debugValueAddr a => rfl
  | deallocStack a => rfl
  | other => rfl

theorem foldl_outStep_union (args : List (Addr × SILArgumentConvention))
    (bits : Bits) :
    args.foldl (fun bs ac =>
        if ac.2 = SILArgumentConvention.indirect_Out then setBits bs ac.1 else bs)
      bits = bits ∪ outArgBits args := by
  rw [outStep_eq_sel]
  unfold outArgBits
  rw [outStep_eq_sel]
  ext x
  rw [mem_foldl_setBits, Finset.mem_union, mem_foldl_setBits]
  constructor
  · rintro (h | h)
    · exact Or.inl h
    · exact Or.inr (Or.inr h)
  · rintro (h | h | h)
    · exact Or.inl h
    · cases h
    · exact Or.inr h

theorem setBitsOfPredecessor_union (f : Func) (b : Nat) (entry : Bits) :
    setBitsOfPredecessor f b entry = entry ∪ setBitsOfPredecessor f b ∅ := by
  cases hsp : getSinglePredecessorBlock f b with
  | none => simp [setBitsOfPredecessor, hsp]
  | some p =>
    cases hterm : (getBlock f p).term
    case tryApply args nb eb =>
      simp only [setBitsOfPredecessor, hsp, hterm]
      by_cases hb : nb = b
      · rw [if_pos hb, if_pos hb, foldl_outStep_union, foldl_outStep_union,
          Finset.empty_union]
      · rw [if_neg hb, if_neg hb, Finset.union_empty]
    all_goals simp [setBitsOfPredecessor, hsp, hterm]

theorem body_fold_fl_prefix (b : Nat) :
    ∀ (l : List (Nat × Instr)) (acc : List Failure) (bits : Bits),
      ∃ tail, (l.foldl (fun acc p =>
          let r := checkInstr acc.2 b p.1 p.2
          (acc.1 ++ r.1, r.2)) (acc, bits)).1 = acc ++ tail := by
  intro l
  induction l with
  | nil => exact fun acc bits => ⟨[], (List.append_nil acc).symm⟩
  | cons p l ih =>
    intro acc bits
    simp only [List.foldl_cons]
    obtain ⟨tail, htail⟩ := ih (acc ++ (checkInstr bits b p.1 p.2).1)
      (checkInstr bits b p.1 p.2).2
    exact ⟨(checkInstr bits b p.1 p.2).1 ++ tail, by
      rw [htail, List.append_assoc]⟩

theorem body_fold_replay (entry : Bits) (b : Nat) :
    ∀ (l : List (Nat × Instr)) (gk : GenKill) (acc : List Failure),
      (l.foldl (fun acc p =>
          let r := checkInstr acc.2 b p.1 p.2
          (acc.1 ++ r.1, r.2)) (acc, transferGenKill entry gk)).1 = [] →
      (l.foldl (fun acc p =>
          let r := checkInstr acc.2 b p.1 p.2
          (acc.1 ++ r.1, r.2)) (acc, transferGenKill entry gk)).2 =
        transferGenKill entry (l.foldl (fun gk p => instrGenKill gk p.2) gk) := by
  intro l
  induction l with
  | nil => exact fun gk acc _ => rfl
  | cons p l ih =>
    intro gk acc h
    simp only [List.foldl_cons] at h ⊢
    have hr1 : (checkInstr (transferGenKill entry gk) b p.1 p.2).1 = [] := by
      obtain ⟨tail, htail⟩ := body_fold_fl_prefix b l
        (acc ++ (checkInstr (transferGenKill entry gk) b p.1 p.2).1)
        (checkInstr (transferGenKill entry gk) b p.1 p.2).2
      rw [htail] at h
      rcases List.append_eq_nil.mp h with ⟨h1, -⟩
      exact (List.append_eq_nil.mp h1).2
    have hstep := checkInstr_transfer entry gk b p.1 p.2 hr1
    rw [hstep] at h ⊢
    exact ih (instrGenKill gk p.2) _ h

theorem enum_foldl_instrGenKill (l : List Instr) (gk : GenKill) :
    l.enum.foldl (fun gk p => instrGenKill gk p.2) gk = l.foldl instrGenKill gk := by
  conv_rhs => rw [← List.enum_map_snd l]
  rw [List.foldl_map]

theorem checkTermInstr_transfer (entry : Bits) (gk : GenKill) (b i : Nat)
    (t : Term) (ht : isTryApplyTerm t = false) :
    (checkTermInstr (transferGenKill entry gk) b i t).2 =
      transferGenKill entry (termGenKill gk t) := by
  cases t with
  | tryApply args nb eb => exact absurd ht (by simp [isTryApplyTerm])
  | yield args succs => exact checkArgs_transfer entry args b i gk []
  | ret => rfl
  | unwind => rfl
  | throw => rfl
  | br succs => rfl

theorem checkBlock_summary (f : Func) (b : Nat) (entry : Bits)
    (ht : isTryApplyTerm (getBlock f b).term = false)
    (hnf : (checkBlock f b entry).1 = []) :
    (checkBlock f b entry).2 = transferGenKill entry (initDataflowInBlock f b) := by
  have hbase : setBitsOfPredecessor f b entry =
      transferGenKill entry ⟨setBitsOfPredecessor f b ∅, (∅ : Bits)⟩ := by
    rw [setBitsOfPredecessor_union f b entry]
    show _ = (entry ∪ setBitsOfPredecessor f b ∅) \ ∅
    rw [Finset.sdiff_empty]
  simp only [checkBlock] at hnf ⊢
  rw [hbase] at hnf ⊢
  have hbf : ((getBlock f b).instrs.enum.foldl (fun acc p =>
      let r := checkInstr acc.2 b p.1 p.2
      (acc.1 ++ r.1, r.2))
      ([], transferGenKill entry ⟨setBitsOfPredecessor f b ∅, ∅⟩)).1 = [] := by
    rcases List.append_eq_nil.mp hnf with ⟨h1, -⟩
    exact h1
  have htf : (checkTermInstr ((getBlock f b).instrs.enum.foldl (fun acc p =>
      let r := checkInstr acc.2 b p.1 p.2
      (acc.1 ++ r.1, r.2))
      ([], transferGenKill entry ⟨setBitsOfPredecessor f b ∅, ∅⟩)).2 b
      (getBlock f b).instrs.length (getBlock f b).term).1 = [] := by
    rcases List.append_eq_nil.mp hnf with ⟨-, h2⟩
    exact h2
  have hbody := body_fold_replay entry b (getBlock f b).instrs.enum
    ⟨setBitsOfPredecessor f b ∅, ∅⟩ [] hbf
  rw [hbody, enum_foldl_instrGenKill]
  rw [checkTermInstr_transfer entry _ b (getBlock f b).instrs.length
    (getBlock f b).term ht]
  rfl

theorem foldl_updateBlock_gen_kill (preds : Fin n → List (Fin n)) (fr : Bool)
    (l : List (Fin n)) (sc : (Fin n → BlockState) × Bool) (j : Fin n) :
    ((l.foldl (updateBlock preds fr) sc).1 j).genSet = (sc.1 j).genSet ∧
      ((l.foldl (updateBlock preds fr) sc).1 j).killSet = (sc.1 j).killSet ∧
      ((l.foldl (updateBlock preds fr) sc).1 j).reachableFromEntry
        = (sc.1 j).reachableFromEntry := by
  induction l generalizing sc with
  | nil => exact ⟨rfl, rfl, rfl⟩
  | cons i l ih =>
    obtain ⟨h1, h2, h3⟩ := ih (updateBlock preds fr sc i)
    obtain ⟨g1, g2, g3⟩ := updateBlock_gen_kill preds fr sc i j
    exact ⟨h1.trans g1, h2.trans g2, h3.trans g3⟩

theorem solveForwardAux_gen_kill (preds : Fin n → List (Fin n)) :
    ∀ (fuel : Nat) (fr : Bool) (sts : Fin n → BlockState) (j : Fin n),
      ((solveForwardAux preds fuel fr sts).1 j).genSet = (sts j).genSet ∧
        ((solveForwardAux preds fuel fr sts).1 j).killSet = (sts j).killSet ∧
        ((solveForwardAux preds fuel fr sts).1 j).reachableFromEntry
          = (sts j).reachableFromEntry := by
  intro fuel
  induction fuel with
  | zero => exact fun fr sts j => ⟨rfl, rfl, rfl⟩
  | succ fuel ih =>
    intro fr sts j
    have hstep : solveForwardAux preds (fuel + 1) fr sts =
        if (forwardRound preds fr sts).2 then
          solveForwardAux preds fuel false (forwardRound preds fr sts).1
        else ((forwardRound preds fr sts).1, true) := rfl
    rw [hstep]
    obtain ⟨g1, g2, g3⟩ := foldl_updateBlock_gen_kill preds fr (List.finRange n)
      (sts, false) j
    cases hr : (forwardRound preds fr sts).2 with
    | true =>
      simp only [if_true]
      obtain ⟨h1, h2, h3⟩ := ih false (forwardRound preds fr sts).1 j
      exact ⟨h1.trans g1, h2.trans g2, h3.trans g3⟩
    | false =>
      simp only [if_false, Bool.false_eq_true]
      exact ⟨g1, g2, g3⟩

theorem solveDataflowForward_coherent (hn : 0 < n)
    (preds : Fin n → List (Fin n)) (init : Fin n → BlockState) (j : Fin n) :
    Coherent (solveDataflowForward preds init j) := by
  have hstep : solveForwardAux preds (entryCardSum init + 2) true init =
      if (forwardRound preds true init).2 then
        solveForwardAux preds (entryCardSum init + 1) false
          (forwardRound preds true init).1
      else ((forwardRound preds true init).1, true) := rfl
  show Coherent ((solveForwardAux preds (entryCardSum init + 2) true init).1 j)
  rw [hstep, forwardRound_true_flag hn preds init]
  simp only [if_true]
  exact solveForwardAux_coherent preds _ false _
    (forwardRound_coherent preds init) j

/-- Counterexample to C10 as stated: at a block reachable from the entry whose
terminator is not a `try_apply`, replaying the block with `checkBlock` from
the solved entry set ends with a bit vector different from the solved exit set
(an `assign` store whose required bits are missing does not set them, while
the gen/kill summary gens them). -/
theorem checkBlock_replay_mismatch_example :
    ((solveDataflowForward (predsOfFunc fC10x) (initDataflow fC10x))
        ⟨0, by decide⟩).reachableFromEntry = true ∧
      isTryApplyTerm (getBlock fC10x 0).term = false ∧
      (checkBlock fC10x 0
          ((solveDataflowForward (predsOfFunc fC10x) (initDataflow fC10x))
            ⟨0, by decide⟩).entrySet).2 ≠
        ((solveDataflowForward (predsOfFunc fC10x) (initDataflow fC10x))
          ⟨0, by decide⟩).exitSet := by
  refine ⟨by decide, by decide, by decide⟩

/-- C10 (amended): for every block reachable from the entry whose terminator
is not a may-throw call (`try_apply`), and for which the replay raises no
verification failure, replaying the block's instructions with `checkBlock`
starting from the solved entry set ends with exactly the solved exit set: the
per-block gen/kill summary used by the solver and the instruction-by-
instruction replay used by the checker compute the same transfer function.
Without the no-failure proviso the equality can fail (see the `assign`-store
counterexample). -/
theorem checkBlock_replay_matches_exit (f : Func) (hn : 0 < f.blocks.length)
    (i : Fin f.blocks.length)
    (hre : ((solveDataflowForward (predsOfFunc f) (initDataflow f))
      i).reachableFromEntry = true)
    (ht : isTryApplyTerm (getBlock f i.val).term = false)
    (hnf : (checkBlock f i.val
      ((solveDataflowForward (predsOfFunc f) (initDataflow f)) i).entrySet).1
        = []) :
    (checkBlock f i.val
        ((solveDataflowForward (predsOfFunc f) (initDataflow f)) i).entrySet).2 =
      ((solveDataflowForward (predsOfFunc f) (initDataflow f)) i).exitSet := by
  have hcoh := solveDataflowForward_coherent hn (predsOfFunc f) (initDataflow f) i
  obtain ⟨hg, hk, hr⟩ := solveForwardAux_gen_kill (predsOfFunc f)
    (entryCardSum (initDataflow f) + 2) true (initDataflow f) i
  have hreach0 : (initDataflow f i).reachableFromEntry = true := by
    rw [← hr]
    exact hre
  have hdec : decide (i.val ∈ entryReachability f) = true := hreach0
  have hgen0 : (initDataflow f i).genSet =
      (initDataflowInBlock f i.val).genSet := by
    show (if decide (i.val ∈ entryReachability f) = true
        then initDataflowInBlock f i.val
        else (⟨∅, ∅⟩ : GenKill)).genSet = _
    rw [hdec]
    rfl
  have hkill0 : (initDataflow f i).killSet =
      (initDataflowInBlock f i.val).killSet := by
    show (if decide (i.val ∈ entryReachability f) = true
        then initDataflowInBlock f i.val
        else (⟨∅, ∅⟩ : GenKill)).killSet = _
    rw [hdec]
    rfl
  have hsum := checkBlock_summary f i.val
    ((solveDataflowForward (predsOfFunc f) (initDataflow f)) i).entrySet ht hnf
  rw [hsum]
  have hgF : (solveDataflowForward (predsOfFunc f) (initDataflow f) i).genSet =
      (initDataflowInBlock f i.val).genSet := hg.trans hgen0
  have hkF : (solveDataflowForward (predsOfFunc f) (initDataflow f) i).killSet =
      (initDataflowInBlock f i.val).killSet := hk.trans hkill0
  rw [show Coherent (solveDataflowForward (predsOfFunc f) (initDataflow f) i)
    from hcoh]
  rw [hgF, hkF]
  rfl

/-- Witness for `checkBlock_replay_matches_exit` at the concrete function. -/
theorem checkBlock_replay_matches_exit_witness :
    (0 < fC10.blocks.length) ∧
      ((solveDataflowForward (predsOfFunc fC10) (initDataflow fC10))
        ⟨0, by decide⟩).reachableFromEntry = true ∧
      isTryApplyTerm (getBlock fC10 0).term = false ∧
      (checkBlock fC10 0
        ((solveDataflowForward (predsOfFunc fC10) (initDataflow fC10))
          ⟨0, by decide⟩).entrySet).1 = [] ∧
      (checkBlock fC10 0
          ((solveDataflowForward (predsOfFunc fC10) (initDataflow fC10))
            ⟨0, by decide⟩).entrySet).2 =
        ((solveDataflowForward (predsOfFunc fC10) (initDataflow fC10))
          ⟨0, by decide⟩).exitSet :=
  ⟨by decide, by decide, by decide, by decide,
    checkBlock_replay_matches_exit fC10 (by decide) ⟨0, by decide⟩ (by decide)
      (by decide) (by decide)⟩

theorem analyzeUse_structElementAddr (track : Ty → Bool) (locIdx : Nat)
    (stp : AnalysisState × SubLocationMap) (v : Val) (fieldNr : Nat)
    (uses : List Use) :
    analyzeUse track locIdx stp (Use.structElementAddr v fieldNr uses) =
      analyzeAddrProjection track v fieldNr locIdx uses stp := rfl

theorem analyzeUse_tupleElementAddr (track : Ty → Bool) (locIdx : Nat)
    (stp : AnalysisState × SubLocationMap) (v : Val) (fieldNr : Nat)
    (uses : List Use) :
    analyzeUse track locIdx stp (Use.tupleElementAddr v fieldNr uses) =
      analyzeAddrProjection track v fieldNr locIdx uses stp := rfl

/-- C5 (amended): during location analysis every use that is a load
(plain or borrow), a store whose ownership qualifier is not `Trivial`, a
copy/destroy, a scope bracket (`begin_access` brackets recurse, `end_access`
is accepted), a `debug_value_addr`, a `dealloc_stack`, or a call/yield
argument (`apply`/`try_apply`/`yield`) is accepted without creating a new
location and without changing the analysis state at all; a `Trivial`-qualified
store or any use kind outside this list makes the root unanalyzable, in which
case `analyzeLocation` discards the root and all partially built children,
returning exactly the pre-call table. -/
theorem analyzeUses_accept_and_discard :
    (∀ (track : Ty → Bool) (locIdx : Nat)
        (stp : AnalysisState × SubLocationMap),
      analyzeUse track locIdx stp Use.load = some stp ∧
        analyzeUse track locIdx stp Use.endAccess = some stp ∧
        analyzeUse track locIdx stp Use.loadBorrow = some stp ∧
        analyzeUse track locIdx stp Use.destroyAddr = some stp ∧
        analyzeUse track locIdx stp Use.applyUse = some stp ∧
        analyzeUse track locIdx stp Use.tryApplyUse = some stp ∧
        analyzeUse track locIdx stp Use.debugValueAddr = some stp ∧
        analyzeUse track locIdx stp Use.copyAddr = some stp ∧
        analyzeUse track locIdx stp Use.yieldUse = some stp ∧
        (∀ bb : Nat, analyzeUse track locIdx stp (Use.deallocStack bb) = some stp)) ∧
    (∀ (track : Ty → Bool) (locIdx : Nat)
        (stp : AnalysisState × SubLocationMap) (q : StoreOwnershipQualifier),
      q ≠ StoreOwnershipQualifier.trivial →
      analyzeUse track locIdx stp (Use.store q) = some stp) ∧
    (∀ (track : Ty → Bool) (locIdx : Nat)
        (stp : AnalysisState × SubLocationMap),
      analyzeUse track locIdx stp
          (Use.store StoreOwnershipQualifier.trivial) = none ∧
        analyzeUse track locIdx stp Use.other = none) ∧
    (∀ (track : Ty → Bool) (st : AnalysisState) (v : Val) (uses : List Use),
      track v.ty = true →
      analyzeLocationUsesRecursively track st.locations.length
        (⟨st.locations ++ [Location.root v st.locations.length],
          st.addr2LocIdx⟩, []) uses = none →
      analyzeLocation track st v uses = st) := by
  refine ⟨?_, ?_, ?_, ?_⟩
  · exact fun track locIdx stp =>
      ⟨rfl, rfl, rfl, rfl, rfl, rfl, rfl, rfl, rfl, fun bb => rfl⟩
  · intro track locIdx stp q hq
    show (if q = StoreOwnershipQualifier.trivial then none else some stp) = some stp
    rw [if_neg hq]
  · exact fun track locIdx stp => ⟨rfl, rfl⟩
  · intro track st v uses htrack hnone
    simp only [analyzeLocation, htrack, not_true, if_false, Bool.true_eq_false,
      not_false_eq_true, ite_false, ite_true, if_neg]
    rw [hnone]

/-- Counterexample to C5 as stated: a store use can discard the root.  The
root `v0`'s only use is a `Trivial`-qualified store — a store use, hence
accepted per the claim — yet `analyzeLocation` discards the root (the table
stays empty), while the same root with an `Init`-qualified store is
registered. -/
theorem trivial_store_discards_root :
    analyzeLocation trackAll st0 v0
        [Use.store StoreOwnershipQualifier.trivial] = st0 ∧
      st0.locations = [] ∧
      (analyzeLocation trackAll st0 v0
        [Use.store StoreOwnershipQualifier.init]).locations.length = 1 :=
  ⟨rfl, rfl, rfl⟩

/-- Witness for `analyzeUses_accept_and_discard` at concrete inputs. -/
theorem analyzeUses_accept_and_discard_witness :
    analyzeUse trackAll 0 (st0, []) Use.load = some (st0, []) ∧
      StoreOwnershipQualifier.assign ≠ StoreOwnershipQualifier.trivial ∧
      analyzeUse trackAll 0 (st0, [])
        (Use.store StoreOwnershipQualifier.assign) = some (st0, []) ∧
      trackAll v0.ty = true ∧
      analyzeLocationUsesRecursively trackAll st0.locations.length
        (⟨st0.locations ++ [Location.root v0 st0.locations.length],
          st0.addr2LocIdx⟩, []) [Use.other] = none ∧
      analyzeLocation trackAll st0 v0 [Use.other] = st0 :=
  ⟨(analyzeUses_accept_and_discard.1 trackAll 0 (st0, [])).1,
    by decide,
    analyzeUses_accept_and_discard.2.1 trackAll 0 (st0, [])
      StoreOwnershipQualifier.assign (by decide),
    rfl, rfl,
    analyzeUses_accept_and_discard.2.2.2 trackAll st0 v0 [Use.other] rfl rfl⟩

theorem allUsesInSameBlockGo_eq_true (bb : Nat) :
    ∀ (l : List Use) (numDS : Nat),
      allUsesInSameBlockGo bb l numDS = true ↔
        ((∀ ub, Use.deallocStack ub ∈ l → ub = bb) ∧
          numDS + countDeallocStacks l = 1) := by
  intro l
  induction l with
  | nil =>
    intro numDS
    simp [allUsesInSameBlockGo, countDeallocStacks]
  | cons u rest ih =>
    intro numDS
    cases u
    case deallocStack ub =>
      by_cases hub : ub = bb
      · have hstep : allUsesInSameBlockGo bb (Use.deallocStack ub :: rest) numDS =
            allUsesInSameBlockGo bb rest (numDS + 1) := by
          simp [allUsesInSameBlockGo, hub]
        rw [hstep, ih (numDS + 1)]
        have hc : countDeallocStacks (Use.deallocStack ub :: rest) =
            countDeallocStacks rest + 1 := rfl
        constructor
        · rintro ⟨h1, h2⟩
          refine ⟨?_, ?_⟩
          · intro ub' hmem
            rcases List.mem_cons.mp hmem with heq | hmem'
            · exact (Use.deallocStack.inj heq).trans hub
            · exact h1 ub' hmem'
          · rw [hc]
            omega
        · rintro ⟨h1, h2⟩
          refine ⟨fun ub' hmem' => h1 ub' (List.mem_cons.mpr (Or.inr hmem')), ?_⟩
          rw [hc] at h2
          omega
      · have hstep : allUsesInSameBlockGo bb (Use.deallocStack ub :: rest) numDS =
            false := by
          simp [allUsesInSameBlockGo, hub]
        rw [hstep]
        constructor
        · intro h
          exact absurd h (by simp)
        · rintro ⟨h1, -⟩
          exact absurd (h1 ub (List.mem_cons_self _ _)) hub
    all_goals
      ( show allUsesInSameBlockGo bb rest numDS = true ↔ _
        rw [ih numDS]
        constructor
        · rintro ⟨h1, h2⟩
          refine ⟨?_, h2⟩
          intro ub' hmem
          rcases List.mem_cons.mp hmem with heq | hmem'
          · simp at heq
          · exact h1 ub' hmem'
        · rintro ⟨h1, h2⟩
          exact ⟨fun ub' hmem' => h1 ub' (List.mem_cons.mpr (Or.inr hmem')), h2⟩)

theorem projRegister_addr2 (track : Ty → Bool) (v : Val)
    (fieldNr parentLocIdx : Nat) (stp : AnalysisState × SubLocationMap) :
    (projRegister track v fieldNr parentLocIdx stp).1.addr2LocIdx =
      stp.1.addr2LocIdx := by
  unfold projRegister
  cases lookupSubLoc stp.2 (parentLocIdx, fieldNr) <;> rfl

theorem analyze_keys_bound (track : Ty → Bool) :
    ∀ N : Nat,
      (∀ (l : List Use), sizeOf l ≤ N →
        ∀ (locIdx : Nat) (stp res : AnalysisState × SubLocationMap),
          analyzeLocationUsesRecursively track locIdx stp l = some res →
          ∀ k ∈ res.1.addr2LocIdx, k ∈ stp.1.addr2LocIdx ∨ k.1 ∈ useIds l) ∧
      (∀ (u : Use), sizeOf u ≤ N →
        ∀ (locIdx : Nat) (stp res : AnalysisState × SubLocationMap),
          analyzeUse track locIdx stp u = some res →
          ∀ k ∈ res.1.addr2LocIdx, k ∈ stp.1.addr2LocIdx ∨ k.1 ∈ useIdsOfUse u) := by
  intro N
  induction N with
  | zero =>
    constructor
    · intro l hl
      exfalso
      cases l <;> simp at hl
    · intro u hu
      exfalso
      cases u <;> simp at hu
  | succ N ih =>
    obtain ⟨ihl, ihu⟩ := ih
    have hlist : ∀ (l : List Use), sizeOf l ≤ N + 1 →
        ∀ (locIdx : Nat) (stp res : AnalysisState × SubLocationMap),
          analyzeLocationUsesRecursively track locIdx stp l = some res →
          ∀ k ∈ res.1.addr2LocIdx, k ∈ stp.1.addr2LocIdx ∨ k.1 ∈ useIds l := by
      intro l hl locIdx stp res hres k hk
      cases l with
      | nil =>
        cases hres
        exact Or.inl hk
      | cons u rest =>
        have hsz : sizeOf u ≤ N ∧ sizeOf rest ≤ N := by
          simp at hl
          omega
        rw [show analyzeLocationUsesRecursively track locIdx stp (u :: rest) =
            match analyzeUse track locIdx stp u with
            | none => none
            | some stp' =>
              analyzeLocationUsesRecursively track locIdx stp' rest from rfl] at hres
        cases hu : analyzeUse track locIdx stp u with
        | none => rw [hu] at hres; cases hres
        | some stp' =>
          rw [hu] at hres
          rcases ihl rest hsz.2 locIdx stp' res hres k hk with h' | h'
          · rcases ihu u hsz.1 locIdx stp stp' hu k h' with h'' | h''
            · exact Or.inl h''
            · exact Or.inr (by
                show k.1 ∈ useIdsOfUse u ++ useIds rest
                exact List.mem_append.mpr (Or.inl h''))
          · exact Or.inr (by
              show k.1 ∈ useIdsOfUse u ++ useIds rest
              exact List.mem_append.mpr (Or.inr h'))
    refine ⟨?_, ?_⟩
    · intro l hl
      rcases Nat.lt_or_ge (sizeOf l) (N + 1) with h | h
      · exact ihl l (by omega)
      · exact hlist l hl
    · intro u hu locIdx stp res hres k hk
      cases u
      case structElementAddr v fieldNr uses =>
        have hsz : sizeOf uses ≤ N := by
          simp at hu
          omega
        rw [analyzeUse_structElementAddr] at hres
        unfold analyzeAddrProjection at hres
        split at hres
        · cases hres
          exact Or.inl hk
        · cases hrec : analyzeLocationUsesRecursively track
              (projSubLocIdx stp locIdx fieldNr)
              (projRegister track v fieldNr locIdx stp) uses with
          | none => rw [hrec] at hres; cases hres
          | some st2sm =>
            rw [hrec] at hres
            obtain ⟨st2, sm2⟩ := st2sm
            cases hres
            rcases List.mem_cons.mp hk with heq | hk'
            · right
              show k.1 ∈ v.id :: useIds uses
              rw [heq]
              exact List.mem_cons_self _ _
            · rcases hlist uses (by omega) (projSubLocIdx stp locIdx fieldNr)
                (projRegister track v fieldNr locIdx stp) (st2, sm2) hrec k hk' with
                h' | h'
              · rw [projRegister_addr2] at h'
                exact Or.inl h'
              · right
                show k.1 ∈ v.id :: useIds uses
                exact List.mem_cons.mpr (Or.inr h')
      case tupleElementAddr v fieldNr uses =>
        have hsz : sizeOf uses ≤ N := by
          simp at hu
          omega
        rw [analyzeUse_tupleElementAddr] at hres
        unfold analyzeAddrProjection at hres
        split at hres
        · cases hres
          exact Or.inl hk
        · cases hrec : analyzeLocationUsesRecursively track
              (projSubLocIdx stp locIdx fieldNr)
              (projRegister track v fieldNr locIdx stp) uses with
          | none => rw [hrec] at hres; cases hres
          | some st2sm =>
            rw [hrec] at hres
            obtain ⟨st2, sm2⟩ := st2sm
            cases hres
            rcases List.mem_cons.mp hk with heq | hk'
            · right
              show k.1 ∈ v.id :: useIds uses
              rw [heq]
              exact List.mem_cons_self _ _
            · rcases hlist uses (by omega) (projSubLocIdx stp locIdx fieldNr)
                (projRegister track v fieldNr locIdx stp) (st2, sm2) hrec k hk' with
                h' | h'
              · rw [projRegister_addr2] at h'
                exact Or.inl h'
              · right
                show k.1 ∈ v.id :: useIds uses
                exact List.mem_cons.mpr (Or.inr h')
      case beginAccess uses =>
        have hsz : sizeOf uses ≤ N := by
          simp at hu
          omega
        exact hlist uses (by omega) locIdx stp res hres k hk
      case store q =>
        revert hres
        show (if q = StoreOwnershipQualifier.trivial then none else some stp)
            = some res → _
        split
        · intro hres; cases hres
        · intro hres; cases hres; exact Or.inl hk
      case load => cases hres; exact Or.inl hk
      case endAccess => cases hres; exact Or.inl hk
      case loadBorrow => cases hres; exact Or.inl hk
      case destroyAddr => cases hres; exact Or.inl hk
      case applyUse => cases hres; exact Or.inl hk
      case tryApplyUse => cases hres; exact Or.inl hk
      case debugValueAddr => cases hres; exact Or.inl hk
      case copyAddr => cases hres; exact Or.inl hk
      case yieldUse => cases hres; exact Or.inl hk
      case deallocStack bb => cases hres; exact Or.inl hk
      case other => cases hres

theorem analyzeLocation_keys (track : Ty → Bool) (st : AnalysisState) (v : Val)
    (uses : List Use) :
    ∀ k ∈ (analyzeLocation track st v uses).addr2LocIdx,
      k ∈ st.addr2LocIdx ∨ k.1 = v.id ∨ k.1 ∈ useIds uses := by
  intro k hk
  unfold analyzeLocation at hk
  split at hk
  · exact Or.inl hk
  · simp only [] at hk
    cases hres : analyzeLocationUsesRecursively track st.locations.length
        (⟨st.locations ++ [Location.root v st.locations.length],
          st.addr2LocIdx⟩, []) uses with
    | none =>
      rw [hres] at hk
      exact Or.inl hk
    | some st2sm =>
      rw [hres] at hk
      obtain ⟨st2, sm2⟩ := st2sm
      rcases List.mem_cons.mp hk with heq | hk'
      · right
        left
        rw [heq]
      · rcases (analyze_keys_bound track (sizeOf uses)).1 uses (le_refl _)
          st.locations.length
          (⟨st.locations ++ [Location.root v st.locations.length],
            st.addr2LocIdx⟩, []) (st2, sm2) hres k hk' with h' | h'
        · exact Or.inl h'
        · exact Or.inr (Or.inr h')

theorem analyzeLocations_avoids (track : Ty → Bool) (f : AFunc) (x : Nat)
    (hargs : ∀ arg ∈ f.args, x ≠ arg.1.id ∧ x ∉ useIds arg.2.1)
    (hallocs : ∀ a ∈ f.allocStacks,
      (a.hasDynamicLifetime = false ∧ allUsesInSameBlock a = true) ∨
        (x ≠ a.v.id ∧ x ∉ useIds a.uses)) :
    ∀ k ∈ (analyzeLocations track f).1.addr2LocIdx, k.1 ≠ x := by
  have hstep1 : ∀ (l : List (Val × List Use × SILArgumentConvention))
      (st : AnalysisState),
      (∀ arg ∈ l, x ≠ arg.1.id ∧ x ∉ useIds arg.2.1) →
      (∀ k ∈ st.addr2LocIdx, k.1 ≠ x) →
      ∀ k ∈ (l.foldl (fun st arg =>
          if isAnalyzedArgConvention arg.2.2 then
            analyzeLocation track st arg.1 arg.2.1
          else st) st).addr2LocIdx, k.1 ≠ x := by
    intro l
    induction l with
    | nil => exact fun st _ hst => hst
    | cons arg l ihl =>
      intro st hl hst
      simp only [List.foldl_cons]
      refine ihl _ (fun a ha => hl a (List.mem_cons.mpr (Or.inr ha))) ?_
      intro k hk
      split at hk
      · rcases analyzeLocation_keys track st arg.1 arg.2.1 k hk with h | h | h
        · exact hst k h
        · rw [h]
          exact (hl arg (List.mem_cons_self _ _)).1.symm
        · intro hkx
          rw [hkx] at h
          exact (hl arg (List.mem_cons_self _ _)).2 h
      · exact hst k hk
  have hstep2 : ∀ (l : List AllocStackInst)
      (acc : AnalysisState × List AllocStackInst),
      (∀ a ∈ l, (a.hasDynamicLifetime = false ∧ allUsesInSameBlock a = true) ∨
        (x ≠ a.v.id ∧ x ∉ useIds a.uses)) →
      (∀ k ∈ acc.1.addr2LocIdx, k.1 ≠ x) →
      ∀ k ∈ (l.foldl (fun acc asi =>
          if asi.hasDynamicLifetime then acc
          else if allUsesInSameBlock asi then (acc.1, acc.2 ++ [asi])
          else (analyzeLocation track acc.1 asi.v asi.uses, acc.2))
        acc).1.addr2LocIdx, k.1 ≠ x := by
    intro l
    induction l with
    | nil => exact fun acc _ hacc => hacc
    | cons asi l ihl =>
      intro acc hl hacc
      simp only [List.foldl_cons]
      refine ihl _ (fun a ha => hl a (List.mem_cons.mpr (Or.inr ha))) ?_
      by_cases hdyn : asi.hasDynamicLifetime
      · rw [if_pos hdyn]
        exact hacc
      · rw [if_neg hdyn]
        by_cases hsb : allUsesInSameBlock asi
        · rw [if_pos hsb]
          exact hacc
        · rw [if_neg hsb]
          intro k hk
          rcases hl asi (List.mem_cons_self _ _) with ⟨-, htrue⟩ | ⟨h1, h2⟩
          · exact absurd htrue hsb
          · rcases analyzeLocation_keys track acc.1 asi.v asi.uses k hk with
              h | h | h
            · exact hacc k h
            · rw [h]
              exact h1.symm
            · intro hkx
              rw [hkx] at h
              exact h2 h
  unfold analyzeLocations
  exact hstep2 f.allocStacks _ hallocs
    (hstep1 f.args ⟨[], []⟩ hargs (by intro k hk; cases hk))

theorem analyzeLocations_defers (track : Ty → Bool) (f : AFunc)
    (asi : AllocStackInst) (hmem : asi ∈ f.allocStacks)
    (hdyn : asi.hasDynamicLifetime = false)
    (hsb : allUsesInSameBlock asi = true) :
    asi ∈ (analyzeLocations track f).2 := by
  have hstep : ∀ (l : List AllocStackInst)
      (acc : AnalysisState × List AllocStackInst),
      (asi ∈ l ∨ asi ∈ acc.2) →
      asi ∈ (l.foldl (fun acc asi =>
          if asi.hasDynamicLifetime then acc
          else if allUsesInSameBlock asi then (acc.1, acc.2 ++ [asi])
          else (analyzeLocation track acc.1 asi.v asi.uses, acc.2))
        acc).2 := by
    intro l
    induction l with
    | nil =>
      rintro acc (h | h)
      · cases h
      · exact h
    | cons a l ihl =>
      rintro acc (h | h)
      · rcases List.mem_cons.mp h with rfl | h'
        · refine ihl _ (Or.inr ?_)
          show asi ∈ (if asi.hasDynamicLifetime = true then acc
            else if allUsesInSameBlock asi = true then (acc.1, acc.2 ++ [asi])
            else (analyzeLocation track acc.1 asi.v asi.uses, acc.2)).2
          rw [if_neg (by rw [hdyn]; exact Bool.false_ne_true), if_pos hsb]
          exact List.mem_append.mpr (Or.inr (List.mem_singleton.mpr rfl))
        · exact ihl _ (Or.inl h')
      · refine ihl _ (Or.inr ?_)
        show asi ∈ (if a.hasDynamicLifetime = true then acc
          else if allUsesInSameBlock a = true then (acc.1, acc.2 ++ [a])
          else (analyzeLocation track acc.1 a.v a.uses, acc.2)).2
        by_cases hdyn2 : a.hasDynamicLifetime
        · rw [if_pos hdyn2]
          exact h
        · rw [if_neg hdyn2]
          by_cases hsb2 : allUsesInSameBlock a
          · rw [if_pos hsb2]
            exact List.mem_append.mpr (Or.inl h)
          · rw [if_neg hsb2]
            exact h
  unfold analyzeLocations
  exact hstep f.allocStacks _ (Or.inl hmem)

theorem mem_collapseConsec (b : Nat) :
    ∀ l : List Nat, b ∈ collapseConsec l ↔ b ∈ l := by
  intro l
  induction l with
  | nil => simp [collapseConsec]
  | cons a l ih =>
    cases l with
    | nil => simp [collapseConsec]
    | cons a2 l2 =>
      show b ∈ (if a = a2 then collapseConsec (a2 :: l2)
        else a :: collapseConsec (a2 :: l2)) ↔ _
      by_cases hab : a = a2
      · rw [if_pos hab, ih]
        subst hab
        simp [List.mem_cons]
      · rw [if_neg hab]
        simp only [List.mem_cons] at ih ⊢
        rw [ih]

/-- Counterexample to C7 as stated: for this allocation every deallocation
site (there is none) lies in the same block as all other uses, it has no
dynamic lifetime, yet `allUsesInSameBlock` rejects it (the source requires
exactly one `dealloc_stack`), it is not deferred to single-block handling
(the singles list is empty) and it IS registered in the cross-block
location table. -/
theorem missing_dealloc_not_single_block :
    (∀ ub, Use.deallocStack ub ∈ asiC7x.uses → ub = asiC7x.parentBlock) ∧
      asiC7x.hasDynamicLifetime = false ∧
      allUsesInSameBlock asiC7x = false ∧
      (analyzeLocations trackAll fC7x).2 = [] ∧
      (analyzeLocations trackAll fC7x).1.addr2LocIdx = [(7, 0)] := by
  refine ⟨?_, rfl, rfl, rfl, rfl⟩
  intro ub h
  rcases List.mem_cons.mp h with heq | h2
  · cases heq
  · cases h2

/-- C7 (amended): a stack allocation without dynamic lifetime is deferred to
single-block handling exactly when it has precisely one `dealloc_stack` use
and that use lies in the allocation's own block (NOT merely "every
deallocation site lies in the same block": a missing `dealloc_stack` is
rejected).  Such an allocation is never registered in the cross-block
location table (its value never becomes a key of `addr2LocIdx`, given that
its identity is fresh with respect to the other analyzed roots and their
projections), it lands in the deferred single-block list, its block is among
the blocks `handleSingleBlockLocations` processes, and the second
verification step runs only the checking pass over each handled block from
an all-clear entry bit vector — the dataflow solver is never invoked. -/
theorem singleBlock_deferral (track : Ty → Bool) (f : AFunc) (g : Func)
    (asi : AllocStackInst) (hmem : asi ∈ f.allocStacks)
    (hdyn : asi.hasDynamicLifetime = false)
    (hall : ∀ ub, Use.deallocStack ub ∈ asi.uses → ub = asi.parentBlock)
    (hone : countDeallocStacks asi.uses = 1)
    (hargs : ∀ arg ∈ f.args, asi.v.id ≠ arg.1.id ∧ asi.v.id ∉ useIds arg.2.1)
    (hallocs : ∀ a ∈ f.allocStacks,
      (a.hasDynamicLifetime = false ∧ allUsesInSameBlock a = true) ∨
        (asi.v.id ≠ a.v.id ∧ asi.v.id ∉ useIds a.uses)) :
    allUsesInSameBlock asi = true ∧
      asi ∈ (analyzeLocations track f).2 ∧
      (∀ k ∈ (analyzeLocations track f).1.addr2LocIdx, k.1 ≠ asi.v.id) ∧
      asi.parentBlock ∈ handledBlocks (analyzeLocations track f).2 ∧
      verifyStep2 g (analyzeLocations track f).2 =
        (handledBlocks (analyzeLocations track f).2).flatMap
          (fun b => (checkBlock g b ∅).1) := by
  have hsb : allUsesInSameBlock asi = true := by
    unfold allUsesInSameBlock
    rw [allUsesInSameBlockGo_eq_true]
    exact ⟨hall, by omega⟩
  have hdef := analyzeLocations_defers track f asi hmem hdyn hsb
  refine ⟨hsb, hdef,
    analyzeLocations_avoids track f asi.v.id hargs hallocs, ?_, rfl⟩
  unfold handledBlocks
  rw [mem_collapseConsec]
  exact List.mem_map.mpr ⟨asi, hdef, rfl⟩

/-- Witness for `singleBlock_deferral` at concrete inputs. -/
theorem singleBlock_deferral_witness :
    asiC7w ∈ (analyzeLocations trackAll fC7w).2 ∧
      (∀ k ∈ (analyzeLocations trackAll fC7w).1.addr2LocIdx,
        k.1 ≠ asiC7w.v.id) ∧
      asiC7w.parentBlock ∈ handledBlocks (analyzeLocations trackAll fC7w).2 :=
  let h := singleBlock_deferral trackAll fC7w fC9 asiC7w
    (List.mem_singleton.mpr rfl) rfl
    (fun ub hu => by
      rcases List.mem_cons.mp hu with heq | h2
      · cases heq
      · rcases List.mem_cons.mp h2 with heq2 | h3
        · injection heq2
        · cases h3)
    rfl
    (fun arg ha => absurd ha (List.not_mem_nil arg))
    (fun a ha => Or.inl (by
      rcases List.mem_cons.mp ha with rfl | h3
      · exact ⟨rfl, rfl⟩
      · cases h3))
  ⟨h.2.1, h.2.2.1, h.2.2.2.1⟩

theorem getD_set (l : List Location) (i j : Nat) (x : Location) :
    (l.set i x).getD j default =
      if i = j ∧ i < l.length then x else l.getD j default := by
  by_cases hij : i = j
  · subst hij
    by_cases hi : i < l.length
    · simp [List.getD, List.getElem?_set, hi]
    · simp [List.getD, List.getElem?_set, hi,
        List.getElem?_eq_none (Nat.le_of_not_lt hi)]
  · simp [List.getD, List.getElem?_set, hij]

theorem getD_append_lt (l l2 : List Location) (i : Nat) (h : i < l.length) :
    (l ++ l2).getD i default = l.getD i default := by
  simp [List.getD, List.getElem?_append, h]

theorem getD_concat_len (l : List Location) (x : Location) :
    (l ++ [x]).getD l.length default = x := by
  simp [List.getD]

theorem getD_len_le (l : List Location) (i : Nat) (h : l.length ≤ i) :
    l.getD i default = default := by
  simp [List.getD, List.getElem?_eq_none h]

theorem ParentLt_congr (locs locs' : List Location)
    (hagree : ∀ i, (locs'.getD i default).parentIdx =
      (locs.getD i default).parentIdx)
    (hpl : ParentLt locs) : ParentLt locs' := by
  intro i p hp
  exact hpl i p ((hagree i).symm.trans hp)

theorem length_updateAncestors (f : Location → Location) :
    ∀ (fuel : Nat) (locs : List Location) (idx : Nat),
      (updateAncestors f fuel locs idx).length = locs.length := by
  intro fuel
  induction fuel with
  | zero => intro locs idx; rfl
  | succ k ih =>
    intro locs idx
    show (match (locs.getD idx default).parentIdx with
      | none => locs.set idx (f (locs.getD idx default))
      | some p =>
        updateAncestors f k (locs.set idx (f (locs.getD idx default))) p).length =
      locs.length
    cases (locs.getD idx default).parentIdx with
    | none => exact List.length_set ..
    | some p => rw [ih]; exact List.length_set ..

theorem getD_set_skeleton (locs : List Location) (idx j : Nat)
    (x : Location)
    (hx : x.representativeValue = (locs.getD idx default).representativeValue ∧
      x.parentIdx = (locs.getD idx default).parentIdx ∧
      x.numFieldsNotCoveredBySubfields =
        (locs.getD idx default).numFieldsNotCoveredBySubfields) :
    ((locs.set idx x).getD j default).representativeValue =
        (locs.getD j default).representativeValue ∧
      ((locs.set idx x).getD j default).parentIdx =
        (locs.getD j default).parentIdx ∧
      ((locs.set idx x).getD j default).numFieldsNotCoveredBySubfields =
        (locs.getD j default).numFieldsNotCoveredBySubfields := by
  rw [getD_set]
  split
  · rename_i hc
    obtain ⟨rfl, -⟩ := hc
    exact hx
  · exact ⟨rfl, rfl, rfl⟩

theorem updateAncestors_skeleton (f : Location → Location)
    (hf : PreservesSkeleton f) :
    ∀ (fuel : Nat) (locs : List Location) (idx j : Nat),
      ((updateAncestors f fuel locs idx).getD j default).representativeValue =
          (locs.getD j default).representativeValue ∧
        ((updateAncestors f fuel locs idx).getD j default).parentIdx =
          (locs.getD j default).parentIdx ∧
        ((updateAncestors f fuel locs idx).getD j
            default).numFieldsNotCoveredBySubfields =
          (locs.getD j default).numFieldsNotCoveredBySubfields := by
  intro fuel
  induction fuel with
  | zero => exact fun locs idx j => ⟨rfl, rfl, rfl⟩
  | succ k ih =>
    intro locs idx j
    have hset := getD_set_skeleton locs idx j (f (locs.getD idx default))
      (hf (locs.getD idx default))
    have hstep : updateAncestors f (k + 1) locs idx =
        match (locs.getD idx default).parentIdx with
        | none => locs.set idx (f (locs.getD idx default))
        | some p =>
          updateAncestors f k (locs.set idx (f (locs.getD idx default))) p := rfl
    rw [hstep]
    cases (locs.getD idx default).parentIdx with
    | none => exact hset
    | some p =>
      obtain ⟨h1, h2, h3⟩ := ih (locs.set idx (f (locs.getD idx default))) p j
      exact ⟨h1.trans hset.1, h2.trans hset.2.1, h3.trans hset.2.2⟩

theorem updateAncestors_mem_iff (f : Location → Location) (x : Nat)
    (hf : ∀ l, x ∈ (f l).subLocations ↔ x ∈ l.subLocations) :
    ∀ (fuel : Nat) (locs : List Location) (idx j : Nat),
      (x ∈ ((updateAncestors f fuel locs idx).getD j default).subLocations ↔
        x ∈ (locs.getD j default).subLocations) := by
  intro fuel
  induction fuel with
  | zero => exact fun locs idx j => Iff.rfl
  | succ k ih =>
    intro locs idx j
    have hset : x ∈ ((locs.set idx
          (f (locs.getD idx default))).getD j default).subLocations ↔
        x ∈ (locs.getD j default).subLocations := by
      rw [getD_set]
      split
      · rename_i hc
        obtain ⟨rfl, -⟩ := hc
        exact hf _
      · exact Iff.rfl
    show x ∈ ((match (locs.getD idx default).parentIdx with
      | none => locs.set idx (f (locs.getD idx default))
      | some p =>
        updateAncestors f k (locs.set idx (f (locs.getD idx default))) p).getD j
          default).subLocations ↔ _
    cases (locs.getD idx default).parentIdx with
    | none => exact hset
    | some p => exact (ih (locs.set idx (f (locs.getD idx default))) p j).trans hset

theorem updateAncestors_getD_gt (f : Location → Location)
    (hf : PreservesSkeleton f) :
    ∀ (fuel : Nat) (locs : List Location) (idx i : Nat), ParentLt locs →
      idx < i →
      (updateAncestors f fuel locs idx).getD i default =
        locs.getD i default := by
  intro fuel
  induction fuel with
  | zero => exact fun locs idx i _ _ => rfl
  | succ k ih =>
    intro locs idx i hpl hlt
    have hset : (locs.set idx (f (locs.getD idx default))).getD i default =
        locs.getD i default := by
      rw [getD_set]
      split
      · rename_i hc
        exact absurd hc.1 (Nat.ne_of_lt hlt)
      · rfl
    have hstep : updateAncestors f (k + 1) locs idx =
        match (locs.getD idx default).parentIdx with
        | none => locs.set idx (f (locs.getD idx default))
        | some p =>
          updateAncestors f k (locs.set idx (f (locs.getD idx default))) p := rfl
    rw [hstep]
    cases hp : (locs.getD idx default).parentIdx with
    | none => exact hset
    | some p =>
      have hpl1 : ParentLt (locs.set idx (f (locs.getD idx default))) :=
        ParentLt_congr locs _
          (fun j => (getD_set_skeleton locs idx j _ (hf _)).2.1) hpl
      exact (ih _ p i hpl1 (Nat.lt_trans (hpl idx p hp) hlt)).trans hset

theorem ancestorChain_congr (locs locs' : List Location) (n : Nat)
    (hpl : ParentLt locs)
    (hagree : ∀ i, i < n → (locs'.getD i default).parentIdx =
      (locs.getD i default).parentIdx) :
    ∀ (fuel idx : Nat), idx < n →
      ancestorChain locs' fuel idx = ancestorChain locs fuel idx := by
  intro fuel
  induction fuel with
  | zero => exact fun idx _ => rfl
  | succ k ih =>
    intro idx hidx
    show (idx :: (match (locs'.getD idx default).parentIdx with
      | none => []
      | some p => ancestorChain locs' k p)) =
      (idx :: (match (locs.getD idx default).parentIdx with
      | none => []
      | some p => ancestorChain locs k p))
    rw [hagree idx hidx]
    cases hp : (locs.getD idx default).parentIdx with
    | none => rfl
    | some p =>
      show idx :: ancestorChain locs' k p = idx :: ancestorChain locs k p
      rw [ih p (Nat.lt_trans (hpl idx p hp) hidx)]

theorem ancestorChain_le (locs : List Location) (hpl : ParentLt locs) :
    ∀ (fuel idx : Nat), ∀ j ∈ ancestorChain locs fuel idx, j ≤ idx := by
  intro fuel
  induction fuel with
  | zero =>
    intro idx j hj
    cases hj
  | succ k ih =>
    intro idx j hj
    have hstep : ancestorChain locs (k + 1) idx =
        idx :: (match (locs.getD idx default).parentIdx with
          | none => []
          | some p => ancestorChain locs k p) := rfl
    rw [hstep] at hj
    rcases List.mem_cons.mp hj with rfl | hj'
    · exact le_refl j
    · cases hp : (locs.getD idx default).parentIdx with
      | none =>
        rw [hp] at hj'
        cases hj'
      | some p =>
        rw [hp] at hj'
        exact Nat.le_of_lt (Nat.lt_of_le_of_lt (ih p j hj') (hpl idx p hp))

theorem updateAncestors_erase_chain (p : Nat) :
    ∀ (fuel : Nat) (locs : List Location) (idx : Nat), ParentLt locs →
      idx < fuel →
      ∀ j ∈ ancestorChain locs fuel idx,
        p ∉ ((updateAncestors
          (fun l => { l with subLocations := l.subLocations.erase p })
          fuel locs idx).getD j default).subLocations := by
  intro fuel
  induction fuel with
  | zero =>
    intro locs idx _ hidx
    exact absurd hidx (Nat.not_lt_zero idx)
  | succ k ih =>
    intro locs idx hpl hidx j hj
    have hskel : PreservesSkeleton
        (fun l => { l with subLocations := l.subLocations.erase p }) :=
      fun l => ⟨rfl, rfl, rfl⟩
    have hagree : ∀ i,
        ((locs.set idx { locs.getD idx default with
          subLocations := (locs.getD idx default).subLocations.erase p }).getD i
            default).parentIdx = (locs.getD i default).parentIdx :=
      fun i => (getD_set_skeleton locs idx i _ (hskel _)).2.1
    have hpl1 : ParentLt (locs.set idx { locs.getD idx default with
        subLocations := (locs.getD idx default).subLocations.erase p }) :=
      ParentLt_congr locs _ hagree hpl
    have hsetidx : p ∉ ((locs.set idx { locs.getD idx default with
        subLocations := (locs.getD idx default).subLocations.erase p }).getD idx
          default).subLocations := by
      rw [getD_set]
      split
      · exact Finset.not_mem_erase p _
      · rename_i hc
        rw [getD_len_le locs idx (by
          rcases Nat.lt_or_ge idx locs.length with h | h
          · exact absurd ⟨rfl, h⟩ hc
          · exact h)]
        exact Finset.not_mem_empty p
    have hchain : ancestorChain locs (k + 1) idx =
        idx :: (match (locs.getD idx default).parentIdx with
          | none => []
          | some q => ancestorChain locs k q) := rfl
    have hstep : updateAncestors
        (fun l => { l with subLocations := l.subLocations.erase p })
        (k + 1) locs idx =
        match (locs.getD idx default).parentIdx with
        | none => locs.set idx { locs.getD idx default with
            subLocations := (locs.getD idx default).subLocations.erase p }
        | some q =>
          updateAncestors
            (fun l => { l with subLocations := l.subLocations.erase p }) k
            (locs.set idx { locs.getD idx default with
              subLocations := (locs.getD idx default).subLocations.erase p })
            q := rfl
    rw [hchain] at hj
    rw [hstep]
    cases hp : (locs.getD idx default).parentIdx with
    | none =>
      rw [hp] at hj
      rcases List.mem_cons.mp hj with rfl | hj'
      · exact hsetidx
      · cases hj'
    | some q =>
      rw [hp] at hj
      have hq : q < idx := hpl idx q hp
      rcases List.mem_cons.mp hj with rfl | hj'
      · rw [updateAncestors_getD_gt _ hskel k _ q j hpl1 hq]
        exact hsetidx
      · have hchaineq : ancestorChain (locs.set idx { locs.getD idx default with
            subLocations := (locs.getD idx default).subLocations.erase p })
            k q = ancestorChain locs k q :=
          ancestorChain_congr locs _ (q + 1) hpl
            (fun i _ => hagree i) k q (Nat.lt_succ_self q)
        refine ih _ q hpl1 (by omega) j ?_
        rw [hchaineq]
        exact hj'

theorem fieldsCounterAfterInit_congr (track : Ty → Bool) (l l' : Location)
    (h1 : l'.numFieldsNotCoveredBySubfields = l.numFieldsNotCoveredBySubfields)
    (h2 : l'.representativeValue = l.representativeValue) :
    fieldsCounterAfterInit track l' = fieldsCounterAfterInit track l := by
  unfold fieldsCounterAfterInit
  rw [h1, h2]

theorem initFieldsCounterValue_resilient (track : Ty → Bool) (ty : Ty)
    (h : Ty.isResilientNominal ty = true) :
    initFieldsCounterValue track ty = INT_MAX := by
  cases ty with
  | nominal r fields =>
    cases r with
    | true => rfl
    | false => exact absurd h (by simp [Ty.isResilientNominal])
  | tuple elems => exact absurd h (by simp [Ty.isResilientNominal])
  | scalar n => exact absurd h (by simp [Ty.isResilientNominal])

theorem registerProjection_locations (track : Ty → Bool) (v : Val)
    (fieldNr parentLocIdx : Nat) (st : AnalysisState) (smap : SubLocationMap) :
    (registerProjection track v fieldNr parentLocIdx st smap).1.locations =
      regLocs4 track v parentLocIdx st := rfl

theorem regInsertSkeleton (n : Nat) : PreservesSkeleton
    (fun l => { l with subLocations := insert n l.subLocations }) :=
  fun _ => ⟨rfl, rfl, rfl⟩

theorem regEraseSkeleton (n : Nat) : PreservesSkeleton
    (fun l => { l with subLocations := l.subLocations.erase n }) :=
  fun _ => ⟨rfl, rfl, rfl⟩

theorem regLocs1_length (v : Val) (parentLocIdx : Nat) (st : AnalysisState) :
    (regLocs1 v parentLocIdx st).length = st.locations.length + 1 := by
  unfold regLocs1
  simp

theorem regLocs4_length (track : Ty → Bool) (v : Val) (parentLocIdx : Nat)
    (st : AnalysisState) :
    (regLocs4 track v parentLocIdx st).length = st.locations.length + 1 := by
  unfold regLocs4 regLocs3 regLocs2
  split <;>
    simp [length_updateAncestors, List.length_set, regLocs1_length]

theorem regLocs1_getD_lt (v : Val) (parentLocIdx j : Nat) (st : AnalysisState)
    (hj : j < st.locations.length) :
    (regLocs1 v parentLocIdx st).getD j default =
      st.locations.getD j default := by
  unfold regLocs1
  exact getD_append_lt _ _ j hj

theorem regLocs1_getD_len (v : Val) (parentLocIdx : Nat) (st : AnalysisState) :
    (regLocs1 v parentLocIdx st).getD st.locations.length default =
      regNewLoc v parentLocIdx st := by
  unfold regLocs1
  exact getD_concat_len _ _

theorem regLocs1_getD_gt (v : Val) (parentLocIdx j : Nat) (st : AnalysisState)
    (hj : st.locations.length + 1 ≤ j) :
    (regLocs1 v parentLocIdx st).getD j default = default := by
  refine getD_len_le _ j ?_
  rw [regLocs1_length]
  exact hj

theorem regLocs1_parentLt (v : Val) (parentLocIdx : Nat) (st : AnalysisState)
    (hpl : ParentLt st.locations) (hlen : parentLocIdx < st.locations.length) :
    ParentLt (regLocs1 v parentLocIdx st) := by
  intro i p hp
  rcases Nat.lt_trichotomy i st.locations.length with hi | hi | hi
  · rw [regLocs1_getD_lt v parentLocIdx i st hi] at hp
    exact hpl i p hp
  · subst hi
    rw [regLocs1_getD_len] at hp
    have : some parentLocIdx = some p := hp
    cases this
    exact hlen
  · rw [regLocs1_getD_gt v parentLocIdx i st hi] at hp
    exact absurd hp (by simp [default])

theorem regLocs3_skeleton (track : Ty → Bool) (v : Val)
    (parentLocIdx j : Nat) (st : AnalysisState) :
    ((regLocs3 track v parentLocIdx st).getD j default).representativeValue =
        ((regLocs1 v parentLocIdx st).getD j default).representativeValue ∧
      ((regLocs3 track v parentLocIdx st).getD j default).parentIdx =
        ((regLocs1 v parentLocIdx st).getD j default).parentIdx := by
  have h2 : ((regLocs2 v parentLocIdx st).getD j default).representativeValue =
        ((regLocs1 v parentLocIdx st).getD j default).representativeValue ∧
      ((regLocs2 v parentLocIdx st).getD j default).parentIdx =
        ((regLocs1 v parentLocIdx st).getD j default).parentIdx := by
    unfold regLocs2
    have h := updateAncestors_skeleton _ (regInsertSkeleton st.locations.length)
      (parentLocIdx + 1) (regLocs1 v parentLocIdx st) parentLocIdx j
    exact ⟨h.1, h.2.1⟩
  have h3 : ((regLocs3 track v parentLocIdx st).getD j
        default).representativeValue =
        ((regLocs2 v parentLocIdx st).getD j default).representativeValue ∧
      ((regLocs3 track v parentLocIdx st).getD j default).parentIdx =
        ((regLocs2 v parentLocIdx st).getD j default).parentIdx := by
    unfold regLocs3
    rw [getD_set]
    split
    · rename_i hc
      obtain ⟨rfl, -⟩ := hc
      exact ⟨rfl, rfl⟩
    · exact ⟨rfl, rfl⟩
  exact ⟨h3.1.trans h2.1, h3.2.trans h2.2⟩

theorem regLocs4_skeleton_all (track : Ty → Bool) (v : Val)
    (parentLocIdx j : Nat) (st : AnalysisState) :
    ((regLocs4 track v parentLocIdx st).getD j default).representativeValue =
        ((regLocs1 v parentLocIdx st).getD j default).representativeValue ∧
      ((regLocs4 track v parentLocIdx st).getD j default).parentIdx =
        ((regLocs1 v parentLocIdx st).getD j default).parentIdx := by
  unfold regLocs4
  split
  · have h4 := updateAncestors_skeleton _ (regEraseSkeleton parentLocIdx)
      (parentLocIdx + 1) (regLocs3 track v parentLocIdx st) parentLocIdx j
    have h3 := regLocs3_skeleton track v parentLocIdx j st
    exact ⟨h4.1.trans h3.1, h4.2.1.trans h3.2⟩
  · exact regLocs3_skeleton track v parentLocIdx j st

theorem regLocs4_skeleton (track : Ty → Bool) (v : Val)
    (parentLocIdx j : Nat) (st : AnalysisState)
    (hj : j < st.locations.length) :
    ((regLocs4 track v parentLocIdx st).getD j default).representativeValue =
        (st.locations.getD j default).representativeValue ∧
      ((regLocs4 track v parentLocIdx st).getD j default).parentIdx =
        (st.locations.getD j default).parentIdx := by
  have h := regLocs4_skeleton_all track v parentLocIdx j st
  rw [regLocs1_getD_lt v parentLocIdx j st hj] at h
  exact h

theorem regC0_eq (track : Ty → Bool) (v : Val) (parentLocIdx : Nat)
    (st : AnalysisState) (hlen : parentLocIdx < st.locations.length) :
    regC0 track v parentLocIdx st =
      fieldsCounterAfterInit track
        (st.locations.getD parentLocIdx default) := by
  unfold regC0
  have h2 : ((regLocs2 v parentLocIdx st).getD parentLocIdx
        default).numFieldsNotCoveredBySubfields =
        ((regLocs1 v parentLocIdx st).getD parentLocIdx
          default).numFieldsNotCoveredBySubfields ∧
      ((regLocs2 v parentLocIdx st).getD parentLocIdx
        default).representativeValue =
        ((regLocs1 v parentLocIdx st).getD parentLocIdx
          default).representativeValue := by
    unfold regLocs2
    have h := updateAncestors_skeleton _ (regInsertSkeleton st.locations.length)
      (parentLocIdx + 1) (regLocs1 v parentLocIdx st) parentLocIdx parentLocIdx
    exact ⟨h.2.2, h.1⟩
  refine fieldsCounterAfterInit_congr track _ _ ?_ ?_
  · rw [h2.1, regLocs1_getD_lt v parentLocIdx parentLocIdx st hlen]
  · rw [h2.2, regLocs1_getD_lt v parentLocIdx parentLocIdx st hlen]

theorem regLocs4_counter_parent (track : Ty → Bool) (v : Val)
    (parentLocIdx : Nat) (st : AnalysisState)
    (hlen : parentLocIdx < st.locations.length) :
    ((regLocs4 track v parentLocIdx st).getD parentLocIdx
        default).numFieldsNotCoveredBySubfields =
      fieldsCounterAfterInit track
        (st.locations.getD parentLocIdx default) - 1 := by
  have h3 : ((regLocs3 track v parentLocIdx st).getD parentLocIdx
      default).numFieldsNotCoveredBySubfields =
      regC0 track v parentLocIdx st - 1 := by
    unfold regLocs3
    rw [getD_set]
    rw [if_pos ⟨rfl, by
      rw [show (regLocs2 v parentLocIdx st).length =
          st.locations.length + 1 from by
        unfold regLocs2
        rw [length_updateAncestors, regLocs1_length]]
      omega⟩]
  unfold regLocs4
  split
  · have h4 := updateAncestors_skeleton _ (regEraseSkeleton parentLocIdx)
      (parentLocIdx + 1) (regLocs3 track v parentLocIdx st) parentLocIdx
      parentLocIdx
    rw [h4.2.2, h3, regC0_eq track v parentLocIdx st hlen]
  · rw [h3, regC0_eq track v parentLocIdx st hlen]

theorem regLocs4_counter_other (track : Ty → Bool) (v : Val)
    (parentLocIdx j : Nat) (st : AnalysisState) (hj : j ≠ parentLocIdx) :
    ((regLocs4 track v parentLocIdx st).getD j
        default).numFieldsNotCoveredBySubfields =
      (st.locations.getD j default).numFieldsNotCoveredBySubfields := by
  have h3 : ((regLocs3 track v parentLocIdx st).getD j
      default).numFieldsNotCoveredBySubfields =
      ((regLocs2 v parentLocIdx st).getD j
        default).numFieldsNotCoveredBySubfields := by
    unfold regLocs3
    rw [getD_set]
    rw [if_neg (fun hc => hj hc.1.symm)]
  have h2 : ((regLocs2 v parentLocIdx st).getD j
      default).numFieldsNotCoveredBySubfields =
      ((regLocs1 v parentLocIdx st).getD j
        default).numFieldsNotCoveredBySubfields := by
    unfold regLocs2
    exact (updateAncestors_skeleton _ (regInsertSkeleton st.locations.length)
      (parentLocIdx + 1) (regLocs1 v parentLocIdx st) parentLocIdx j).2.2
  have h1 : ((regLocs1 v parentLocIdx st).getD j
      default).numFieldsNotCoveredBySubfields =
      (st.locations.getD j default).numFieldsNotCoveredBySubfields := by
    rcases Nat.lt_trichotomy j st.locations.length with hlt | heq | hgt
    · rw [regLocs1_getD_lt v parentLocIdx j st hlt]
    · subst heq
      rw [regLocs1_getD_len, getD_len_le st.locations _ (le_refl _)]
      rfl
    · rw [regLocs1_getD_gt v parentLocIdx j st hgt,
        getD_len_le st.locations j (Nat.le_of_lt hgt)]
  have hcomb : ((regLocs3 track v parentLocIdx st).getD j
      default).numFieldsNotCoveredBySubfields =
      (st.locations.getD j default).numFieldsNotCoveredBySubfields := by
    rw [h3, h2, h1]
  unfold regLocs4
  split
  · have h4 := updateAncestors_skeleton _ (regEraseSkeleton parentLocIdx)
      (parentLocIdx + 1) (regLocs3 track v parentLocIdx st) parentLocIdx j
    rw [h4.2.2, hcomb]
  · exact hcomb

theorem regLocs3_mem_iff (track : Ty → Bool) (v : Val) (x : Nat)
    (parentLocIdx j : Nat) (st : AnalysisState)
    (hx : x ≠ st.locations.length) :
    (x ∈ ((regLocs3 track v parentLocIdx st).getD j default).subLocations ↔
      x ∈ ((regLocs1 v parentLocIdx st).getD j default).subLocations) := by
  have h3 : x ∈ ((regLocs3 track v parentLocIdx st).getD j
      default).subLocations ↔
      x ∈ ((regLocs2 v parentLocIdx st).getD j default).subLocations := by
    unfold regLocs3
    rw [getD_set]
    split
    · rename_i hc
      obtain ⟨rfl, -⟩ := hc
      exact Iff.rfl
    · exact Iff.rfl
  have h2 : x ∈ ((regLocs2 v parentLocIdx st).getD j default).subLocations ↔
      x ∈ ((regLocs1 v parentLocIdx st).getD j default).subLocations := by
    unfold regLocs2
    exact updateAncestors_mem_iff _ x
      (fun l => by
        simp only [Finset.mem_insert]
        exact or_iff_right hx)
      (parentLocIdx + 1) (regLocs1 v parentLocIdx st) parentLocIdx j
  exact h3.trans h2

theorem regLocs1_mem_iff (v : Val) (x : Nat) (parentLocIdx j : Nat)
    (st : AnalysisState) (hx : x ≠ st.locations.length) :
    (x ∈ ((regLocs1 v parentLocIdx st).getD j default).subLocations ↔
      x ∈ (st.locations.getD j default).subLocations) := by
  rcases Nat.lt_trichotomy j st.locations.length with hlt | heq | hgt
  · rw [regLocs1_getD_lt v parentLocIdx j st hlt]
  · subst heq
    rw [regLocs1_getD_len, getD_len_le st.locations _ (le_refl _)]
    show x ∈ ({st.locations.length} : Bits) ↔ x ∈ (∅ : Bits)
    simp [hx]
  · rw [regLocs1_getD_gt v parentLocIdx j st hgt,
      getD_len_le st.locations j (Nat.le_of_lt hgt)]

theorem regLocs3_parentLt (track : Ty → Bool) (v : Val) (parentLocIdx : Nat)
    (st : AnalysisState) (hpl : ParentLt st.locations)
    (hlen : parentLocIdx < st.locations.length) :
    ParentLt (regLocs3 track v parentLocIdx st) := by
  refine ParentLt_congr (regLocs1 v parentLocIdx st) _ ?_
    (regLocs1_parentLt v parentLocIdx st hpl hlen)
  exact fun j => (regLocs3_skeleton track v parentLocIdx j st).2

theorem regLocs4_mem_other (track : Ty → Bool) (v : Val) (x : Nat)
    (parentLocIdx j : Nat) (st : AnalysisState)
    (hx1 : x ≠ parentLocIdx) (hx2 : x ≠ st.locations.length) :
    (x ∈ ((regLocs4 track v parentLocIdx st).getD j default).subLocations ↔
      x ∈ (st.locations.getD j default).subLocations) := by
  have hbase := (regLocs3_mem_iff track v x parentLocIdx j st hx2).trans
    (regLocs1_mem_iff v x parentLocIdx j st hx2)
  unfold regLocs4
  split
  · refine (updateAncestors_mem_iff _ x
      (fun l => by
        simp only [Finset.mem_erase]
        exact and_iff_right hx1)
      (parentLocIdx + 1) (regLocs3 track v parentLocIdx st) parentLocIdx
      j).trans hbase
  · exact hbase

theorem regLocs4_keep (track : Ty → Bool) (v : Val) (parentLocIdx j : Nat)
    (st : AnalysisState) (hlen : parentLocIdx < st.locations.length)
    (h0 : regC0 track v parentLocIdx st - 1 ≠ 0) :
    (parentLocIdx ∈
        ((regLocs4 track v parentLocIdx st).getD j default).subLocations ↔
      parentLocIdx ∈ (st.locations.getD j default).subLocations) := by
  have hne : parentLocIdx ≠ st.locations.length := Nat.ne_of_lt hlen
  unfold regLocs4
  rw [if_neg h0]
  exact (regLocs3_mem_iff track v parentLocIdx parentLocIdx j st hne).trans
    (regLocs1_mem_iff v parentLocIdx parentLocIdx j st hne)

theorem regLocs4_retire (track : Ty → Bool) (v : Val) (parentLocIdx : Nat)
    (st : AnalysisState) (hpl : ParentLt st.locations)
    (hlen : parentLocIdx < st.locations.length)
    (h0 : regC0 track v parentLocIdx st - 1 = 0) :
    ∀ j ∈ ancestorChain st.locations (parentLocIdx + 1) parentLocIdx,
      parentLocIdx ∉
        ((regLocs4 track v parentLocIdx st).getD j default).subLocations := by
  intro j hj
  have hpl3 := regLocs3_parentLt track v parentLocIdx st hpl hlen
  have hchain : ancestorChain (regLocs3 track v parentLocIdx st)
      (parentLocIdx + 1) parentLocIdx =
      ancestorChain st.locations (parentLocIdx + 1) parentLocIdx := by
    refine ancestorChain_congr st.locations _ st.locations.length hpl ?_
      (parentLocIdx + 1) parentLocIdx hlen
    intro i hi
    exact (regLocs3_skeleton track v parentLocIdx i st).2.trans
      (congrArg Location.parentIdx (regLocs1_getD_lt v parentLocIdx i st hi))
  unfold regLocs4
  rw [if_pos h0]
  refine updateAncestors_erase_chain parentLocIdx (parentLocIdx + 1)
    (regLocs3 track v parentLocIdx st) parentLocIdx hpl3
    (Nat.lt_succ_self parentLocIdx) j ?_
  rw [hchain]
  exact hj

theorem regLocs4_parentLt (track : Ty → Bool) (v : Val) (parentLocIdx : Nat)
    (st : AnalysisState) (hpl : ParentLt st.locations)
    (hlen : parentLocIdx < st.locations.length) :
    ParentLt (regLocs4 track v parentLocIdx st) := by
  refine ParentLt_congr (regLocs1 v parentLocIdx st) _ ?_
    (regLocs1_parentLt v parentLocIdx st hpl hlen)
  exact fun j => (regLocs4_skeleton_all track v parentLocIdx j st).2

theorem regLocs4_rep_new (track : Ty → Bool) (v : Val) (parentLocIdx : Nat)
    (st : AnalysisState) :
    ((regLocs4 track v parentLocIdx st).getD st.locations.length
        default).representativeValue = v := by
  rw [(regLocs4_skeleton_all track v parentLocIdx st.locations.length st).1,
    regLocs1_getD_len]
  rfl

theorem regC0_resilient_ne (track : Ty → Bool) (v : Val) (parentLocIdx : Nat)
    (st : AnalysisState) (hrb : ResilientBound st.locations)
    (hlen : parentLocIdx < st.locations.length)
    (hres : Ty.isResilientNominal
      (st.locations.getD parentLocIdx default).representativeValue.ty = true)
    (hsmall : (st.locations.length : Int) + 1 < INT_MAX) :
    regC0 track v parentLocIdx st - 1 ≠ 0 := by
  rw [regC0_eq track v parentLocIdx st hlen]
  unfold fieldsCounterAfterInit
  rcases hrb parentLocIdx hres with hm | hb
  · split
    · rename_i hge
      omega
    · rw [initFieldsCounterValue_resilient track _ hres]
      simp only [INT_MAX]
      omega
  · split
    · rename_i hge
      simp only [INT_MAX] at hb hsmall ⊢
      omega
    · rw [initFieldsCounterValue_resilient track _ hres]
      simp only [INT_MAX]
      omega

theorem regLocs4_resilientBound (track : Ty → Bool) (v : Val)
    (parentLocIdx : Nat) (st : AnalysisState)
    (hrb : ResilientBound st.locations)
    (hlen : parentLocIdx < st.locations.length) :
    ResilientBound (regLocs4 track v parentLocIdx st) := by
  intro i hres
  rw [regLocs4_length]
  rcases Nat.lt_trichotomy i st.locations.length with hi | hi | hi
  · have hrep := (regLocs4_skeleton track v parentLocIdx i st hi).1
    rw [hrep] at hres
    by_cases hip : i = parentLocIdx
    · subst hip
      rw [regLocs4_counter_parent track v i st hlen]
      rcases hrb i hres with hm | hb
      · unfold fieldsCounterAfterInit
        rw [hm]
        rw [if_neg (by omega)]
        rw [initFieldsCounterValue_resilient track _ hres]
        right
        simp only [INT_MAX]
        omega
      · unfold fieldsCounterAfterInit
        split
        · rename_i hge
          right
          omega
        · rw [initFieldsCounterValue_resilient track _ hres]
          right
          simp only [INT_MAX]
          omega
    · rw [regLocs4_counter_other track v parentLocIdx i st hip]
      rcases hrb i hres with hm | hb
      · exact Or.inl hm
      · right
        omega
  · subst hi
    left
    rw [regLocs4_counter_other track v parentLocIdx st.locations.length st
      (Nat.ne_of_gt hlen)]
    rw [getD_len_le st.locations _ (le_refl _)]
    rfl
  · left
    rw [regLocs4_counter_other track v parentLocIdx i st
      (by omega)]
    rw [getD_len_le st.locations i (Nat.le_of_lt hi)]
    rfl

theorem regLocs4_retain (track : Ty → Bool) (v : Val) (parentLocIdx i : Nat)
    (st : AnalysisState) (hrb : ResilientBound st.locations)
    (hlen : parentLocIdx < st.locations.length)
    (hi : i < st.locations.length)
    (hres : Ty.isResilientNominal
      (st.locations.getD i default).representativeValue.ty = true)
    (hbit : i ∈ (st.locations.getD i default).subLocations)
    (hsmall : (st.locations.length : Int) + 1 < INT_MAX) :
    i ∈ ((regLocs4 track v parentLocIdx st).getD i default).subLocations := by
  by_cases hip : i = parentLocIdx
  · subst hip
    rw [regLocs4_keep track v i i st hlen
      (regC0_resilient_ne track v i st hrb hlen hres hsmall)]
    exact hbit
  · rw [regLocs4_mem_other track v i parentLocIdx i st hip (Nat.ne_of_lt hi)]
    exact hbit

theorem lookupSubLoc_mem (smap : SubLocationMap) (key : Nat × Nat) (n : Nat) :
    lookupSubLoc smap key = some n → (∃ e ∈ smap, e.2 = n) := by
  induction smap with
  | nil => intro h; cases h
  | cons e rest ih =>
    intro h
    unfold lookupSubLoc at h
    split at h
    · cases h
      exact ⟨e, List.mem_cons_self _ _, rfl⟩
    · obtain ⟨e2, he2, hn⟩ := ih h
      exact ⟨e2, List.mem_cons.mpr (Or.inr he2), hn⟩

theorem retainOk_refl (a : AnalysisState) (hpl : ParentLt a.locations)
    (hrb : ResilientBound a.locations) : RetainOk a a :=
  ⟨le_refl _, hpl, hrb, fun _ _ => ⟨⟨rfl, rfl⟩, fun _ hbit _ => hbit⟩⟩

theorem retainOk_trans (a b c : AnalysisState) (hab : RetainOk a b)
    (hbc : RetainOk b c) : RetainOk a c := by
  obtain ⟨hl1, -, -, h1⟩ := hab
  obtain ⟨hl2, hpl2, hrb2, h2⟩ := hbc
  refine ⟨le_trans hl1 hl2, hpl2, hrb2, ?_⟩
  intro i hi
  have hib : i < b.locations.length := Nat.lt_of_lt_of_le hi hl1
  obtain ⟨⟨hr1, hp1⟩, hbit1⟩ := h1 i hi
  obtain ⟨⟨hr2, hp2⟩, hbit2⟩ := h2 i hib
  refine ⟨⟨hr2.trans hr1, hp2.trans hp1⟩, ?_⟩
  intro hres hbit hsm
  have hlenb : (b.locations.length : Int) < INT_MAX :=
    lt_of_le_of_lt (by exact_mod_cast hl2) hsm
  refine hbit2 ?_ (hbit1 hres hbit hlenb) hsm
  rw [hr1]
  exact hres

theorem append_root_parentLt (st : AnalysisState) (v : Val)
    (hpl : ParentLt st.locations) :
    ParentLt (st.locations ++ [Location.root v st.locations.length]) := by
  intro i p hp
  rcases Nat.lt_trichotomy i st.locations.length with hi | hi | hi
  · rw [getD_append_lt _ _ i hi] at hp
    exact hpl i p hp
  · subst hi
    rw [getD_concat_len] at hp
    exact absurd hp (by simp [Location.root])
  · rw [getD_len_le _ i (by simp; omega)] at hp
    exact absurd hp (by simp [default])

theorem append_root_resilientBound (st : AnalysisState) (v : Val)
    (hrb : ResilientBound st.locations) :
    ResilientBound (st.locations ++ [Location.root v st.locations.length]) := by
  intro i hres
  rcases Nat.lt_trichotomy i st.locations.length with hi | hi | hi
  · rw [getD_append_lt _ _ i hi] at hres ⊢
    rcases hrb i hres with hm | hb
    · exact Or.inl hm
    · right
      rw [List.length_append]
      simp only [List.length_cons, List.length_nil] at hb ⊢
      omega
  · subst hi
    rw [getD_concat_len]
    exact Or.inl rfl
  · rw [getD_len_le _ i (by simp; omega)]
    exact Or.inl rfl

theorem projRegister_retainOk (track : Ty → Bool) (v : Val)
    (fieldNr parentLocIdx : Nat) (stp : AnalysisState × SubLocationMap)
    (hpl : ParentLt stp.1.locations) (hrb : ResilientBound stp.1.locations)
    (hlen : parentLocIdx < stp.1.locations.length)
    (hsmb : SubMapBound stp.2 stp.1.locations) :
    RetainOk stp.1 (projRegister track v fieldNr parentLocIdx stp).1 ∧
      SubMapBound (projRegister track v fieldNr parentLocIdx stp).2
        (projRegister track v fieldNr parentLocIdx stp).1.locations ∧
      projSubLocIdx stp parentLocIdx fieldNr <
        (projRegister track v fieldNr parentLocIdx stp).1.locations.length := by
  unfold projRegister projSubLocIdx
  cases hlook : lookupSubLoc stp.2 (parentLocIdx, fieldNr) with
  | some idx =>
    refine ⟨retainOk_refl _ hpl hrb, hsmb, ?_⟩
    obtain ⟨e, he, hn⟩ := lookupSubLoc_mem _ _ _ hlook
    rw [← hn]
    exact hsmb e he
  | none =>
    have hloc : (registerProjection track v fieldNr parentLocIdx stp.1
        stp.2).1.locations = regLocs4 track v parentLocIdx stp.1 :=
      registerProjection_locations track v fieldNr parentLocIdx stp.1 stp.2
    have hlen4 : (regLocs4 track v parentLocIdx stp.1).length =
        stp.1.locations.length + 1 := regLocs4_length ..
    refine ⟨?_, ?_, ?_⟩
    · rw [RetainOk, hloc, hlen4]
      refine ⟨Nat.le_succ _, regLocs4_parentLt track v parentLocIdx stp.1 hpl hlen,
        regLocs4_resilientBound track v parentLocIdx stp.1 hrb hlen, ?_⟩
      intro i hi
      refine ⟨regLocs4_skeleton track v parentLocIdx i stp.1 hi, ?_⟩
      intro hres hbit hsm
      refine regLocs4_retain track v parentLocIdx i stp.1 hrb hlen hi hres hbit ?_
      push_cast at hsm ⊢
      omega
    · intro e he
      rw [hloc, hlen4]
      rcases List.mem_cons.mp he with rfl | he'
      · exact Nat.lt_succ_self _
      · exact Nat.lt_succ_of_lt (hsmb e he')
    · rw [hloc, hlen4]
      exact Nat.lt_succ_self _

theorem analyze_retain (track : Ty → Bool) :
    ∀ N : Nat,
      (∀ (l : List Use), sizeOf l ≤ N →
        ∀ (locIdx : Nat) (stp res : AnalysisState × SubLocationMap),
          analyzeLocationUsesRecursively track locIdx stp l = some res →
          ParentLt stp.1.locations → ResilientBound stp.1.locations →
          locIdx < stp.1.locations.length →
          SubMapBound stp.2 stp.1.locations →
          RetainOk stp.1 res.1 ∧ SubMapBound res.2 res.1.locations) ∧
      (∀ (u : Use), sizeOf u ≤ N →
        ∀ (locIdx : Nat) (stp res : AnalysisState × SubLocationMap),
          analyzeUse track locIdx stp u = some res →
          ParentLt stp.1.locations → ResilientBound stp.1.locations →
          locIdx < stp.1.locations.length →
          SubMapBound stp.2 stp.1.locations →
          RetainOk stp.1 res.1 ∧ SubMapBound res.2 res.1.locations) := by
  intro N
  induction N with
  | zero =>
    constructor
    · intro l hl
      exfalso
      cases l <;> simp at hl
    · intro u hu
      exfalso
      cases u <;> simp at hu
  | succ N ih =>
    obtain ⟨ihl, ihu⟩ := ih
    have hlist : ∀ (l : List Use), sizeOf l ≤ N + 1 →
        ∀ (locIdx : Nat) (stp res : AnalysisState × SubLocationMap),
          analyzeLocationUsesRecursively track locIdx stp l = some res →
          ParentLt stp.1.locations → ResilientBound stp.1.locations →
          locIdx < stp.1.locations.length →
          SubMapBound stp.2 stp.1.locations →
          RetainOk stp.1 res.1 ∧ SubMapBound res.2 res.1.locations := by
      intro l hl locIdx stp res hres hpl hrb hloc hsmb
      cases l with
      | nil =>
        cases hres
        exact ⟨retainOk_refl _ hpl hrb, hsmb⟩
      | cons u rest =>
        have hsz : sizeOf u ≤ N ∧ sizeOf rest ≤ N := by
          simp at hl
          omega
        rw [show analyzeLocationUsesRecursively track locIdx stp (u :: rest) =
            match analyzeUse track locIdx stp u with
            | none => none
            | some stp' =>
              analyzeLocationUsesRecursively track locIdx stp' rest from rfl]
          at hres
        cases hu : analyzeUse track locIdx stp u with
        | none => rw [hu] at hres; cases hres
        | some stp' =>
          rw [hu] at hres
          obtain ⟨hro1, hsmb1⟩ := ihu u hsz.1 locIdx stp stp' hu hpl hrb hloc hsmb
          obtain ⟨hro2, hsmb2⟩ := ihl rest hsz.2 locIdx stp' res hres
            hro1.2.1 hro1.2.2.1 (Nat.lt_of_lt_of_le hloc hro1.1) hsmb1
          exact ⟨retainOk_trans _ _ _ hro1 hro2, hsmb2⟩
    refine ⟨?_, ?_⟩
    · intro l hl
      rcases Nat.lt_or_ge (sizeOf l) (N + 1) with h | h
      · exact ihl l (by omega)
      · exact hlist l hl
    · intro u hu locIdx stp res hres hpl hrb hloc hsmb
      cases u
      case structElementAddr v fieldNr uses =>
        have hsz : sizeOf uses ≤ N := by
          simp at hu
          omega
        rw [show analyzeUse track locIdx stp (Use.structElementAddr v fieldNr uses) =
            (if ¬ track v.ty then some stp
            else
              match analyzeLocationUsesRecursively track
                  (projSubLocIdx stp locIdx fieldNr)
                  (projRegister track v fieldNr locIdx stp) uses with
              | none => none
              | some (st2, sm2) =>
                some (⟨st2.locations,
                  (v.id, projSubLocIdx stp locIdx fieldNr) :: st2.addr2LocIdx⟩,
                  sm2)) from rfl] at hres
        split at hres
        · cases hres
          exact ⟨retainOk_refl _ hpl hrb, hsmb⟩
        · obtain ⟨hro1, hsmb1, hidx1⟩ := projRegister_retainOk track v fieldNr
            locIdx stp hpl hrb hloc hsmb
          cases hrec : analyzeLocationUsesRecursively track
              (projSubLocIdx stp locIdx fieldNr)
              (projRegister track v fieldNr locIdx stp) uses with
          | none => rw [hrec] at hres; cases hres
          | some st2sm =>
            rw [hrec] at hres
            obtain ⟨st2, sm2⟩ := st2sm
            cases hres
            obtain ⟨hro2, hsmb2⟩ := ihl uses hsz
              (projSubLocIdx stp locIdx fieldNr)
              (projRegister track v fieldNr locIdx stp) (st2, sm2) hrec
              hro1.2.1 hro1.2.2.1 hidx1 hsmb1
            exact ⟨retainOk_trans _ _ _ hro1 hro2, hsmb2⟩
      case tupleElementAddr v fieldNr uses =>
        have hsz : sizeOf uses ≤ N := by
          simp at hu
          omega
        rw [show analyzeUse track locIdx stp (Use.tupleElementAddr v fieldNr uses) =
            (if ¬ track v.ty then some stp
            else
              match analyzeLocationUsesRecursively track
                  (projSubLocIdx stp locIdx fieldNr)
                  (projRegister track v fieldNr locIdx stp) uses with
              | none => none
              | some (st2, sm2) =>
                some (⟨st2.locations,
                  (v.id, projSubLocIdx stp locIdx fieldNr) :: st2.addr2LocIdx⟩,
                  sm2)) from rfl] at hres
        split at hres
        · cases hres
          exact ⟨retainOk_refl _ hpl hrb, hsmb⟩
        · obtain ⟨hro1, hsmb1, hidx1⟩ := projRegister_retainOk track v fieldNr
            locIdx stp hpl hrb hloc hsmb
          cases hrec : analyzeLocationUsesRecursively track
              (projSubLocIdx stp locIdx fieldNr)
              (projRegister track v fieldNr locIdx stp) uses with
          | none => rw [hrec] at hres; cases hres
          | some st2sm =>
            rw [hrec] at hres
            obtain ⟨st2, sm2⟩ := st2sm
            cases hres
            obtain ⟨hro2, hsmb2⟩ := ihl uses hsz
              (projSubLocIdx stp locIdx fieldNr)
              (projRegister track v fieldNr locIdx stp) (st2, sm2) hrec
              hro1.2.1 hro1.2.2.1 hidx1 hsmb1
            exact ⟨retainOk_trans _ _ _ hro1 hro2, hsmb2⟩
      case beginAccess uses =>
        have hsz : sizeOf uses ≤ N + 1 := by
          simp at hu
          omega
        exact hlist uses hsz locIdx stp res hres hpl hrb hloc hsmb
      case store q =>
        rw [show analyzeUse track locIdx stp (Use.store q) =
            (if q = StoreOwnershipQualifier.trivial then none else some stp)
          from rfl] at hres
        split at hres
        · cases hres
        · cases hres
          exact ⟨retainOk_refl _ hpl hrb, hsmb⟩
      all_goals cases hres
      all_goals exact ⟨retainOk_refl _ hpl hrb, hsmb⟩

theorem analyzeLocation_eq_cases (track : Ty → Bool) (st : AnalysisState)
    (v : Val) (uses : List Use) :
    analyzeLocation track st v uses = st ∨
    ∃ st2 sm2, analyzeLocationUsesRecursively track st.locations.length
        (⟨st.locations ++ [Location.root v st.locations.length],
          st.addr2LocIdx⟩, []) uses = some (st2, sm2) ∧
      track v.ty = true ∧
      analyzeLocation track st v uses =
        ⟨st2.locations, (v.id, st.locations.length) :: st2.addr2LocIdx⟩ := by
  unfold analyzeLocation
  by_cases ht : ¬ track v.ty = true
  · rw [if_pos ht]
    exact Or.inl rfl
  · rw [if_neg ht]
    simp only []
    cases hrec : analyzeLocationUsesRecursively track st.locations.length
        (⟨st.locations ++ [Location.root v st.locations.length],
          st.addr2LocIdx⟩, []) uses with
    | none => exact Or.inl rfl
    | some st2sm =>
      obtain ⟨st2, sm2⟩ := st2sm
      exact Or.inr ⟨st2, sm2, rfl, by revert ht; exact fun h => Classical.byContradiction fun h2 => h h2, rfl⟩

theorem analyzeLocation_resilient_retain (track : Ty → Bool)
    (st : AnalysisState) (v : Val) (uses : List Use)
    (hpl : ParentLt st.locations) (hrb : ResilientBound st.locations)
    (i : Nat) (hi : i < st.locations.length)
    (hres : Ty.isResilientNominal
      (st.locations.getD i default).representativeValue.ty = true)
    (hbit : i ∈ (st.locations.getD i default).subLocations)
    (hsmall : ((analyzeLocation track st v uses).locations.length : Int) <
      INT_MAX) :
    i ∈ ((analyzeLocation track st v uses).locations.getD i
      default).subLocations := by
  rcases analyzeLocation_eq_cases track st v uses with heq |
    ⟨st2, sm2, hrec, -, heq⟩
  · rw [heq]
    exact hbit
  · rw [heq] at hsmall ⊢
    have hst1pl : ParentLt (st.locations ++
        [Location.root v st.locations.length]) :=
      append_root_parentLt st v hpl
    have hst1rb : ResilientBound (st.locations ++
        [Location.root v st.locations.length]) :=
      append_root_resilientBound st v hrb
    obtain ⟨hro, -⟩ := (analyze_retain track (sizeOf uses)).1 uses (le_refl _)
      st.locations.length
      (⟨st.locations ++ [Location.root v st.locations.length],
        st.addr2LocIdx⟩, []) (st2, sm2) hrec hst1pl hst1rb
      (by simp) (fun e he => absurd he (List.not_mem_nil e))
    obtain ⟨-, -, -, h⟩ := hro
    have hi1 : i < (st.locations ++
        [Location.root v st.locations.length]).length := by
      simp
      omega
    obtain ⟨-, hkeep⟩ := h i hi1
    rw [getD_append_lt _ _ i hi] at hkeep
    exact hkeep hres hbit hsmall

/-- C6: for an aggregate location the not-yet-projected field counter is
lazily initialized (to `INT_MAX` for a resilient/open aggregate, else to the
number of tracked fields) and decremented on each registration of a distinct
field projection; the registration that brings it to zero (the N-th distinct
field of an enumerable aggregate) removes the parent's own bit from the
`subLocations` set of the parent and of every transitive ancestor, while any
other registration leaves the parent-bit membership of every table entry
unchanged; and for a resilient aggregate the counter can never reach zero as
long as the table stays below `INT_MAX` entries, so a whole-root analysis
never removes the own bit of a resilient location. -/
theorem fieldsCounter_parent_bit_retirement (track : Ty → Bool)
    (st : AnalysisState) (smap : SubLocationMap) (v : Val)
    (fieldNr parentLocIdx : Nat)
    (hpl : ParentLt st.locations) (hrb : ResilientBound st.locations)
    (hlen : parentLocIdx < st.locations.length) :
    (((registerProjection track v fieldNr parentLocIdx st
        smap).1.locations.getD parentLocIdx
          default).numFieldsNotCoveredBySubfields =
      fieldsCounterAfterInit track
        (st.locations.getD parentLocIdx default) - 1) ∧
    (fieldsCounterAfterInit track
        (st.locations.getD parentLocIdx default) - 1 = 0 →
      ∀ j ∈ ancestorChain st.locations (parentLocIdx + 1) parentLocIdx,
        parentLocIdx ∉
          ((registerProjection track v fieldNr parentLocIdx st
            smap).1.locations.getD j default).subLocations) ∧
    (fieldsCounterAfterInit track
        (st.locations.getD parentLocIdx default) - 1 ≠ 0 →
      ∀ j, (parentLocIdx ∈
          ((registerProjection track v fieldNr parentLocIdx st
            smap).1.locations.getD j default).subLocations ↔
        parentLocIdx ∈ (st.locations.getD j default).subLocations)) ∧
    (∀ ty, Ty.isResilientNominal ty = true →
      initFieldsCounterValue track ty = INT_MAX) ∧
    (∀ (rv : Val) (uses : List Use) (i : Nat), i < st.locations.length →
      Ty.isResilientNominal
        (st.locations.getD i default).representativeValue.ty = true →
      i ∈ (st.locations.getD i default).subLocations →
      ((analyzeLocation track st rv uses).locations.length : Int) < INT_MAX →
      i ∈ ((analyzeLocation track st rv uses).locations.getD i
        default).subLocations) := by
  have hloc : (registerProjection track v fieldNr parentLocIdx st
      smap).1.locations = regLocs4 track v parentLocIdx st :=
    registerProjection_locations track v fieldNr parentLocIdx st smap
  refine ⟨?_, ?_, ?_,
    fun ty hty => initFieldsCounterValue_resilient track ty hty, ?_⟩
  · rw [hloc]
    exact regLocs4_counter_parent track v parentLocIdx st hlen
  · intro h0 j hj
    rw [hloc]
    refine regLocs4_retire track v parentLocIdx st hpl hlen ?_ j hj
    rw [regC0_eq track v parentLocIdx st hlen]
    exact h0
  · intro h0 j
    rw [hloc]
    refine regLocs4_keep track v parentLocIdx j st hlen ?_
    rw [regC0_eq track v parentLocIdx st hlen]
    exact h0
  · intro rv uses i hi hres hbit hsm
    exact analyzeLocation_resilient_retain track st rv uses hpl hrb i hi hres
      hbit hsm

/-- Witness for `fieldsCounter_parent_bit_retirement` at concrete inputs:
registering the single tracked field of a one-field tuple drops the
counter to zero and retires the parent's own bit. -/
theorem fieldsCounter_parent_bit_retirement_witness :
    0 < stW6.locations.length ∧
      fieldsCounterAfterInit trackAll (stW6.locations.getD 0 default) - 1 = 0 ∧
      0 ∉ ((registerProjection trackAll vW6p 0 0 stW6
        []).1.locations.getD 0 default).subLocations := by
  refine ⟨by decide, by decide, ?_⟩
  refine (fieldsCounter_parent_bit_retirement trackAll stW6 [] vW6p 0 0
    ?_ ?_ (by decide)).2.1 (by decide) 0 (by decide)
  · intro i p hp
    rcases i with _ | n
    · exact Option.noConfusion hp
    · rw [getD_len_le _ _ (Nat.succ_le_succ (Nat.zero_le n))] at hp
      exact Option.noConfusion hp
  · intro i hres
    rcases i with _ | n
    · exact absurd hres (by decide)
    · rw [getD_len_le _ _ (Nat.succ_le_succ (Nat.zero_le n))] at hres
      exact absurd hres (by decide)
